import Mathlib

/-!
# MyBash (`lavash`): the lexer, the command builder and the evaluator

A model of `src/main.cpp`.

* The character source (`std::stringstream`) is the list of characters not yet read; a
  `std::string` is the list of its characters, and a `Char` stands for one `char`.
* A call that may not come back to its caller yields an `Except Ending`: the value, or the
  way the process ended (`_exit`, a successful `execvp`, an uncaught exception, a loop
  without end, undefined behaviour).
* What the operating system answers is a `World`; what a run does that can be seen from
  outside (`fork`, `pipe`, `open`, `execvp`, text on the error stream) is its `Trace`.
  Each process has its own descriptor table; a child of `fork` is a copy of its parent.
* Loops whose number of rounds is bounded by the characters left take that bound as fuel.
-/

namespace MyBash

/-! ## Tokens (main.cpp 11-33) -/

/-- A `SymbolToken` is a `std::string` (main.cpp 11). -/
abbrev SymbolToken := List Char

/-- The enum `FlowToken` (main.cpp 13). -/
inductive FlowToken where
  | IN
  | OUT
  deriving DecidableEq, Repr

/-- The enum `LogicToken` (main.cpp 15). -/
inductive LogicToken where
  | AND
  | OR
  deriving DecidableEq, Repr

/-- The variant `Token` (main.cpp 23): a word, a redirection, a connective or the pipe. -/
inductive Token where
  | symbol (s : SymbolToken)
  | flow (f : FlowToken)
  | logic (l : LogicToken)
  | pipe
  deriving DecidableEq, Repr

/-! ## The character source -/

/-- The double quote character. -/
def dquote : Char := Char.ofNat 34

/-- The single quote character. -/
def squote : Char := Char.ofNat 39

/-- The escape character, a backslash. -/
def escape : Char := Char.ofNat 92

/-- What `char c = stream_->get()` stores when the source is exhausted: `get()` returns
`EOF` (-1), which as a `char` is the byte 255. -/
def eofChar : Char := Char.ofNat 255

/-- The predicate `std::isspace` in the "C" locale: space, `\t`, `\n`, `\v`, `\f`, `\r`.
It is false on `EOF`. -/
def isspace (c : Char) : Bool :=
  c == ' ' || (9 ≤ c.toNat && c.toNat ≤ 13)

/-! ## Tokenizer (main.cpp 35-111) -/

/-- The class `Tokenizer`: `stream` is what `*stream_` has not yet delivered, `token` is
`token_`. -/
structure Tokenizer where
  stream : List Char
  token : Token
  deriving DecidableEq, Repr

/-- The constructor `Tokenizer(in)` (main.cpp 37): `token_` is default-constructed, which
for the variant is the empty `SymbolToken`. -/
def Tokenizer.new (line : List Char) : Tokenizer :=
  ⟨line, Token.symbol []⟩

/-- The method `IsEnd` (main.cpp 40-42): `peek()` is `EOF`. -/
def Tokenizer.IsEnd (t : Tokenizer) : Bool :=
  t.stream.isEmpty

/-- The method `GetToken` (main.cpp 44-46). -/
def Tokenizer.GetToken (t : Tokenizer) : Token :=
  t.token

/-- The first `get()` and the loop `while (std::isspace(c)) c = stream_->get();`
(main.cpp 49-53): the first character that is not whitespace, and what is left after it.
On an exhausted source `get()` yields `EOF`, which is no whitespace, and the source stays
exhausted. -/
def skipSpaces : List Char → Char × List Char
  | [] => (eofChar, [])
  | c :: cs => if isspace c then skipSpaces cs else (c, cs)

/-- The loop of a quoted word (main.cpp 83-88) with `q` the opening quote and `cur` the
word so far, followed by the `get()` of the closing quote (main.cpp 89).  Each round appends
the next character; when it is an escape character and the one after it is one too, that
second one is read and dropped.  `none`: the source ends before a closing quote, `peek()`
stays `EOF`, and the loop never ends. -/
def readQuoted (q : Char) : List Char → SymbolToken → Option (SymbolToken × List Char)
  | [], _ => none
  | [c], cur => if c = q then some (cur, []) else none
  | c :: d :: ds, cur =>
    if c = q then some (cur, d :: ds)
    else if d = escape ∧ c = escape then readQuoted q ds (cur ++ [c])
    else readQuoted q (d :: ds) (cur ++ [c])

/-- The loop `while (stream_->peek() == '\\') stream_->get();` (main.cpp 95-97). -/
def dropEscapes : List Char → List Char
  | [] => []
  | c :: cs => if c = escape then dropEscapes cs else c :: cs

/-- The loop `while (!std::isspace(stream_->peek()) && !IsEnd()) current += stream_->get();`
(main.cpp 102-104), `cur` being `current`. -/
def readWord : List Char → SymbolToken → SymbolToken × List Char
  | [], cur => (cur, [])
  | c :: cs, cur => if isspace c then (cur, c :: cs) else readWord cs (cur ++ [c])

/-- The body of `Next` after the whitespace loop (main.cpp 55-105), `c` being the character
read and `s` the rest of the source. -/
def nextFrom (c : Char) (s : List Char) : Option Tokenizer :=
  if c = '>' then some ⟨s, Token.flow FlowToken.OUT⟩
  else if c = '<' then some ⟨s, Token.flow FlowToken.IN⟩
  else if c = '|' then
    match s with
    | d :: s1 => if d = '|' then some ⟨s1, Token.logic LogicToken.OR⟩ else some ⟨s, Token.pipe⟩
    | [] => some ⟨s, Token.pipe⟩
  else if c = '&' ∧ s.head? = some '&' then some ⟨s.tail, Token.logic LogicToken.AND⟩
  else if c = dquote ∨ c = squote then
    match readQuoted c s [] with
    | some (w, s1) => some ⟨s1, Token.symbol w⟩
    | none => none
  else
    let s1 := if c = escape then dropEscapes s else s
    let cur := if c = escape then [] else [c]
    let r := readWord s1 cur
    some ⟨r.2, Token.symbol r.1⟩

/-- The method `Next` (main.cpp 48-106).  `none`: the call does not return (a quoted word
without its closing quote). -/
def Tokenizer.Next (t : Tokenizer) : Option Tokenizer :=
  nextFrom (skipSpaces t.stream).1 (skipSpaces t.stream).2

/-- Calling `Next` until `IsEnd` holds, at most `fuel` times: the tokenizer after each
call.  `none`: a call of `Next` does not return, or `fuel` calls did not reach the end. -/
def statesLoop : Nat → Tokenizer → Option (List Tokenizer)
  | 0, _ => none
  | fuel + 1, t =>
    if t.IsEnd then some []
    else
      match t.Next with
      | none => none
      | some t1 =>
        match statesLoop fuel t1 with
        | none => none
        | some ts => some (t1 :: ts)

/-- The tokenizer after each call of `Next`, calling it until `IsEnd` holds.  Every call
made while `IsEnd` is false reads a character, so one more round than characters are left
is enough. -/
def Tokenizer.states (t : Tokenizer) : Option (List Tokenizer) :=
  statesLoop (t.stream.length + 1) t

/-- The tokens of a line: `Next` until `IsEnd`, the token after each call. -/
def tokens (line : List Char) : Option (List Token) :=
  (Tokenizer.new line).states.map (List.map Tokenizer.token)

/-! ## How a process ends -/

/-- What `waitpid` reports about a child: it ended by itself with an exit code
(`WIFEXITED`, the code being `WEXITSTATUS`), or it did not, `raw` being the status word. -/
inductive WaitStatus where
  | exited (code : Int)
  | signaled (raw : Int)
  deriving DecidableEq, Repr

/-- The ways in which a call, and with it the process, does not come back to its caller. -/
inductive Ending where
  /-- The call `_exit(code)`. -/
  | exited (code : Int)
  /-- A successful `execvp`: the process is now the program, which ends as `ws`. -/
  | replaced (ws : WaitStatus)
  /-- The exception `std::bad_variant_access` of `std::get`, which nothing catches. -/
  | badVariantAccess
  /-- A loop that never ends. -/
  | hang
  /-- Undefined behaviour: `args[0]` of an empty vector, or reading `status` unset. -/
  | undefined
  /-- The model ran out of fuel; the program has no such outcome. -/
  | outOfFuel
  deriving DecidableEq, Repr

/-! ## Command and GetCommand (main.cpp 113-147) -/

/-- The struct `Command` (main.cpp 113-117); `in_` is the member `in`. -/
structure Command where
  args : List SymbolToken := []
  in_ : SymbolToken := []
  out : SymbolToken := []
  deriving DecidableEq, Repr

/-- What follows the `if`/`else` of the loop body of `GetCommand` (main.cpp 140-144):
leave the loop at the end of the source, otherwise read the next token and go round
again, `loop` being the rest of the loop. -/
def getCommandStep (loop : Tokenizer → Command → Except Ending (Command × Tokenizer))
    (t : Tokenizer) (cmd : Command) : Except Ending (Command × Tokenizer) :=
  if t.IsEnd then Except.ok (cmd, t)
  else
    match t.Next with
    | none => Except.error Ending.hang
    | some t1 => loop t1 cmd

/-- The loop of `GetCommand` (main.cpp 132-145), entered with `current = t.GetToken()`;
at the head of the loop `current` is always the tokenizer's token.  A word is appended to
`args`.  A redirection reads one more token, and `As<SymbolToken>` throws when that is not
a word.  A connective or a pipe ends the loop. -/
def GetCommandLoop : Nat → Tokenizer → Command → Except Ending (Command × Tokenizer)
  | 0, _, _ => Except.error Ending.outOfFuel
  | fuel + 1, t, cmd =>
    match t.GetToken with
    | Token.logic _ => Except.ok (cmd, t)
    | Token.pipe => Except.ok (cmd, t)
    | Token.symbol s =>
      getCommandStep (GetCommandLoop fuel) t { cmd with args := cmd.args ++ [s] }
    | Token.flow f =>
      match t.Next with
      | none => Except.error Ending.hang
      | some t1 =>
        match t1.GetToken with
        | Token.symbol s =>
          getCommandStep (GetCommandLoop fuel) t1
            (if f = FlowToken.IN then { cmd with in_ := s } else { cmd with out := s })
        | _ => Except.error Ending.badVariantAccess

/-- The function `GetCommand` (main.cpp 128-147).  Every round of the loop but the last
reads at least one character, so one more round than characters are left is enough. -/
def GetCommand (t : Tokenizer) : Except Ending (Command × Tokenizer) :=
  match t.Next with
  | none => Except.error Ending.hang
  | some t1 => GetCommandLoop (t1.stream.length + 1) t1 {}

/-! ## File descriptors

The descriptor table of a process, as far as `dup2`, `close`, `open` and `pipe` act on it.
-/

/-- What an open descriptor refers to. -/
inductive Desc where
  /-- What the interpreter was started with under descriptor `fd` (0, 1, 2). -/
  | inherited (fd : Nat)
  /-- The read end of the pipe created as the `id`-th event. -/
  | pipeRead (id : Nat)
  /-- The write end of the pipe created as the `id`-th event. -/
  | pipeWrite (id : Nat)
  /-- A file opened with `O_RDONLY`. -/
  | fileIn (path : SymbolToken)
  /-- A file opened with `O_WRONLY | O_CREAT | O_TRUNC | O_CLOEXEC`. -/
  | fileOut (path : SymbolToken)
  deriving DecidableEq, Repr

/-- A descriptor table: entry `n` is what descriptor `n` refers to, `none` when closed. -/
abbrev FdTable := List (Option Desc)

/-- The table the interpreter starts with: standard input, output and error. -/
def stdFds : FdTable :=
  [some (Desc.inherited 0), some (Desc.inherited 1), some (Desc.inherited 2)]

/-- What descriptor `fd` refers to, `none` when it is not open. -/
def fdGet (fds : FdTable) (fd : Int) : Option Desc :=
  if fd < 0 then none else fds.getD fd.toNat none

/-- The table with entry `fd` set to `d`. -/
def fdPut (fds : FdTable) (fd : Nat) (d : Option Desc) : FdTable :=
  if fd < fds.length then fds.set fd d
  else fds ++ List.replicate (fd - fds.length) none ++ [d]

/-- The lowest descriptor that is not open, which `open` and `pipe` hand out. -/
def lowestFree (fds : FdTable) : Nat :=
  fds.findIdx Option.isNone

/-- The call `close(fd)`; it fails and changes nothing when `fd` is not open. -/
def close (fds : FdTable) (fd : Int) : FdTable :=
  match fdGet fds fd with
  | none => fds
  | some _ => fdPut fds fd.toNat none

/-- The call `dup2(oldfd, newfd)` with `newfd` 0 or 1: it fails and changes nothing when
`oldfd` is not open, does nothing when both are the same, and otherwise makes `newfd`
refer to what `oldfd` refers to. -/
def dup2 (fds : FdTable) (oldfd : Int) (newfd : Nat) : FdTable :=
  match fdGet fds oldfd with
  | none => fds
  | some d => if oldfd = newfd then fds else fdPut fds newfd (some d)

/-- The idiom `dup2(fd, target); close(fd);` (main.cpp 158-159, 162-163, 171-172, 179-180). -/
def moveFd (fds : FdTable) (fd : Int) (target : Nat) : FdTable :=
  close (dup2 fds fd target) fd

/-! ## The world outside and the trace of a run -/

/-- What a process does that the world outside can see. -/
inductive Action where
  /-- A call of `Exec(cmd, from, to)` reached `fork()`: a child exists. -/
  | fork (cmd : Command) (from_ : Int) (to_ : Int)
  /-- A call of `pipe(pfd)` and whether it succeeded. -/
  | pipe (ok : Bool)
  /-- A call `open(path, O_RDONLY)` and whether it succeeded. -/
  | openIn (path : SymbolToken) (ok : Bool)
  /-- A call `open(path, O_WRONLY | O_CREAT | O_TRUNC | O_CLOEXEC, 0666)` and whether it
  succeeded. -/
  | openOut (path : SymbolToken) (ok : Bool)
  /-- Text written to the error stream. -/
  | cerr (text : List Char)
  /-- A call `execvp(args[0], args)`, whether it found the program, and what the
  descriptors 0 and 1 of the process refer to at that moment. -/
  | execvp (args : List SymbolToken) (found : Bool) (stdin : Option Desc)
      (stdout : Option Desc)
  deriving DecidableEq, Repr

/-- An action and the process that did it: `depth` 0 is the interpreter, `depth` `k + 1` a
child forked by a process of depth `k`. -/
structure Event where
  depth : Nat
  act : Action
  deriving DecidableEq, Repr

/-- The trace of a run: its events, oldest first. -/
abbrev Trace := List Event

/-- The answers of the operating system.  Each may depend on everything that happened
before, which is the trace so far. -/
structure World where
  /-- Whether `open(path, O_RDONLY)` succeeds. -/
  canRead : Trace → SymbolToken → Bool
  /-- Whether `open(path, O_WRONLY | O_CREAT | O_TRUNC | O_CLOEXEC, 0666)` succeeds. -/
  canWrite : Trace → SymbolToken → Bool
  /-- Whether `execvp` finds and starts the program of that name. -/
  found : Trace → SymbolToken → Bool
  /-- How a program started by `execvp` with these arguments ends. -/
  wait : Trace → List SymbolToken → WaitStatus
  /-- Whether `pipe` succeeds. -/
  pipeOk : Trace → Bool
  /-- The text of `strerror(errno)` that `perror` prints. -/
  strerror : Trace → List Char
  /-- The status word of a child ended by `abort()`. -/
  abortStatus : Int

/-- The text written to the error stream in a trace, by the interpreter and the children
it forked (not by the programs they became). -/
def errOutput : Trace → List Char
  | [] => []
  | e :: tr =>
    match e.act with
    | Action.cerr text => text ++ errOutput tr
    | _ => errOutput tr

/-- The programs started in a trace (successful `execvp` calls), oldest first. -/
def programsRun : Trace → List (List SymbolToken)
  | [] => []
  | e :: tr =>
    match e.act with
    | Action.execvp args true _ _ => args :: programsRun tr
    | _ => programsRun tr

/-- The state of one process: its tokenizer, its descriptor table, and how many `fork`s
away from the interpreter it is. -/
structure Proc where
  t : Tokenizer
  fds : FdTable
  depth : Nat
  deriving DecidableEq, Repr

/-! ## Exec, the part that runs in the child (main.cpp 149-188) -/

/-- The function `IsCaosMainConst` (main.cpp 149-151). -/
def IsCaosMainConst (name : SymbolToken) : Bool :=
  name == "1984".toList

/-- The text `"./lavash: line 1: " << what << tail` that the program writes to `std::cerr`
(main.cpp 168, 186, 222). -/
def lavashMessage (what : SymbolToken) (tail : String) : List Char :=
  "./lavash: line 1: ".toList ++ what ++ tail.toList

/-- The two redirections of a command (main.cpp 165-181, and again 219-236), done by the
process of depth `depth` on its table `fds`: the input file, when `cmd.in` is not empty,
is opened and moved to descriptor 0, and a failure is reported on the error stream and
ends the process with `EXIT_FAILURE`; then the output file, when `cmd.out` is not empty,
is opened and moved to descriptor 1, and a failure ends the process silently. -/
def redirect (w : World) (depth : Nat) (fds : FdTable) (cmd : Command) (tr : Trace) :
    Trace × Except Ending FdTable :=
  let inStep : Trace × Except Ending FdTable :=
    if cmd.in_ = [] then (tr, Except.ok fds)
    else if w.canRead tr cmd.in_ then
      (tr ++ [⟨depth, Action.openIn cmd.in_ true⟩],
        Except.ok (moveFd (fdPut fds (lowestFree fds) (some (Desc.fileIn cmd.in_)))
          (lowestFree fds) 0))
    else
      (tr ++ [⟨depth, Action.openIn cmd.in_ false⟩,
          ⟨depth, Action.cerr (lavashMessage cmd.in_ ": No such file or directory\n")⟩],
        Except.error (Ending.exited 1))
  match inStep with
  | (tr1, Except.error e) => (tr1, Except.error e)
  | (tr1, Except.ok fds1) =>
    if cmd.out = [] then (tr1, Except.ok fds1)
    else if w.canWrite tr1 cmd.out then
      (tr1 ++ [⟨depth, Action.openOut cmd.out true⟩],
        Except.ok (moveFd (fdPut fds1 (lowestFree fds1) (some (Desc.fileOut cmd.out)))
          (lowestFree fds1) 1))
    else (tr1 ++ [⟨depth, Action.openOut cmd.out false⟩], Except.error (Ending.exited 1))

/-- The body of `if (pid == 0)` in `Exec` (main.cpp 157-187), run by the child `p`.
`Except.ok`: the child reached `return EXIT_SUCCESS` (main.cpp 183) and goes on, with
the state given, where `Exec` was called.  Otherwise the child ended: a failed
redirection, `args[0]` of an empty vector, a program started by `execvp`, or `_exit(127)`
after the message that the command was not found. -/
def ExecChild (w : World) (p : Proc) (cmd : Command) (from_ to_ : Int) (tr : Trace) :
    Trace × Except Ending Proc :=
  let fds1 := if from_ ≠ -1 then moveFd p.fds from_ 0 else p.fds
  let fds2 := if to_ ≠ -1 then moveFd fds1 to_ 1 else fds1
  match redirect w p.depth fds2 cmd tr with
  | (tr1, Except.error e) => (tr1, Except.error e)
  | (tr1, Except.ok fds3) =>
    match cmd.args with
    | [] => (tr1, Except.error Ending.undefined)
    | name :: _ =>
      if IsCaosMainConst name then (tr1, Except.ok { p with fds := fds3 })
      else if w.found tr1 name then
        (tr1 ++ [⟨p.depth, Action.execvp cmd.args true (fdGet fds3 0) (fdGet fds3 1)⟩],
          Except.error (Ending.replaced (w.wait tr1 cmd.args)))
      else
        (tr1 ++ [⟨p.depth, Action.execvp cmd.args false (fdGet fds3 0) (fdGet fds3 1)⟩,
            ⟨p.depth, Action.cerr (lavashMessage name ": command not found\n")⟩],
          Except.error (Ending.exited 127))

/-! ## The evaluator over a launcher (main.cpp 197-274)

`ExecPipe` and `Execute` call `Exec`.  They are first given for an arbitrary launcher in
the place of `Exec`: any way in which a call of `Exec` may turn out for its caller.  The
launcher of the program itself, `Exec`, follows.
-/

/-- The two places where `Exec` is called. -/
inductive Site where
  /-- The call `status = Exec(cmd)` in `Execute` (main.cpp 258). -/
  | execute
  /-- The call `Exec(cmd, in, pfd[1])` in `ExecPipe` (main.cpp 207), `pfd0` being `pfd[0]`. -/
  | execPipe (pfd0 : Int)
  deriving DecidableEq, Repr

/-- A call `Exec(cmd, from, to)` as its caller sees it, made at a site by the process `p`
with the trace so far: the trace afterwards, and either the status returned or the way
the calling process ended inside the call. -/
abbrev Launcher := Site → Proc → Command → Int → Int → Trace → Trace × Except Ending Int

/-- The call `pipe(pfd)` on a table, `id` naming the pipe: the new table, `pfd[0]` and
`pfd[1]`. -/
def pipeFds (fds : FdTable) (id : Nat) : FdTable × Int × Int :=
  let fds1 := fdPut fds (lowestFree fds) (some (Desc.pipeRead id))
  (fdPut fds1 (lowestFree fds1) (some (Desc.pipeWrite id)), lowestFree fds, lowestFree fds1)

/-- The loop body of `ExecPipe` after the call of `Exec` (main.cpp 208-213):
`close(pfd[1]); in = pfd[0]; cmd = GetCommand(t);`, then leave the loop at the end of the
source or go round again, `loop` being the rest of the loop.  The loop yields the process
state, `cmd` and `in`. -/
def pipeResume (loop : Proc → Command → Int → Trace → Trace × Except Ending (Proc × Command × Int))
    (p : Proc) (pfd0 pfd1 : Int) (tr : Trace) : Trace × Except Ending (Proc × Command × Int) :=
  match GetCommand p.t with
  | Except.error e => (tr, Except.error e)
  | Except.ok (cmd, t) =>
    if t.IsEnd then (tr, Except.ok ({ p with t := t, fds := close p.fds pfd1 }, cmd, pfd0))
    else loop { p with t := t, fds := close p.fds pfd1 } cmd pfd0 tr

/-- The loop of `ExecPipe` (main.cpp 202-214), `in_` being `in`.  A failing `pipe` is
reported by `perror` and ends the process.  The status that `Exec` returns is not used. -/
def ExecPipeLoop (w : World) (launch : Launcher) :
    Nat → Proc → Command → Int → Trace → Trace × Except Ending (Proc × Command × Int)
  | 0, _, _, _, tr => (tr, Except.error Ending.outOfFuel)
  | fuel + 1, p, cmd, in_, tr =>
    if p.t.GetToken = Token.pipe then
      if w.pipeOk tr then
        let pf := pipeFds p.fds tr.length
        let p1 : Proc := { p with fds := pf.1 }
        match launch (Site.execPipe pf.2.1) p1 cmd in_ pf.2.2
            (tr ++ [⟨p.depth, Action.pipe true⟩]) with
        | (tr1, Except.error e) => (tr1, Except.error e)
        | (tr1, Except.ok _) => pipeResume (ExecPipeLoop w launch fuel) p1 pf.2.1 pf.2.2 tr1
      else
        (tr ++ [⟨p.depth, Action.pipe false⟩,
            ⟨p.depth, Action.cerr ("pipe: ".toList ++ w.strerror tr ++ "\n".toList)⟩],
          Except.error (Ending.exited 1))
    else (tr, Except.ok (p, cmd, in_))

/-- The rest of `ExecPipe` after its loop (main.cpp 215-247), run by the calling process
itself: `in` becomes descriptor 0, the redirections of the last command are done, and the
process becomes the program.  It returns only for the sentinel, with status 0.  When
`execvp` fails, `waitpid(0, ...)` finds no child, since `Exec` has waited for each, and
`status` is read unset. -/
def ExecPipeTail (w : World) (p : Proc) (cmd : Command) (in_ : Int) (tr : Trace) :
    Trace × Except Ending (Int × Proc) :=
  let fds1 := if in_ ≠ 0 then dup2 p.fds in_ 0 else p.fds
  match redirect w p.depth fds1 cmd tr with
  | (tr1, Except.error e) => (tr1, Except.error e)
  | (tr1, Except.ok fds2) =>
    match cmd.args with
    | [] => (tr1, Except.error Ending.undefined)
    | name :: _ =>
      if IsCaosMainConst name then (tr1, Except.ok (0, { p with fds := fds2 }))
      else if w.found tr1 name then
        (tr1 ++ [⟨p.depth, Action.execvp cmd.args true (fdGet fds2 0) (fdGet fds2 1)⟩],
          Except.error (Ending.replaced (w.wait tr1 cmd.args)))
      else
        (tr1 ++ [⟨p.depth, Action.execvp cmd.args false (fdGet fds2 0) (fdGet fds2 1)⟩],
          Except.error Ending.undefined)

/-- The function `ExecPipe` (main.cpp 197-248) over a launcher: the status returned and
the state of the process then, or the way the process ended. -/
def ExecPipeWith (w : World) (launch : Launcher) (p : Proc) (cmd : Command) (tr : Trace) :
    Trace × Except Ending (Int × Proc) :=
  match ExecPipeLoop w launch (p.t.stream.length + 1) p cmd 0 tr with
  | (tr1, Except.error e) => (tr1, Except.error e)
  | (tr1, Except.ok (p1, cmd1, in_)) => ExecPipeTail w p1 cmd1 in_ tr1

/-- The skipping loop of `Execute` (main.cpp 267-270): commands are built and dropped
until the source ends or the token is `||`. -/
def SkipLoop : Nat → Tokenizer → Except Ending Tokenizer
  | 0, _ => Except.error Ending.outOfFuel
  | fuel + 1, t =>
    if !t.IsEnd && t.GetToken ≠ Token.logic LogicToken.OR then
      match GetCommand t with
      | Except.error e => Except.error e
      | Except.ok (_, t1) => SkipLoop fuel t1
    else Except.ok t

/-- The end of the loop body of `Execute` (main.cpp 260-271), `status` being the status
just stored.  `none`: `return 0`.  Otherwise the tokenizer with which the loop goes on:
unchanged when the token is no connective or the status is 0, after the skipping loop
when a connective follows a failure. -/
def logicStep (t : Tokenizer) (status : Int) : Except Ending (Option Tokenizer) :=
  match t.GetToken with
  | Token.logic l =>
    if l = LogicToken.OR ∧ status = 0 then Except.ok none
    else if status = 0 then Except.ok (some t)
    else
      match SkipLoop (t.stream.length + 1) t with
      | Except.error e => Except.error e
      | Except.ok t1 => Except.ok (some t1)
  | _ => Except.ok (some t)

/-- The loop body of `Execute` from line 260 on, once `status` is stored, then the rest
of the loop, `loop`. -/
def executeResume (loop : Proc → Int → Trace → Trace × Except Ending Int)
    (p : Proc) (status : Int) (tr : Trace) : Trace × Except Ending Int :=
  match logicStep p.t status with
  | Except.error e => (tr, Except.error e)
  | Except.ok none => (tr, Except.ok 0)
  | Except.ok (some t) => loop { p with t := t } status tr

/-- The loop of `Execute` (main.cpp 253-273) over a launcher: the status returned, or the
way the process ended. -/
def ExecuteLoop (w : World) (launch : Launcher) :
    Nat → Proc → Int → Trace → Trace × Except Ending Int
  | 0, _, _, tr => (tr, Except.error Ending.outOfFuel)
  | fuel + 1, p, status, tr =>
    if p.t.IsEnd then (tr, Except.ok status)
    else
      match GetCommand p.t with
      | Except.error e => (tr, Except.error e)
      | Except.ok (cmd, t) =>
        if t.GetToken = Token.pipe then
          match ExecPipeWith w launch { p with t := t } cmd tr with
          | (tr1, Except.error e) => (tr1, Except.error e)
          | (tr1, Except.ok (st, p1)) => executeResume (ExecuteLoop w launch fuel) p1 st tr1
        else
          match launch Site.execute { p with t := t } cmd (-1) (-1) tr with
          | (tr1, Except.error e) => (tr1, Except.error e)
          | (tr1, Except.ok st) =>
            executeResume (ExecuteLoop w launch fuel) { p with t := t } st tr1

/-- The function `Execute` (main.cpp 250-274) over a launcher.  Every round of its loop
reads at least one character, so one more round than characters are left is enough. -/
def ExecuteWith (w : World) (launch : Launcher) (p : Proc) (tr : Trace) :
    Trace × Except Ending Int :=
  ExecuteLoop w launch (p.t.stream.length + 1) p 0 tr

/-! ## Exec (main.cpp 153-195) -/

/-- How a child that came back from `Exec` with `EXIT_SUCCESS` (main.cpp 183) goes on and
ends.  It is a copy of its parent, so it goes on in the caller of `Exec`: in the loop of
`Execute` with status 0, or in the loop of `ExecPipe`, then in the rest of `ExecPipe`
and in `Execute` with the status of `ExecPipe`.  When `Execute` returns, `main` returns
its status, which ends the process with that exit code. -/
def childGoesOn (w : World) (launch : Launcher) (site : Site) (c : Proc) (to_ : Int)
    (tr : Trace) : Trace × Ending :=
  let run : Trace × Except Ending Int :=
    match site with
    | Site.execute =>
      executeResume (ExecuteLoop w launch (c.t.stream.length + 1)) c 0 tr
    | Site.execPipe pfd0 =>
      match pipeResume (ExecPipeLoop w launch (c.t.stream.length + 1)) c pfd0 to_ tr with
      | (tr1, Except.error e) => (tr1, Except.error e)
      | (tr1, Except.ok (c1, cmd1, in_)) =>
        match ExecPipeTail w c1 cmd1 in_ tr1 with
        | (tr2, Except.error e) => (tr2, Except.error e)
        | (tr2, Except.ok (st, c2)) =>
          executeResume (ExecuteLoop w launch (c2.t.stream.length + 1)) c2 st tr2
  match run with
  | (tr1, Except.error e) => (tr1, e)
  | (tr1, Except.ok st) => (tr1, Ending.exited st)

/-- What `waitpid(pid, &status, 0)` reports for a child that ended as `e`, or why it
reports nothing.  An exit code is reported by its low eight bits; an uncaught exception
ends in `abort()`. -/
def waitpid (w : World) : Ending → Except Ending WaitStatus
  | Ending.exited code => Except.ok (WaitStatus.exited (code % 256))
  | Ending.replaced (WaitStatus.exited code) => Except.ok (WaitStatus.exited (code % 256))
  | Ending.replaced (WaitStatus.signaled raw) => Except.ok (WaitStatus.signaled raw)
  | Ending.badVariantAccess => Except.ok (WaitStatus.signaled w.abortStatus)
  | Ending.hang => Except.error Ending.hang
  | Ending.undefined => Except.error Ending.undefined
  | Ending.outOfFuel => Except.error Ending.outOfFuel

/-- The function `Exec` (main.cpp 153-195) as its caller sees it: `fork()`, which is
taken to succeed, the child (`ExecChild`, and `childGoesOn` when the child comes back from
`Exec`), then `waitpid`: the exit code of a child that ended by itself is returned, any
other status ends the caller with `_exit(status)`.  The number is the bound on how many
children deep the model follows; `Exec w 0` is out of fuel. -/
def Exec (w : World) : Nat → Launcher
  | 0 => fun _ _ _ _ _ tr => (tr, Except.error Ending.outOfFuel)
  | depthFuel + 1 => fun site p cmd from_ to_ tr =>
    let forked := tr ++ [⟨p.depth, Action.fork cmd from_ to_⟩]
    let child : Trace × Ending :=
      match ExecChild w { p with depth := p.depth + 1 } cmd from_ to_ forked with
      | (tr1, Except.error e) => (tr1, e)
      | (tr1, Except.ok c) => childGoesOn w (Exec w depthFuel) site c to_ tr1
    match waitpid w child.2 with
    | Except.error e => (child.1, Except.error e)
    | Except.ok (WaitStatus.exited code) => (child.1, Except.ok code)
    | Except.ok (WaitStatus.signaled raw) => (child.1, Except.error (Ending.exited raw))

/-- The function `ExecPipe` (main.cpp 197-248). -/
def ExecPipe (w : World) (depthFuel : Nat) (p : Proc) (cmd : Command) (tr : Trace) :
    Trace × Except Ending (Int × Proc) :=
  ExecPipeWith w (Exec w depthFuel) p cmd tr

/-- The function `Execute` (main.cpp 250-274) run by the interpreter on a line.  A child
that goes on evaluating has read at least one character more than its parent had when it
began, so children nest at most as deep as the line is long. -/
def Execute (w : World) (line : List Char) : Trace × Except Ending Int :=
  ExecuteWith w (Exec w (line.length + 1)) ⟨Tokenizer.new line, stdFds, 0⟩ []

/-- The function `main` (main.cpp 276-284), `argv` being the argument vector and its
length `argc`: with an argument count other than 3 it writes `Invalid number of args` to
the error stream and returns `EXIT_FAILURE`; otherwise it runs `Execute` on `argv[2]` and
returns its status. -/
def main (w : World) (argv : List (List Char)) : Trace × Except Ending Int :=
  if argv.length ≠ 3 then
    ([⟨0, Action.cerr "Invalid number of args\n".toList⟩], Except.ok 1)
  else Execute w (argv.getD 2 [])

/-! ## Lines made of tokens

What the properties below speak about: the text of a list of tokens, the words that
such a text gives back unchanged, and the pieces of a command text.
-/

/-- The text of a token in a line. -/
def Token.text : Token → List Char
  | Token.symbol s => s
  | Token.flow FlowToken.IN => ['<']
  | Token.flow FlowToken.OUT => ['>']
  | Token.pipe => ['|']
  | Token.logic LogicToken.AND => ['&', '&']
  | Token.logic LogicToken.OR => ['|', '|']

/-- The texts of the tokens joined by single spaces. -/
def render (ts : List Token) : List Char :=
  List.intercalate [' '] (ts.map Token.text)

/-- Each token's text with a space before it. -/
def renderSp : List Token → List Char
  | [] => []
  | t :: ts => ' ' :: (t.text ++ renderSp ts)

/-- A plain word: not empty, of ASCII characters that are no whitespace, the first of them
none of `>`, `<`, `|`, the two quotes and the escape character, and not beginning with
`&&`. -/
def plainWord (s : SymbolToken) : Bool :=
  match s with
  | [] => false
  | c :: cs =>
    s.all (fun x => !isspace x && decide (x.toNat < 128)) &&
      !(c == '>' || c == '<' || c == '|' || c == dquote || c == squote || c == escape) &&
      !(c == '&' && cs.head? == some '&')

/-- The rest of a line at which a word ends: nothing, or something that begins with
whitespace. -/
def sep : List Char → Bool
  | [] => true
  | c :: _ => isspace c

/-- The text of the token followed by `r` is read as that token and leaves `r`: a plain
word before the end of a word, a pipe before anything but a second `|`, and any other
operator before anything. -/
def lexesBefore : Token → List Char → Bool
  | Token.symbol s, r => plainWord s && sep r
  | Token.pipe, r => r.head? != some '|'
  | _, _ => true

/-- A token whose word, when it is one, is plain. -/
def Token.plain : Token → Bool
  | Token.symbol s => plainWord s
  | _ => true

/-- One piece of a command text: a word, or a redirection operator with its target. -/
inductive Item where
  | arg (w : SymbolToken)
  | redirect (f : FlowToken) (path : SymbolToken)
  deriving DecidableEq, Repr

/-- The tokens of a piece. -/
def Item.tokens : Item → List Token
  | Item.arg w => [Token.symbol w]
  | Item.redirect f p => [Token.flow f, Token.symbol p]

/-- The tokens of the pieces of a command text. -/
def itemTokens : List Item → List Token
  | [] => []
  | i :: its => i.tokens ++ itemTokens its

/-- The word of a piece: the argument, or the target of the redirection. -/
def Item.word : Item → SymbolToken
  | Item.arg w => w
  | Item.redirect _ p => p

/-- The argument words among the pieces, in order. -/
def wordsOf : List Item → List SymbolToken
  | [] => []
  | Item.arg w :: its => w :: wordsOf its
  | Item.redirect _ _ :: its => wordsOf its

/-- The targets of the redirections `f` among the pieces, in order. -/
def targetsOf (f : FlowToken) : List Item → List SymbolToken
  | [] => []
  | Item.arg _ :: its => targetsOf f its
  | Item.redirect g p :: its => if g = f then p :: targetsOf f its else targetsOf f its

/-- What one piece does to the command under construction. -/
def Item.apply (cmd : Command) : Item → Command
  | Item.arg w => { cmd with args := cmd.args ++ [w] }
  | Item.redirect f p => if f = FlowToken.IN then { cmd with in_ := p } else { cmd with out := p }

/-- The word of the last piece, `s` when there is none. -/
def lastWord (s : SymbolToken) : List Item → SymbolToken
  | [] => s
  | i :: its => lastWord i.word its

/-- The tokens that end a command: a pipe or a connective. -/
def Token.ends : Token → Bool
  | Token.logic _ => true
  | Token.pipe => true
  | _ => false

/-- A redirection operator as the current token has a word as the next token. -/
def Tokenizer.redirectOk (s : Tokenizer) : Bool :=
  match s.token with
  | Token.flow _ =>
    match s.Next with
    | some u =>
      match u.token with
      | Token.symbol _ => true
      | _ => false
    | none => false
  | _ => true

/-- The list `sts` holds the tokenizer after each call of `Next` made from `t` until
`IsEnd` holds. -/
def Chain : Tokenizer → List Tokenizer → Prop
  | t, [] => t.IsEnd = true
  | t, u :: us => t.IsEnd = false ∧ t.Next = some u ∧ Chain u us

/-- Where a loop over a chain stops: at the first state with `p`, or at the end. -/
def StopsAt (p : Tokenizer → Bool) (l : List Tokenizer) (u : Tokenizer) : Prop :=
  (∃ pre post, l = pre ++ u :: post ∧ (∀ s ∈ pre, p s = false) ∧ p u = true) ∨
    ((∀ s ∈ l, p s = false) ∧ u.IsEnd = true)

/-- A world for the examples.  The programs `true`, `false`, `echo` and `cat` exist;
`false` ends with exit code 1, the others with 0.  The only file that can be read is `f`,
every file can be written, and `pipe` succeeds. -/
def sampleWorld : World where
  canRead := fun _ path => path == "f".toList
  canWrite := fun _ _ => true
  found := fun _ name =>
    name == "true".toList || name == "false".toList || name == "echo".toList ||
      name == "cat".toList
  wait := fun _ args =>
    if args.head? = some "false".toList then WaitStatus.exited 1 else WaitStatus.exited 0
  pipeOk := fun _ => true
  strerror := fun _ => []
  abortStatus := 134

/-- The launcher never runs out of fuel when called by a process with fewer than `bound`
characters unread. -/
def Launcher.fueledBelow (launch : Launcher) (bound : Nat) : Prop :=
  ∀ site p cmd from_ to_ tr, p.t.stream.length < bound →
    (launch site p cmd from_ to_ tr).2 ≠ Except.error Ending.outOfFuel

/-! ## The launches of Execute, recorded

The loop of `Execute` once more, with a record of the commands it launches itself (the
calls `status = Exec(cmd)`) and of the status each returned.  Without the record it is
`ExecuteLoop`.
-/

/-- The record of a run: each command launched by `Execute` with the status returned,
oldest first. -/
abbrev LaunchLog := List (Command × Int)

/-- The function `executeResume` with the record passed along. -/
def executeResumeLog
    (loop : Proc → Int → Trace → LaunchLog → (Trace × Except Ending Int) × LaunchLog)
    (p : Proc) (status : Int) (tr : Trace) (log : LaunchLog) :
    (Trace × Except Ending Int) × LaunchLog :=
  match logicStep p.t status with
  | Except.error e => ((tr, Except.error e), log)
  | Except.ok none => ((tr, Except.ok 0), log)
  | Except.ok (some t) => loop { p with t := t } status tr log

/-- The function `ExecuteLoop` with the record: a launch that returns a status adds the
command and that status.  The launches made inside `ExecPipe` are not recorded. -/
def ExecuteLoopLog (w : World) (launch : Launcher) :
    Nat → Proc → Int → Trace → LaunchLog → (Trace × Except Ending Int) × LaunchLog
  | 0, _, _, tr, log => ((tr, Except.error Ending.outOfFuel), log)
  | fuel + 1, p, status, tr, log =>
    if p.t.IsEnd then ((tr, Except.ok status), log)
    else
      match GetCommand p.t with
      | Except.error e => ((tr, Except.error e), log)
      | Except.ok (cmd, t) =>
        if t.GetToken = Token.pipe then
          match ExecPipeWith w launch { p with t := t } cmd tr with
          | (tr1, Except.error e) => ((tr1, Except.error e), log)
          | (tr1, Except.ok (st, p1)) =>
            executeResumeLog (ExecuteLoopLog w launch fuel) p1 st tr1 log
        else
          match launch Site.execute { p with t := t } cmd (-1) (-1) tr with
          | (tr1, Except.error e) => ((tr1, Except.error e), log)
          | (tr1, Except.ok st) =>
            executeResumeLog (ExecuteLoopLog w launch fuel) { p with t := t } st tr1
              (log ++ [(cmd, st)])

/-- The function `ExecuteWith` with the record, which starts empty. -/
def ExecuteWithLog (w : World) (launch : Launcher) (p : Proc) (tr : Trace) :
    (Trace × Except Ending Int) × LaunchLog :=
  ExecuteLoopLog w launch (p.t.stream.length + 1) p 0 tr []

/-- The tokenizer `u` is `t` after some calls of `Next`, possibly none. -/
def Tokenizer.Reaches (t u : Tokenizer) : Prop :=
  Relation.ReflTransGen (fun a b : Tokenizer => a.Next = some b) t u

/-- No pipe among the tokens still to come: neither the current token of `t` nor any
token that further calls of `Next` produce is a pipe. -/
def Tokenizer.PipeFree (t : Tokenizer) : Prop :=
  ∀ u, t.Reaches u → u.token ≠ Token.pipe

/-- The tokenizer at the end of the line after a call of `Next` there: the token is the
word made of the character that `get()` yields at the end. -/
def eofState : Tokenizer :=
  ⟨[], Token.symbol [eofChar]⟩

/-! ## The text between two quotes -/

/-- A piece of the text between two quotes: a character other than the escape character,
or a run of `n` escape characters. -/
inductive QuotedPiece where
  | char (c : Char)
  | escapes (n : Nat)
  deriving DecidableEq, Repr

/-- The text of the pieces. -/
def quotedText : List QuotedPiece → List Char
  | [] => []
  | QuotedPiece.char c :: bs => c :: quotedText bs
  | QuotedPiece.escapes n :: bs => List.replicate n escape ++ quotedText bs

/-- How many escape characters a run of `n` leaves in the word: `k` for `2 * k`, and
`k + 1` for `2 * k + 1`. -/
def collapsed (n : Nat) : Nat :=
  (n + 1) / 2

/-- The word that the claim gives for the pieces: characters as they are, a run of `n`
escape characters as `collapsed n` of them. -/
def quotedWord : List QuotedPiece → List Char
  | [] => []
  | QuotedPiece.char c :: bs => c :: quotedWord bs
  | QuotedPiece.escapes n :: bs => List.replicate (collapsed n) escape ++ quotedWord bs

/-- The pieces are the text between two quotes `q` cut at its maximal runs of escape
characters: a character is neither `q` nor the escape character, a run is not empty, and
no run follows a run. -/
def quotedOk (q : Char) : List QuotedPiece → Bool
  | [] => true
  | QuotedPiece.char c :: bs => c != q && c != escape && quotedOk q bs
  | QuotedPiece.escapes n :: bs =>
    decide (0 < n) &&
      (match bs with
        | QuotedPiece.escapes _ :: _ => false
        | _ => true) &&
      quotedOk q bs

/-! ## The descriptors of the last stage of a two-stage pipeline -/

/-- The descriptor table with which the last stage of `A | B` runs (main.cpp 203-228),
from the table `fds` of the interpreter before the pipe was made, `k` being the number
of the pipe: the pipe is made, its write end closed after the launch of `A`, and its
read end duplicated onto descriptor 0 when it is not descriptor 0 itself. -/
def lastStageFds (fds : FdTable) (k : Nat) : FdTable :=
  if (pipeFds fds k).2.1 ≠ 0 then
    dup2 (close (pipeFds fds k).1 (pipeFds fds k).2.2) (pipeFds fds k).2.1 0
  else close (pipeFds fds k).1 (pipeFds fds k).2.2

/-! ## Opening quotes that are closed -/

/-- The next token does not begin with a quote character, or that quote character occurs
again in what follows it: the first character that is not whitespace decides. -/
def openingClosed (t : Tokenizer) : Bool :=
  !((skipSpaces t.stream).1 == dquote || (skipSpaces t.stream).1 == squote) ||
    (skipSpaces t.stream).2.contains (skipSpaces t.stream).1

/-- Every opening quote is closed: at every state that calls of `Next` reach from `t`,
a token that begins with a quote character has that character again later. -/
def Tokenizer.QuotesClosed (t : Tokenizer) : Prop :=
  ∀ u, t.Reaches u → openingClosed u = true
theorem render_cons (t : Token) (ts : List Token) : render (t :: ts) = t.text ++ renderSp ts := by
  induction ts generalizing t with
  | nil => simp [render, renderSp, List.intercalate]
  | cons u us ih =>
    have := ih u
    simp only [render, List.map, List.intercalate, List.intersperse, List.flatten] at this ⊢
    simp [renderSp, this]

theorem readWord_append (w : List Char) (hw : ∀ c ∈ w, isspace c = false) (r : List Char)
    (hr : sep r = true) (cur : SymbolToken) : readWord (w ++ r) cur = (cur ++ w, r) := by
  induction w generalizing cur with
  | nil =>
    cases r with
    | nil => simp [readWord]
    | cons c cs => simp [sep] at hr; simp [readWord, hr]
  | cons c cs ih =>
    have hc : isspace c = false := hw c (by simp)
    simp [readWord, hc, ih (fun x hx => hw x (by simp [hx]))]

theorem Next_text (tk : Token) (r : List Char) (h : lexesBefore tk r = true) (x : Token) :
    Tokenizer.Next ⟨tk.text ++ r, x⟩ = some ⟨r, tk⟩ := by
  cases tk with
  | symbol s =>
    cases s with
    | nil => simp [lexesBefore, plainWord] at h
    | cons c cs =>
      simp only [lexesBefore, plainWord, Bool.and_eq_true, List.all_eq_true, Bool.not_eq_true',
        Bool.or_eq_false_iff, beq_eq_false_iff_ne, ne_eq, decide_eq_true_eq,
        Bool.and_eq_false_iff, Bool.not_eq_eq_eq_not, Bool.not_true] at h
      obtain ⟨⟨⟨hall, ⟨⟨⟨⟨⟨h1, h2⟩, h3⟩, h4⟩, h5⟩, h6⟩⟩, h7⟩, hr⟩ := h
      have hc : isspace c = false := (hall c (by simp)).1
      have hcs : ∀ x ∈ cs, isspace x = false := fun x hx => (hall x (by simp [hx])).1
      have hamp : ¬ (c = '&' ∧ (cs ++ r).head? = some '&') := by
        rintro ⟨rfl, hh⟩
        cases cs with
        | nil =>
          cases r with
          | nil => simp at hh
          | cons d ds =>
            simp at hh
            subst hh
            simp [sep, isspace] at hr
        | cons d ds =>
          simp at hh
          subst hh
          simp at h7
      have hq : ¬ (c = dquote ∨ c = squote) := by
        rintro (rfl | rfl)
        · exact h4 rfl
        · exact h5 rfl
      have hsk : skipSpaces (c :: cs ++ r) = (c, cs ++ r) := by simp [skipSpaces, hc]
      simp only [Tokenizer.Next, Token.text, hsk, nextFrom]
      rw [if_neg h1, if_neg h2, if_neg h3, if_neg hamp, if_neg hq, if_neg h6, if_neg h6,
        readWord_append cs hcs r hr]
      simp
  | flow f => cases f <;> simp [Tokenizer.Next, Token.text, skipSpaces, isspace, nextFrom]
  | logic l => cases l <;> simp [Tokenizer.Next, Token.text, skipSpaces, isspace, nextFrom]
  | pipe =>
    simp [lexesBefore] at h
    cases r with
    | nil => simp [Tokenizer.Next, Token.text, skipSpaces, isspace, nextFrom]
    | cons c cs => 
      simp at h
      simp [Tokenizer.Next, Token.text, skipSpaces, isspace, nextFrom, h]

theorem Next_space (l : List Char) (x y : Token) :
    Tokenizer.Next ⟨' ' :: l, x⟩ = Tokenizer.Next ⟨l, y⟩ := by
  simp [Tokenizer.Next, skipSpaces, isspace]

theorem sep_renderSp (ts : List Token) (r : List Char) (hr : sep r = true) :
    sep (renderSp ts ++ r) = true := by
  cases ts with
  | nil => simpa [renderSp] using hr
  | cons t ts => simp [renderSp, sep, isspace]

theorem lexesBefore_of_plain (t : Token) (r : List Char) (ht : t.plain = true)
    (hr : sep r = true) : lexesBefore t r = true := by
  cases t with
  | symbol s => simp [lexesBefore, hr]; simpa [Token.plain] using ht
  | flow f => simp [lexesBefore]
  | logic l => simp [lexesBefore]
  | pipe =>
    cases r with
    | nil => simp [lexesBefore]
    | cons c cs =>
      simp only [sep] at hr
      simp only [lexesBefore, List.head?_cons, bne_iff_ne, ne_eq, Option.some.injEq]
      rintro rfl
      simp [isspace] at hr

theorem text_ne_nil (t : Token) (ht : t.plain = true) : t.text ≠ [] := by
  cases t with
  | symbol s => cases s with
    | nil => simp [Token.plain, plainWord] at ht
    | cons c cs => simp [Token.text]
  | flow f => cases f <;> simp [Token.text]
  | logic l => cases l <;> simp [Token.text]
  | pipe => simp [Token.text]

theorem statesLoop_renderSp (ts : List Token) (h : ∀ t ∈ ts, t.plain = true) (fuel : Nat)
    (hf : (renderSp ts).length < fuel) (x : Token) :
    ∃ sts, statesLoop fuel ⟨renderSp ts, x⟩ = some sts ∧ sts.map Tokenizer.token = ts := by
  induction ts generalizing fuel x with
  | nil =>
    cases fuel with
    | zero => simp at hf
    | succ n => exact ⟨[], by simp [statesLoop, renderSp, Tokenizer.IsEnd], rfl⟩
  | cons t ts ih =>
    cases fuel with
    | zero => simp at hf
    | succ n =>
      have hn : (renderSp ts).length < n := by
        simp only [renderSp, List.length_cons, List.length_append] at hf
        omega
      have hnext : Tokenizer.Next ⟨renderSp (t :: ts), x⟩ = some ⟨renderSp ts, t⟩ := by
        rw [renderSp, Next_space _ x x]
        exact Next_text t _ (lexesBefore_of_plain t _ (h t (by simp))
          (by simpa using sep_renderSp ts [] rfl)) x
      obtain ⟨sts, hst, hmap⟩ := ih (fun u hu => h u (by simp [hu])) n hn t
      refine ⟨⟨renderSp ts, t⟩ :: sts, ?_, by simp [hmap]⟩
      rw [statesLoop, hnext]
      simp [hst, Tokenizer.IsEnd, renderSp]

theorem tokens_render (ts : List Token) (h : ∀ t ∈ ts, t.plain = true) :
    tokens (render ts) = some ts := by
  cases ts with
  | nil => rfl
  | cons t ts =>
    have ht := h t (by simp)
    have hne := text_ne_nil t ht
    have hnext : Tokenizer.Next ⟨t.text ++ renderSp ts, Token.symbol []⟩ = some ⟨renderSp ts, t⟩ :=
      Next_text t _ (lexesBefore_of_plain t _ ht (by simpa using sep_renderSp ts [] rfl)) _
    have hlen : (renderSp ts).length < (t.text ++ renderSp ts).length := by
      have : 0 < t.text.length := List.length_pos.mpr hne
      simp only [List.length_append]
      omega
    obtain ⟨sts, hst, hmap⟩ := statesLoop_renderSp ts (fun u hu => h u (by simp [hu])) _ hlen t
    rw [tokens, Tokenizer.states, render_cons, Tokenizer.new, statesLoop, hnext]
    simp only [hst]
    simp [Tokenizer.IsEnd, hne, hmap]

theorem readQuoted_closed (q : Char) (s : List Char) (hs : ∀ c ∈ s, c ≠ q ∧ c ≠ escape)
    (r : List Char) (cur : SymbolToken) :
    readQuoted q (s ++ q :: r) cur = some (cur ++ s, r) := by
  induction s generalizing cur with
  | nil => cases r <;> simp [readQuoted]
  | cons c s ih =>
    have hc := hs c (by simp)
    have ih2 := ih (fun x hx => hs x (by simp [hx])) (cur ++ [c])
    cases s with
    | nil =>
      simp only [List.nil_append] at ih2
      simp [readQuoted, hc.1, hc.2, ih2]
    | cons d ds =>
      simp only [List.cons_append] at ih2
      simp [readQuoted, hc.1, hc.2, ih2]

theorem Next_quoted (q : Char) (hq : q = dquote ∨ q = squote) (s : List Char)
    (hs : ∀ c ∈ s, c ≠ q ∧ c ≠ escape) (r : List Char) (x : Token) :
    Tokenizer.Next ⟨q :: (s ++ q :: r), x⟩ = some ⟨r, Token.symbol s⟩ := by
  have hsp : isspace q = false := by rcases hq with rfl | rfl <;> decide
  have h1 : q ≠ '>' := by rcases hq with rfl | rfl <;> decide
  have h2 : q ≠ '<' := by rcases hq with rfl | rfl <;> decide
  have h3 : q ≠ '|' := by rcases hq with rfl | rfl <;> decide
  have h4 : q ≠ '&' := by rcases hq with rfl | rfl <;> decide
  have hsk : skipSpaces (q :: (s ++ q :: r)) = (q, s ++ q :: r) := by simp [skipSpaces, hsp]
  simp only [Tokenizer.Next, hsk, nextFrom]
  rw [if_neg h1, if_neg h2, if_neg h3, if_neg (fun h => h4 h.1), if_pos hq,
    readQuoted_closed q s hs r []]
  simp


/-! ### GetCommand on a rendered command -/

theorem renderSp_arg (w : SymbolToken) (js : List Item) (term : List Char) :
    renderSp (itemTokens (Item.arg w :: js)) ++ term =
      ' ' :: (w ++ (renderSp (itemTokens js) ++ term)) := by
  simp [itemTokens, Item.tokens, renderSp, Token.text]

theorem renderSp_redirect (f : FlowToken) (p : SymbolToken) (js : List Item) (term : List Char) :
    renderSp (itemTokens (Item.redirect f p :: js)) ++ term =
      ' ' :: ((Token.flow f).text ++ ' ' :: (p ++ (renderSp (itemTokens js) ++ term))) := by
  simp [itemTokens, Item.tokens, renderSp, Token.text]

theorem flow_text_length (f : FlowToken) : (Token.flow f).text.length = 1 := by
  cases f <;> rfl

theorem getCommandStep_items (term : List Char) (hterm : sep term = true)
    (F : SymbolToken → Tokenizer)
    (hbase : ∀ s cmd n, term.length ≤ n →
      getCommandStep (GetCommandLoop n) ⟨term, Token.symbol s⟩ cmd = Except.ok (cmd, F s))
    (its : List Item) (hp : ∀ i ∈ its, plainWord i.word = true) (s : SymbolToken)
    (cmd : Command) (n : Nat)
    (hn : (renderSp (itemTokens its) ++ term).length ≤ n) :
    getCommandStep (GetCommandLoop n) ⟨renderSp (itemTokens its) ++ term, Token.symbol s⟩
      cmd = Except.ok (its.foldl Item.apply cmd, F (lastWord s its)) := by
  induction its generalizing s cmd n with
  | nil => simpa [renderSp, lastWord, itemTokens] using
      hbase s cmd n (by simpa [renderSp, itemTokens] using hn)
  | cons j js ih =>
    have hjs : ∀ i ∈ js, plainWord i.word = true := fun i hi => hp i (by simp [hi])
    have hj : plainWord j.word = true := hp j (by simp)
    have hsep : sep (renderSp (itemTokens js) ++ term) = true := sep_renderSp _ _ hterm
    cases j with
    | arg w =>
      rw [renderSp_arg] at hn ⊢
      simp only [List.length_cons, List.length_append] at hn
      obtain ⟨m, rfl⟩ : ∃ m, n = m + 1 := ⟨n - 1, by omega⟩
      have hnext : Tokenizer.Next ⟨' ' :: (w ++ (renderSp (itemTokens js) ++ term)),
          Token.symbol s⟩ = some ⟨renderSp (itemTokens js) ++ term, Token.symbol w⟩ := by
        rw [Next_space _ _ (Token.symbol s)]
        exact Next_text (Token.symbol w) _ (by simp [lexesBefore, hsep]; exact hj) _
      have := ih hjs w { cmd with args := cmd.args ++ [w] } m
        (by simp only [List.length_append]; omega)
      rw [getCommandStep]
      simp only [Tokenizer.IsEnd, List.isEmpty_cons, Bool.false_eq_true, if_false, hnext]
      rw [GetCommandLoop]
      simpa [Tokenizer.GetToken, Item.apply, lastWord, Item.word] using this
    | redirect f p =>
      rw [renderSp_redirect] at hn ⊢
      simp only [List.length_cons, List.length_append, flow_text_length] at hn
      obtain ⟨m, rfl⟩ : ∃ m, n = m + 1 := ⟨n - 1, by omega⟩
      have hnext : Tokenizer.Next ⟨' ' :: ((Token.flow f).text ++ ' ' :: (p ++
          (renderSp (itemTokens js) ++ term))), Token.symbol s⟩ =
          some ⟨' ' :: (p ++ (renderSp (itemTokens js) ++ term)), Token.flow f⟩ := by
        rw [Next_space _ _ (Token.symbol s)]
        exact Next_text (Token.flow f) _ (by simp [lexesBefore]) _
      have hnext2 : Tokenizer.Next ⟨' ' :: (p ++ (renderSp (itemTokens js) ++ term)),
          Token.flow f⟩ = some ⟨renderSp (itemTokens js) ++ term, Token.symbol p⟩ := by
        rw [Next_space _ _ (Token.flow f)]
        exact Next_text (Token.symbol p) _ (by simp [lexesBefore, hsep]; exact hj) _
      have := ih hjs p (Item.apply cmd (Item.redirect f p)) m
        (by simp only [List.length_append]; omega)
      rw [getCommandStep]
      simp only [Tokenizer.IsEnd, List.isEmpty_cons, Bool.false_eq_true, if_false, hnext]
      rw [GetCommandLoop]
      simpa [Tokenizer.GetToken, hnext2, Item.apply, lastWord, Item.word] using this

theorem getCommandStep_end (s : SymbolToken) (cmd : Command) (n : Nat) :
    getCommandStep (GetCommandLoop n) ⟨[], Token.symbol s⟩ cmd =
      Except.ok (cmd, ⟨[], Token.symbol s⟩) := by
  simp [getCommandStep, Tokenizer.IsEnd]

theorem GetCommandLoop_ends (op : Token) (hop : op.ends = true) (rest : List Char)
    (cmd : Command) (m : Nat) :
    GetCommandLoop (m + 1) ⟨rest, op⟩ cmd = Except.ok (cmd, ⟨rest, op⟩) := by
  cases op <;> simp [Token.ends] at hop <;> simp [GetCommandLoop, Tokenizer.GetToken]

theorem getCommandStep_op (op : Token) (hop : op.ends = true) (rest : List Char)
    (hl : lexesBefore op rest = true) (s : SymbolToken) (cmd : Command) (n : Nat)
    (hn : (' ' :: (op.text ++ rest)).length ≤ n) :
    getCommandStep (GetCommandLoop n) ⟨' ' :: (op.text ++ rest), Token.symbol s⟩ cmd =
      Except.ok (cmd, ⟨rest, op⟩) := by
  obtain ⟨m, rfl⟩ : ∃ m, n = m + 1 := ⟨n - 1, by simp only [List.length_cons] at hn; omega⟩
  have hnext : Tokenizer.Next ⟨' ' :: (op.text ++ rest), Token.symbol s⟩ = some ⟨rest, op⟩ := by
    rw [Next_space _ _ (Token.symbol s)]
    exact Next_text op rest hl _
  rw [getCommandStep]
  simp only [Tokenizer.IsEnd, List.isEmpty_cons, Bool.false_eq_true, if_false, hnext]
  exact GetCommandLoop_ends op hop rest cmd m

theorem GetCommand_space (l : List Char) (x y : Token) :
    GetCommand ⟨' ' :: l, x⟩ = GetCommand ⟨l, y⟩ := by
  simp only [GetCommand, Next_space l x y]

theorem render_items_cons (i : Item) (its : List Item) :
    render (itemTokens (i :: its)) =
      match i with
      | Item.arg w => w ++ renderSp (itemTokens its)
      | Item.redirect f p => (Token.flow f).text ++ ' ' :: (p ++ renderSp (itemTokens its)) := by
  cases i <;> simp [itemTokens, Item.tokens, render_cons, renderSp, Token.text]

theorem renderSp_eq_render (t : Token) (ts : List Token) :
    renderSp (t :: ts) = ' ' :: render (t :: ts) := by
  rw [render_cons, renderSp]

theorem renderSp_append (ts us : List Token) : renderSp (ts ++ us) = renderSp ts ++ renderSp us := by
  induction ts with
  | nil => rfl
  | cons t ts ih => simp [renderSp, ih]

/-- The core: a command text of at least one piece, then `term`. -/
theorem GetCommand_items (term : List Char) (hterm : sep term = true)
    (F : SymbolToken → Tokenizer)
    (hbase : ∀ s cmd n, term.length ≤ n →
      getCommandStep (GetCommandLoop n) ⟨term, Token.symbol s⟩ cmd = Except.ok (cmd, F s))
    (i : Item) (its : List Item) (hp : ∀ j ∈ i :: its, plainWord j.word = true) (x : Token) :
    GetCommand ⟨render (itemTokens (i :: its)) ++ term, x⟩ =
      Except.ok ((i :: its).foldl Item.apply {}, F (lastWord i.word its)) := by
  have hjs : ∀ j ∈ its, plainWord j.word = true := fun j hj => hp j (by simp [hj])
  have hi : plainWord i.word = true := hp i (by simp)
  have hsep : sep (renderSp (itemTokens its) ++ term) = true := sep_renderSp _ _ hterm
  rw [render_items_cons]
  cases i with
  | arg w =>
    have hnext : Tokenizer.Next ⟨w ++ renderSp (itemTokens its) ++ term, x⟩ =
        some ⟨renderSp (itemTokens its) ++ term, Token.symbol w⟩ := by
      rw [List.append_assoc]
      exact Next_text (Token.symbol w) _ (by simp [lexesBefore, hsep]; exact hi) _
    simp only [GetCommand, hnext]
    rw [GetCommandLoop]
    simpa [Tokenizer.GetToken, Item.apply] using
      getCommandStep_items term hterm F hbase its hjs w { args := [w] } _ (le_refl _)
  | redirect f p =>
    have hnext : Tokenizer.Next ⟨(Token.flow f).text ++ ' ' :: (p ++ renderSp (itemTokens its))
        ++ term, x⟩ = some ⟨' ' :: (p ++ (renderSp (itemTokens its) ++ term)), Token.flow f⟩ := by
      have := Next_text (Token.flow f) (' ' :: (p ++ (renderSp (itemTokens its) ++ term)))
        (by simp [lexesBefore]) x
      simpa using this
    have hnext2 : Tokenizer.Next ⟨' ' :: (p ++ (renderSp (itemTokens its) ++ term)),
        Token.flow f⟩ = some ⟨renderSp (itemTokens its) ++ term, Token.symbol p⟩ := by
      rw [Next_space _ _ (Token.flow f)]
      exact Next_text (Token.symbol p) _ (by simp [lexesBefore, hsep]; exact hi) _
    simp only [GetCommand, hnext]
    rw [GetCommandLoop]
    simp only [Tokenizer.GetToken, hnext2]
    have := getCommandStep_items term hterm F hbase its hjs p
      (Item.apply {} (Item.redirect f p)) (' ' :: (p ++ (renderSp (itemTokens its) ++ term))).length
      (by simp only [List.length_cons, List.length_append]; omega)
    simpa [Item.apply] using this

theorem GetCommand_items_end (i : Item) (its : List Item)
    (hp : ∀ j ∈ i :: its, plainWord j.word = true) (x : Token) :
    GetCommand ⟨render (itemTokens (i :: its)), x⟩ =
      Except.ok ((i :: its).foldl Item.apply {}, ⟨[], Token.symbol (lastWord i.word its)⟩) := by
  have := GetCommand_items [] rfl (fun s => ⟨[], Token.symbol s⟩)
    (fun s cmd n _ => getCommandStep_end s cmd n) i its hp x
  simpa using this

theorem GetCommand_items_op (op : Token) (hop : op.ends = true) (rest : List Char)
    (hl : lexesBefore op rest = true) (its : List Item)
    (hp : ∀ j ∈ its, plainWord j.word = true) (x : Token) :
    GetCommand ⟨render (itemTokens its ++ [op]) ++ rest, x⟩ =
      Except.ok (its.foldl Item.apply {}, ⟨rest, op⟩) := by
  cases its with
  | nil =>
    have hnext : Tokenizer.Next ⟨render (itemTokens [] ++ [op]) ++ rest, x⟩ = some ⟨rest, op⟩ := by
      have := Next_text op rest hl x
      simpa [itemTokens, render_cons, renderSp] using this
    simp only [GetCommand, hnext]
    exact GetCommandLoop_ends op hop rest {} _
  | cons i its =>
    have h := GetCommand_items (' ' :: (op.text ++ rest)) (by simp [sep, isspace])
      (fun _ => ⟨rest, op⟩) (fun s cmd n hn => getCommandStep_op op hop rest hl s cmd n hn)
      i its hp x
    have htoks : render (itemTokens (i :: its) ++ [op]) ++ rest =
        render (itemTokens (i :: its)) ++ ' ' :: (op.text ++ rest) := by
      cases i <;>
        simp [itemTokens, Item.tokens, render_cons, renderSp, renderSp_append]
    rw [htoks]
    exact h

/-! ### Every call of Next reads a character -/

theorem skipSpaces_length (s : List Char) : (skipSpaces s).2.length ≤ s.length - 1 := by
  induction s with
  | nil => simp [skipSpaces]
  | cons c cs ih =>
    simp only [skipSpaces]
    split
    · simp only [List.length_cons, Nat.add_sub_cancel]; omega
    · simp

theorem readWord_length (s : List Char) (cur : SymbolToken) :
    (readWord s cur).2.length ≤ s.length := by
  induction s generalizing cur with
  | nil => simp [readWord]
  | cons c cs ih =>
    simp only [readWord]
    split
    · simp
    · have := ih (cur ++ [c]); simp only [List.length_cons]; omega

theorem dropEscapes_length (s : List Char) : (dropEscapes s).length ≤ s.length := by
  induction s with
  | nil => simp [dropEscapes]
  | cons c cs ih =>
    simp only [dropEscapes]
    split
    · simp only [List.length_cons]; omega
    · simp

theorem readQuoted_length (q : Char) (s : List Char) (cur : SymbolToken) (w : SymbolToken)
    (r : List Char) (h : readQuoted q s cur = some (w, r)) : r.length < s.length := by
  induction s, cur using readQuoted.induct q generalizing w r with
  | case1 cur => simp [readQuoted] at h
  | case2 cur => simp [readQuoted] at h; simp [← h.2]
  | case3 c cur hc => simp [readQuoted, hc] at h
  | case4 d ds cur => simp [readQuoted] at h; simp [← h.2]
  | case5 c d ds cur hc he ih =>
    rw [readQuoted, if_neg hc, if_pos he] at h
    have := ih w r h
    simp only [List.length_cons]; omega
  | case6 c d ds cur hc he ih =>
    rw [readQuoted, if_neg hc, if_neg he] at h
    have := ih w r h
    simp only [List.length_cons] at this ⊢; omega

theorem Next_at_end (x : Token) : Tokenizer.Next ⟨[], x⟩ = some ⟨[], Token.symbol [eofChar]⟩ := by
  rfl

theorem Next_length_lt (t u : Tokenizer) (hne : t.IsEnd = false) (h : t.Next = some u) :
    u.stream.length < t.stream.length := by
  have hs := skipSpaces_length t.stream
  have hpos : 0 < t.stream.length := by
    cases ht : t.stream with
    | nil => simp [Tokenizer.IsEnd, ht] at hne
    | cons c cs => simp
  have key : u.stream.length ≤ (skipSpaces t.stream).2.length := by
    simp only [Tokenizer.Next, nextFrom] at h
    generalize (skipSpaces t.stream).1 = c at h
    generalize (skipSpaces t.stream).2 = r at h
    split at h
    · cases h; simp
    split at h
    · cases h; simp
    split at h
    · split at h
      · split at h <;> cases h <;> simp
      · cases h; simp
    split at h
    · cases h; simp
    split at h
    · split at h
      · rename_i w s1 hq
        cases h
        exact Nat.le_of_lt (readQuoted_length _ _ _ _ _ hq)
      · cases h
    · cases h
      simp only
      split
      · exact le_trans (readWord_length _ _) (dropEscapes_length r)
      · exact readWord_length _ _
  omega


/-! ### The command builder and the skipping loop along the tokens of any line -/

theorem chain_of_statesLoop (fuel : Nat) (t : Tokenizer) (sts : List Tokenizer)
    (h : statesLoop fuel t = some sts) : Chain t sts := by
  induction fuel generalizing t sts with
  | zero => simp [statesLoop] at h
  | succ n ih =>
    rw [statesLoop] at h
    split at h
    · cases h; simpa [Chain]
    · rename_i hend
      cases hn : t.Next with
      | none => simp [hn] at h
      | some t1 =>
        cases hs : statesLoop n t1 with
        | none => simp [hn, hs] at h
        | some ts =>
          simp only [hn, hs, Option.some.injEq] at h
          subst h
          exact ⟨by simpa using hend, hn, ih t1 ts hs⟩

theorem StopsAt.cons {p : Tokenizer → Bool} {l : List Tokenizer} {u t : Tokenizer}
    (h : StopsAt p l u) (ht : p t = false) : StopsAt p (t :: l) u := by
  rcases h with ⟨pre, post, rfl, hpre, hu⟩ | ⟨hall, hu⟩
  · exact Or.inl ⟨t :: pre, post, rfl, by simpa [ht] using hpre, hu⟩
  · exact Or.inr ⟨by simpa [ht] using hall, hu⟩

theorem ends_of_token {t : Tokenizer} :
    t.token.ends = true ↔ (∃ l, t.token = Token.logic l) ∨ t.token = Token.pipe := by
  cases h : t.token <;> simp [Token.ends]

theorem GetCommandLoop_chain (fuel : Nat) (t : Tokenizer) (sts : List Tokenizer)
    (cmd : Command) (hc : Chain t sts) (hf : t.stream.length < fuel)
    (hr : ∀ s ∈ (t :: sts).takeWhile (fun s => !s.token.ends), s.redirectOk = true) :
    ∃ cmd1 u, GetCommandLoop fuel t cmd = Except.ok (cmd1, u) ∧
      StopsAt (fun s => s.token.ends) (t :: sts) u := by
  induction fuel generalizing t sts cmd with
  | zero => simp at hf
  | succ n ih =>
    rw [GetCommandLoop]
    cases htok : t.token with
    | logic l =>
      exact ⟨cmd, t, by simp [Tokenizer.GetToken, htok],
        Or.inl ⟨[], sts, rfl, by simp, by simp [htok, Token.ends]⟩⟩
    | pipe =>
      exact ⟨cmd, t, by simp [Tokenizer.GetToken, htok],
        Or.inl ⟨[], sts, rfl, by simp, by simp [htok, Token.ends]⟩⟩
    | symbol w =>
      have hte : t.token.ends = false := by simp [htok, Token.ends]
      simp only [Tokenizer.GetToken, htok, getCommandStep]
      cases sts with
      | nil =>
        simp only [Chain] at hc
        exact ⟨{ cmd with args := cmd.args ++ [w] }, t, by simp [hc],
          Or.inr ⟨by simp [hte], hc⟩⟩
      | cons t1 sts1 =>
        simp only [Chain] at hc
        obtain ⟨he, hn, hc1⟩ := hc
        have hlt := Next_length_lt t t1 he hn
        obtain ⟨cmd1, u, h1, h2⟩ := ih t1 sts1 { cmd with args := cmd.args ++ [w] } hc1
          (by omega) (fun s hs => hr s (by
            rw [List.takeWhile_cons_of_pos (by simp [hte])]
            exact List.mem_cons_of_mem _ hs))
        exact ⟨cmd1, u, by simp [he, hn, h1], h2.cons hte⟩
    | flow f =>
      have hte : t.token.ends = false := by simp [htok, Token.ends]
      have hok : t.redirectOk = true := hr t (by
        rw [List.takeWhile_cons_of_pos (by simp [hte])]; exact List.mem_cons_self _ _)
      simp only [Tokenizer.redirectOk, htok] at hok
      cases hn : t.Next with
      | none => simp [hn] at hok
      | some t1 =>
        cases htok1 : t1.token with
        | logic l => simp [hn, htok1] at hok
        | pipe => simp [hn, htok1] at hok
        | flow g => simp [hn, htok1] at hok
        | symbol p =>
          have hte1 : t1.token.ends = false := by simp [htok1, Token.ends]
          simp only [Tokenizer.GetToken, htok, hn, htok1, getCommandStep]
          cases sts with
          | nil =>
            simp only [Chain] at hc
            have hs : t.stream = [] := by simpa [Tokenizer.IsEnd] using hc
            have ht1 : t1 = ⟨[], Token.symbol [eofChar]⟩ := by
              have := Next_at_end t.token
              have ht : t = ⟨[], t.token⟩ := by cases t; simp_all
              rw [ht] at hn
              rw [this] at hn
              exact (Option.some.inj hn).symm
            have he1 : t1.IsEnd = true := by rw [ht1]; rfl
            exact ⟨if f = FlowToken.IN then { cmd with in_ := p } else { cmd with out := p },
              t1, by simp [he1], Or.inr ⟨by simp [hte], he1⟩⟩
          | cons t1x sts1 =>
            simp only [Chain] at hc
            obtain ⟨he, hn2, hc1⟩ := hc
            rw [hn] at hn2
            cases Option.some.inj hn2
            have hlt := Next_length_lt t t1 he hn
            cases sts1 with
            | nil =>
              simp only [Chain] at hc1
              exact ⟨if f = FlowToken.IN then { cmd with in_ := p } else { cmd with out := p },
                t1, by simp [hc1], Or.inr ⟨by simp [hte, hte1], hc1⟩⟩
            | cons t2 sts2 =>
              simp only [Chain] at hc1
              obtain ⟨he1, hn1, hc2⟩ := hc1
              have hlt1 := Next_length_lt t1 t2 he1 hn1
              obtain ⟨cmd1, u, h1, h2⟩ := ih t2 sts2
                (if f = FlowToken.IN then { cmd with in_ := p } else { cmd with out := p }) hc2
                (by omega) (fun s hs => hr s (by
                  rw [List.takeWhile_cons_of_pos (by simp [hte]),
                    List.takeWhile_cons_of_pos (by simp [hte1])]
                  exact List.mem_cons_of_mem _ (List.mem_cons_of_mem _ hs)))
              exact ⟨cmd1, u, by simp [he1, hn1, h1], (h2.cons hte1).cons hte⟩

theorem GetCommand_chain (t t1 : Tokenizer) (sts : List Tokenizer) (hc : Chain t (t1 :: sts))
    (hr : ∀ s ∈ (t1 :: sts).takeWhile (fun s => !s.token.ends), s.redirectOk = true) :
    ∃ cmd1 u, GetCommand t = Except.ok (cmd1, u) ∧
      StopsAt (fun s => s.token.ends) (t1 :: sts) u := by
  simp only [Chain] at hc
  obtain ⟨_, hn, hc1⟩ := hc
  simp only [GetCommand, hn]
  exact GetCommandLoop_chain _ t1 sts {} hc1 (Nat.lt_succ_self _) hr

theorem itemTokens_args (C : List SymbolToken) :
    itemTokens (C.map Item.arg) = C.map Token.symbol := by
  induction C with
  | nil => rfl
  | cons c C ih => simp [itemTokens, Item.tokens, ih]

theorem foldl_apply_args (C : List SymbolToken) (cmd : Command) :
    (C.map Item.arg).foldl Item.apply cmd = { cmd with args := cmd.args ++ C } := by
  induction C generalizing cmd with
  | nil => simp
  | cons c C ih => simp [Item.apply, ih]

theorem lastWord_args (c : SymbolToken) (C : List SymbolToken) :
    lastWord c (C.map Item.arg) = (c :: C).getLastD [] := by
  induction C generalizing c with
  | nil => rfl
  | cons d C ih => simpa [lastWord, Item.word] using ih d

theorem GetCommand_words_end (C : List SymbolToken) (hC : C ≠ [])
    (hp : ∀ s ∈ C, plainWord s = true) (x : Token) :
    GetCommand ⟨renderSp (C.map Token.symbol), x⟩ =
      Except.ok (⟨C, [], []⟩, ⟨[], Token.symbol (C.getLastD [])⟩) := by
  cases C with
  | nil => exact absurd rfl hC
  | cons c C =>
    have h := GetCommand_items_end (Item.arg c) (C.map Item.arg)
      (by
        intro j hj
        rcases List.mem_cons.mp hj with rfl | hj
        · exact hp c (by simp)
        · obtain ⟨s, hs, rfl⟩ := List.mem_map.mp hj
          exact hp s (by simp [hs])) x
    have e1 : itemTokens (Item.arg c :: C.map Item.arg) = (c :: C).map Token.symbol := by
      simpa using itemTokens_args (c :: C)
    have e2 : (Item.arg c :: C.map Item.arg).foldl Item.apply {} = ⟨c :: C, [], []⟩ := by
      simpa using foldl_apply_args (c :: C) {}
    rw [e1, e2, lastWord_args] at h
    rw [List.map_cons, renderSp_eq_render, GetCommand_space _ x x]
    exact h

theorem GetCommand_words_op (op : Token) (hop : op.ends = true) (rest : List Char)
    (hl : lexesBefore op rest = true) (C : List SymbolToken)
    (hp : ∀ s ∈ C, plainWord s = true) (x : Token) :
    GetCommand ⟨render (C.map Token.symbol ++ [op]) ++ rest, x⟩ =
      Except.ok (⟨C, [], []⟩, ⟨rest, op⟩) := by
  have h := GetCommand_items_op op hop rest hl (C.map Item.arg)
    (by
      intro j hj
      obtain ⟨s, hs, rfl⟩ := List.mem_map.mp hj
      exact hp s hs) x
  have e2 : (C.map Item.arg).foldl Item.apply {} = ⟨C, [], []⟩ := by
    simpa using foldl_apply_args C {}
  rw [itemTokens_args, e2] at h
  exact h

/-! ### One round of the loop of Execute -/

theorem ExecuteLoop_launch (w : World) (launch : Launcher) (n : Nat) (p : Proc) (st : Int)
    (tr : Trace) (cmd : Command) (t1 : Tokenizer) (hne : p.t.IsEnd = false)
    (hg : GetCommand p.t = Except.ok (cmd, t1)) (hp : t1.GetToken ≠ Token.pipe) :
    ExecuteLoop w launch (n + 1) p st tr =
      match launch Site.execute { p with t := t1 } cmd (-1) (-1) tr with
      | (tr1, Except.error e) => (tr1, Except.error e)
      | (tr1, Except.ok st1) =>
        executeResume (ExecuteLoop w launch n) { p with t := t1 } st1 tr1 := by
  rw [ExecuteLoop]
  simp only [hne, Bool.false_eq_true, if_false, hg, hp]

theorem ExecuteLoop_end (w : World) (launch : Launcher) (n : Nat) (p : Proc) (st : Int)
    (tr : Trace) (he : p.t.IsEnd = true) :
    ExecuteLoop w launch (n + 1) p st tr = (tr, Except.ok st) := by
  rw [ExecuteLoop]
  simp [he]

theorem ExecuteLoop_last_words (w : World) (launch : Launcher) (m : Nat) (D : List SymbolToken)
    (hD : D ≠ []) (hp : ∀ s ∈ D, plainWord s = true) (x : Token) (fds : FdTable) (depth : Nat)
    (st : Int) (tr : Trace) :
    ExecuteLoop w launch (m + 2) ⟨⟨renderSp (D.map Token.symbol), x⟩, fds, depth⟩ st tr =
      launch Site.execute ⟨⟨[], Token.symbol (D.getLastD [])⟩, fds, depth⟩ ⟨D, [], []⟩
        (-1) (-1) tr := by
  have hne : (⟨⟨renderSp (D.map Token.symbol), x⟩, fds, depth⟩ : Proc).t.IsEnd = false := by
    cases D with
    | nil => exact absurd rfl hD
    | cons d D => simp [Tokenizer.IsEnd, renderSp]
  rw [ExecuteLoop_launch w launch (m + 1) _ st tr _ _ hne (GetCommand_words_end D hD hp x)
    (by simp [Tokenizer.GetToken])]
  rcases hl : launch Site.execute ⟨⟨[], Token.symbol (D.getLastD [])⟩, fds, depth⟩ ⟨D, [], []⟩
    (-1) (-1) tr with ⟨tr1, r⟩
  cases r with
  | error e => simp [hl]
  | ok st1 =>
    simp only [hl, executeResume, logicStep, Tokenizer.GetToken]
    exact ExecuteLoop_end w launch m _ st1 tr1 rfl


theorem render_append (ts us : List Token) (h : ts ≠ []) :
    render (ts ++ us) = render ts ++ renderSp us := by
  cases ts with
  | nil => exact absurd rfl h
  | cons t ts => simp [render_cons, renderSp_append]

theorem render_two (C D : List SymbolToken) (l : LogicToken) :
    render (C.map Token.symbol ++ Token.logic l :: D.map Token.symbol) =
      render (C.map Token.symbol ++ [Token.logic l]) ++ renderSp (D.map Token.symbol) := by
  rw [← render_append _ _ (by simp)]
  simp

theorem renderSp_length (t : Token) (ts : List Token) : 0 < (renderSp (t :: ts)).length := by
  simp [renderSp]

theorem render_length_pos (l : LogicToken) (ts : List Token) :
    0 < (render (ts ++ [Token.logic l])).length := by
  cases ts with
  | nil => cases l <;> simp [render_cons, Token.text]
  | cons a ts =>
    rw [List.cons_append, render_cons, renderSp_append]
    cases l <;> simp [renderSp, Token.text]

/-- The first round of `Execute` on `C op D`, `op` a connective: `C` is launched, and the
loop goes on with the connective as the token and ` D` unread. -/
theorem ExecuteWith_first (w : World) (launch : Launcher) (C D : List SymbolToken)
    (l : LogicToken) (hD : D ≠ []) (hCp : ∀ s ∈ C, plainWord s = true)
    (fds : FdTable) (depth : Nat) (tr : Trace) :
    ∃ m, ExecuteWith w launch
        ⟨Tokenizer.new (render (C.map Token.symbol ++ Token.logic l :: D.map Token.symbol)),
          fds, depth⟩ tr =
      match launch Site.execute ⟨⟨renderSp (D.map Token.symbol), Token.logic l⟩, fds, depth⟩
          ⟨C, [], []⟩ (-1) (-1) tr with
      | (tr1, Except.error e) => (tr1, Except.error e)
      | (tr1, Except.ok st) =>
        executeResume (ExecuteLoop w launch (m + 2))
          ⟨⟨renderSp (D.map Token.symbol), Token.logic l⟩, fds, depth⟩ st tr1 := by
  obtain ⟨d, D1, rfl⟩ : ∃ d D1, D = d :: D1 := by
    cases D with
    | nil => exact absurd rfl hD
    | cons d D1 => exact ⟨d, D1, rfl⟩
  have h1 := render_length_pos l (C.map Token.symbol)
  have h2 := renderSp_length (Token.symbol d) (D1.map Token.symbol)
  obtain ⟨m, hm⟩ : ∃ m, (render (C.map Token.symbol ++ Token.logic l ::
      (d :: D1).map Token.symbol)).length = m + 2 := by
    rw [render_two, List.length_append]
    simp only [List.map_cons]
    exact ⟨_, (Nat.sub_add_cancel (by omega)).symm⟩
  refine ⟨m, ?_⟩
  have hne : (⟨Tokenizer.new (render (C.map Token.symbol ++ Token.logic l ::
      (d :: D1).map Token.symbol)), fds, depth⟩ : Proc).t.IsEnd = false := by
    simp only [Tokenizer.IsEnd, Tokenizer.new, List.isEmpty_eq_false]
    intro h0
    rw [h0] at hm
    simp at hm
  have hg : GetCommand (⟨Tokenizer.new (render (C.map Token.symbol ++ Token.logic l ::
      (d :: D1).map Token.symbol)), fds, depth⟩ : Proc).t =
      Except.ok (⟨C, [], []⟩, ⟨renderSp ((d :: D1).map Token.symbol), Token.logic l⟩) := by
    simp only [Tokenizer.new]
    rw [render_two]
    exact GetCommand_words_op (Token.logic l) rfl _ rfl C hCp _
  rw [ExecuteWith]
  simp only [Tokenizer.new] at hm ⊢
  rw [hm]
  exact ExecuteLoop_launch w launch (m + 2) _ 0 tr _ _ hne hg (by simp [Tokenizer.GetToken])

theorem SkipLoop_last_words (m : Nat) (D : List SymbolToken) (hD : D ≠ [])
    (hp : ∀ s ∈ D, plainWord s = true) (x : Token) (hx : x ≠ Token.logic LogicToken.OR) :
    SkipLoop (m + 2) ⟨renderSp (D.map Token.symbol), x⟩ =
      Except.ok ⟨[], Token.symbol (D.getLastD [])⟩ := by
  have hne : (⟨renderSp (D.map Token.symbol), x⟩ : Tokenizer).IsEnd = false := by
    cases D with
    | nil => exact absurd rfl hD
    | cons d D => simp [Tokenizer.IsEnd, renderSp]
  rw [SkipLoop]
  simp only [hne, Tokenizer.GetToken, ne_eq, hx, not_false_eq_true, decide_True, Bool.not_false,
    Bool.and_self, if_true, GetCommand_words_end D hD hp x]
  rw [SkipLoop]
  simp [Tokenizer.IsEnd]


/-! ### After a failure followed by a connective -/

theorem getLast?_cons_getD (p d : SymbolToken) (l : List SymbolToken) :
    ((p :: l).getLast?).getD d = (l.getLast?).getD p := by
  cases l with
  | nil => rfl
  | cons a l =>
    rw [List.getLast?_cons_cons]
    cases h : (a :: l).getLast? with
    | none => simp at h
    | some b => rfl

theorem foldl_apply_spec (its : List Item) (cmd : Command) :
    its.foldl Item.apply cmd =
      ⟨cmd.args ++ wordsOf its, ((targetsOf FlowToken.IN its).getLast?).getD cmd.in_,
        ((targetsOf FlowToken.OUT its).getLast?).getD cmd.out⟩ := by
  induction its generalizing cmd with
  | nil => simp [wordsOf, targetsOf]
  | cons i its ih =>
    cases i with
    | arg w => simp [Item.apply, wordsOf, targetsOf, ih]
    | redirect f p =>
      cases f with
      | IN =>
        rw [List.foldl_cons, ih]
        simp only [Item.apply, if_true, wordsOf, targetsOf, getLast?_cons_getD]
        simp
      | OUT =>
        rw [List.foldl_cons, ih]
        simp only [Item.apply, wordsOf, targetsOf, getLast?_cons_getD, if_true]
        simp

theorem getLast?_eq_head? (l : List SymbolToken) (h : l.length ≤ 1) : l.getLast? = l.head? := by
  cases l with
  | nil => rfl
  | cons a l =>
    cases l with
    | nil => rfl
    | cons b l => simp at h

/-! ### What a trace shows -/

theorem errOutput_append (a b : Trace) : errOutput (a ++ b) = errOutput a ++ errOutput b := by
  induction a with
  | nil => rfl
  | cons e a ih =>
    cases e with
    | mk d act => cases act <;> simp [errOutput, ih]

theorem programsRun_append (a b : Trace) :
    programsRun (a ++ b) = programsRun a ++ programsRun b := by
  induction a with
  | nil => rfl
  | cons e a ih =>
    cases e with
    | mk d act =>
      cases act with
      | execvp args found i o => cases found <;> simp [programsRun, ih]
      | _ => simp [programsRun, ih]

/-- Redirections that succeed write nothing and start nothing. -/
theorem redirect_ok (w : World) (depth : Nat) (fds : FdTable) (cmd : Command) (tr : Trace)
    (hin : cmd.in_ = [] ∨ ∀ h, w.canRead h cmd.in_ = true)
    (hout : cmd.out = [] ∨ ∀ h, w.canWrite h cmd.out = true) :
    ∃ tr1 fds1, redirect w depth fds cmd tr = (tr1, Except.ok fds1) ∧
      errOutput tr1 = errOutput tr ∧ programsRun tr1 = programsRun tr := by
  rcases hin with hin | hin <;> rcases hout with hout | hout
  · exact ⟨tr, fds, by simp [redirect, hin, hout], rfl, rfl⟩
  · by_cases ho : cmd.out = []
    · exact ⟨tr, fds, by simp [redirect, hin, ho], rfl, rfl⟩
    · exact ⟨_, _, by simp [redirect, hin, ho, hout]; exact ⟨rfl, rfl⟩,
        by simp [errOutput_append, errOutput], by simp [programsRun_append, programsRun]⟩
  · by_cases hi : cmd.in_ = []
    · exact ⟨tr, fds, by simp [redirect, hi, hout], rfl, rfl⟩
    · exact ⟨_, _, by simp [redirect, hi, hin, hout]; exact ⟨rfl, rfl⟩,
        by simp [errOutput_append, errOutput], by simp [programsRun_append, programsRun]⟩
  · by_cases hi : cmd.in_ = [] <;> by_cases ho : cmd.out = []
    · exact ⟨tr, fds, by simp [redirect, hi, ho], rfl, rfl⟩
    · exact ⟨_, _, by simp [redirect, hi, ho, hout]; exact ⟨rfl, rfl⟩,
        by simp [errOutput_append, errOutput], by simp [programsRun_append, programsRun]⟩
    · exact ⟨_, _, by simp [redirect, hi, hin, ho]; exact ⟨rfl, rfl⟩,
        by simp [errOutput_append, errOutput], by simp [programsRun_append, programsRun]⟩
    · exact ⟨_, _, by simp [redirect, hi, hin, ho, hout]; exact ⟨rfl, rfl⟩,
        by simp [errOutput_append, errOutput], by simp [programsRun_append, programsRun]⟩

/-! ### The fuel is always enough -/

theorem Next_length_le (t u : Tokenizer) (h : t.Next = some u) :
    u.stream.length ≤ t.stream.length := by
  cases he : t.IsEnd with
  | false => exact Nat.le_of_lt (Next_length_lt t u he h)
  | true =>
    have hs : t.stream = [] := by simpa [Tokenizer.IsEnd] using he
    have ht : t = ⟨[], t.token⟩ := by cases t; simp_all
    rw [ht, Next_at_end] at h
    cases h
    simp

theorem GetCommandLoop_fuel (fuel : Nat) (t : Tokenizer) (cmd : Command)
    (hf : t.stream.length < fuel) :
    GetCommandLoop fuel t cmd ≠ Except.error Ending.outOfFuel ∧
      ∀ cmd1 t1, GetCommandLoop fuel t cmd = Except.ok (cmd1, t1) →
        t1.stream.length ≤ t.stream.length := by
  induction fuel generalizing t cmd with
  | zero => simp at hf
  | succ n ih =>
    have step : ∀ (u : Tokenizer) (c : Command), u.stream.length ≤ t.stream.length →
        getCommandStep (GetCommandLoop n) u c ≠ Except.error Ending.outOfFuel ∧
          ∀ cmd1 t1, getCommandStep (GetCommandLoop n) u c = Except.ok (cmd1, t1) →
            t1.stream.length ≤ t.stream.length := by
      intro u c hu
      rw [getCommandStep]
      cases he : u.IsEnd with
      | true =>
        simp only [if_true]
        exact ⟨by simp, fun cmd1 t1 h => by cases h; exact hu⟩
      | false =>
        simp only [Bool.false_eq_true, if_false]
        cases hn : u.Next with
        | none => exact ⟨by simp, fun cmd1 t1 h => by simp at h⟩
        | some u1 =>
          have hlt := Next_length_lt u u1 he hn
          have := ih u1 c (by omega)
          exact ⟨this.1, fun cmd1 t1 h => le_trans (this.2 cmd1 t1 h) (by omega)⟩
    rw [GetCommandLoop]
    cases htok : t.GetToken with
    | logic l => exact ⟨by simp, fun cmd1 t1 h => by cases h; exact le_refl _⟩
    | pipe => exact ⟨by simp, fun cmd1 t1 h => by cases h; exact le_refl _⟩
    | symbol s => exact step t _ (le_refl _)
    | flow f =>
      simp only
      cases hn : t.Next with
      | none => exact ⟨by simp, fun cmd1 t1 h => by simp at h⟩
      | some u =>
        simp only
        cases hu : u.GetToken with
        | symbol s => exact step u _ (Next_length_le t u hn)
        | logic l => exact ⟨by simp, fun cmd1 t1 h => by simp at h⟩
        | pipe => exact ⟨by simp, fun cmd1 t1 h => by simp at h⟩
        | flow g => exact ⟨by simp, fun cmd1 t1 h => by simp at h⟩

theorem GetCommand_fuel (t : Tokenizer) :
    GetCommand t ≠ Except.error Ending.outOfFuel ∧
      ∀ cmd1 t1, GetCommand t = Except.ok (cmd1, t1) →
        t1.stream.length ≤ t.stream.length ∧
          (t.IsEnd = false → t1.stream.length < t.stream.length) := by
  rw [GetCommand]
  cases hn : t.Next with
  | none => exact ⟨by simp, fun cmd1 t1 h => by simp at h⟩
  | some u =>
    have := GetCommandLoop_fuel (u.stream.length + 1) u {} (Nat.lt_succ_self _)
    refine ⟨this.1, fun cmd1 t1 h => ⟨le_trans (this.2 cmd1 t1 h) (Next_length_le t u hn), ?_⟩⟩
    intro he
    exact Nat.lt_of_le_of_lt (this.2 cmd1 t1 h) (Next_length_lt t u he hn)

theorem SkipLoop_fuel (fuel : Nat) (t : Tokenizer) (hf : t.stream.length < fuel) :
    SkipLoop fuel t ≠ Except.error Ending.outOfFuel ∧
      ∀ t1, SkipLoop fuel t = Except.ok t1 → t1.stream.length ≤ t.stream.length := by
  induction fuel generalizing t with
  | zero => simp at hf
  | succ n ih =>
    rw [SkipLoop]
    split
    · rename_i hc
      have he : t.IsEnd = false := by
        simp only [Bool.and_eq_true, Bool.not_eq_true'] at hc
        exact hc.1
      have hg := GetCommand_fuel t
      cases hgc : GetCommand t with
      | error e =>
        refine ⟨?_, fun t1 h => by simp at h⟩
        simp only [ne_eq, Except.error.injEq]
        rintro rfl
        exact hg.1 hgc
      | ok r =>
        obtain ⟨cmd1, t1⟩ := r
        have hlt := (hg.2 cmd1 t1 hgc).2 he
        have := ih t1 (by omega)
        exact ⟨this.1, fun t2 h => le_trans (this.2 t2 h) (Nat.le_of_lt hlt)⟩
    · exact ⟨by simp, fun t1 h => by cases h; exact le_refl _⟩

theorem logicStep_fuel (t : Tokenizer) (st : Int) :
    logicStep t st ≠ Except.error Ending.outOfFuel ∧
      ∀ t1, logicStep t st = Except.ok (some t1) → t1.stream.length ≤ t.stream.length := by
  rw [logicStep]
  cases htok : t.GetToken with
  | logic l =>
    simp only
    split
    · exact ⟨by simp, fun t1 h => by simp at h⟩
    · split
      · exact ⟨by simp, fun t1 h => by cases h; exact le_refl _⟩
      · have := SkipLoop_fuel (t.stream.length + 1) t (Nat.lt_succ_self _)
        cases hs : SkipLoop (t.stream.length + 1) t with
        | error e =>
          refine ⟨?_, fun t1 h => by simp at h⟩
          simp only [ne_eq, Except.error.injEq]
          rintro rfl
          exact this.1 hs
        | ok t2 =>
          exact ⟨by simp, fun t1 h => by
            simp only [Except.ok.injEq, Option.some.injEq] at h
            subst h
            exact this.2 t2 hs⟩
  | pipe => exact ⟨by simp, fun t1 h => by cases h; exact le_refl _⟩
  | symbol s => exact ⟨by simp, fun t1 h => by cases h; exact le_refl _⟩
  | flow f => exact ⟨by simp, fun t1 h => by cases h; exact le_refl _⟩


theorem ExecPipeLoop_fuel (w : World) (launch : Launcher) (bound : Nat)
    (hl : launch.fueledBelow bound) (fuel : Nat) (p : Proc) (cmd : Command) (in_ : Int)
    (tr : Trace) (hb : p.t.stream.length < bound) (hf : p.t.stream.length < fuel) :
    (ExecPipeLoop w launch fuel p cmd in_ tr).2 ≠ Except.error Ending.outOfFuel ∧
      ∀ p1 cmd1 in1, (ExecPipeLoop w launch fuel p cmd in_ tr).2 = Except.ok (p1, cmd1, in1) →
        p1.t.stream.length ≤ p.t.stream.length := by
  induction fuel generalizing p cmd in_ tr with
  | zero => simp at hf
  | succ n ih =>
    rw [ExecPipeLoop]
    split
    · split
      · rename_i hpipe hok
        simp only
        generalize pipeFds p.fds tr.length = pf
        have hgood := hl (Site.execPipe pf.2.1) { p with fds := pf.1 } cmd in_ pf.2.2
          (tr ++ [⟨p.depth, Action.pipe true⟩]) hb
        generalize launch (Site.execPipe pf.2.1) { p with fds := pf.1 } cmd in_ pf.2.2
          (tr ++ [⟨p.depth, Action.pipe true⟩]) = res at hgood ⊢
        obtain ⟨tr1, r⟩ := res
        cases r with
        | error e => exact ⟨by simpa using hgood, fun p1 cmd1 in1 h => by simp at h⟩
        | ok st =>
          simp only [pipeResume]
          have hg := GetCommand_fuel p.t
          cases hgc : GetCommand p.t with
          | error e =>
            refine ⟨?_, fun p1 cmd1 in1 h => by simp at h⟩
            simp only [ne_eq, Except.error.injEq]
            rintro rfl
            exact hg.1 hgc
          | ok r =>
            obtain ⟨cmd2, t2⟩ := r
            have hle := (hg.2 cmd2 t2 hgc).1
            simp only
            cases he : t2.IsEnd with
            | true =>
              exact ⟨by simp, fun p1 cmd1 in1 h => by
                simp only [if_true, Except.ok.injEq, Prod.mk.injEq] at h
                rw [← h.1]
                exact hle⟩
            | false =>
              have hpe : p.t.IsEnd = false := by
                cases hp : p.t.stream with
                | nil =>
                  rw [hp] at hle
                  have : t2.stream = [] := List.length_eq_zero.mp (Nat.le_zero.mp hle)
                  simp [Tokenizer.IsEnd, this] at he
                | cons c cs => simp [Tokenizer.IsEnd, hp]
              have hlt := (hg.2 cmd2 t2 hgc).2 hpe
              have := ih ⟨t2, close pf.1 pf.2.2, p.depth⟩ cmd2 pf.2.1 tr1
                (by simp only; omega) (by simp only; omega)
              simp only [Bool.false_eq_true, if_false]
              exact ⟨this.1, fun p1 cmd1 in1 h => le_trans (this.2 p1 cmd1 in1 h) hle⟩
      · exact ⟨by simp, fun p1 cmd1 in1 h => by simp at h⟩
    · exact ⟨by simp, fun p1 cmd1 in1 h => by
        simp only [Except.ok.injEq, Prod.mk.injEq] at h
        rw [← h.1]⟩

theorem redirect_fuel (w : World) (depth : Nat) (fds : FdTable) (cmd : Command) (tr : Trace) :
    (redirect w depth fds cmd tr).2 ≠ Except.error Ending.outOfFuel := by
  simp only [redirect]
  split_ifs <;> (try simp) <;> split_ifs <;> simp

theorem ExecPipeTail_fuel (w : World) (p : Proc) (cmd : Command) (in_ : Int) (tr : Trace) :
    (ExecPipeTail w p cmd in_ tr).2 ≠ Except.error Ending.outOfFuel ∧
      ∀ st p1, (ExecPipeTail w p cmd in_ tr).2 = Except.ok (st, p1) → p1.t = p.t := by
  rw [ExecPipeTail]
  have hred := redirect_fuel w p.depth
  rcases hr : redirect w p.depth (if in_ ≠ 0 then dup2 p.fds in_ 0 else p.fds) cmd tr
    with ⟨tr1, r⟩
  have h1 := hred (if in_ ≠ 0 then dup2 p.fds in_ 0 else p.fds) cmd tr
  rw [hr] at h1
  cases r with
  | error e => exact ⟨by simpa using h1, fun st p1 h => by simp at h⟩
  | ok fds2 =>
    simp only
    cases hargs : cmd.args with
    | nil => exact ⟨by simp, fun st p1 h => by simp at h⟩
    | cons name rest =>
      simp only
      split_ifs
      · exact ⟨by simp, fun st p1 h => by
          simp only [Except.ok.injEq, Prod.mk.injEq] at h
          rw [← h.2]⟩
      · exact ⟨by simp, fun st p1 h => by simp at h⟩
      · exact ⟨by simp, fun st p1 h => by simp at h⟩

theorem ExecPipeWith_fuel (w : World) (launch : Launcher) (bound : Nat)
    (hl : launch.fueledBelow bound) (p : Proc) (cmd : Command) (tr : Trace)
    (hb : p.t.stream.length < bound) :
    (ExecPipeWith w launch p cmd tr).2 ≠ Except.error Ending.outOfFuel ∧
      ∀ st p1, (ExecPipeWith w launch p cmd tr).2 = Except.ok (st, p1) →
        p1.t.stream.length ≤ p.t.stream.length := by
  rw [ExecPipeWith]
  have h := ExecPipeLoop_fuel w launch bound hl (p.t.stream.length + 1) p cmd 0 tr hb
    (Nat.lt_succ_self _)
  generalize ExecPipeLoop w launch (p.t.stream.length + 1) p cmd 0 tr = res at h ⊢
  obtain ⟨tr1, r⟩ := res
  cases r with
  | error e => exact ⟨by simpa using h.1, fun st p1 hh => by simp at hh⟩
  | ok r =>
    obtain ⟨p1, cmd1, in1⟩ := r
    have hle := h.2 p1 cmd1 in1 rfl
    have ht := ExecPipeTail_fuel w p1 cmd1 in1 tr1
    exact ⟨ht.1, fun st p2 hh => by rw [ht.2 st p2 hh]; exact hle⟩

theorem executeResume_fuel (loop : Proc → Int → Trace → Trace × Except Ending Int) (m : Nat)
    (hloop : ∀ p st tr, p.t.stream.length ≤ m →
      (loop p st tr).2 ≠ Except.error Ending.outOfFuel)
    (p : Proc) (st : Int) (tr : Trace) (hp : p.t.stream.length ≤ m) :
    (executeResume loop p st tr).2 ≠ Except.error Ending.outOfFuel := by
  rw [executeResume]
  have h := logicStep_fuel p.t st
  cases hs : logicStep p.t st with
  | error e =>
    simp only [ne_eq, Except.error.injEq]
    rintro rfl
    exact h.1 hs
  | ok o =>
    cases o with
    | none => simp
    | some t1 => exact hloop _ st tr (le_trans (h.2 t1 hs) hp)

theorem ExecuteLoop_fuel (w : World) (launch : Launcher) (bound : Nat)
    (hl : launch.fueledBelow bound) (fuel : Nat) (p : Proc) (st : Int) (tr : Trace)
    (hb : p.t.stream.length ≤ bound) (hf : p.t.stream.length < fuel) :
    (ExecuteLoop w launch fuel p st tr).2 ≠ Except.error Ending.outOfFuel := by
  induction fuel generalizing p st tr with
  | zero => simp at hf
  | succ n ih =>
    rw [ExecuteLoop]
    cases he : p.t.IsEnd with
    | true => simp
    | false =>
      simp only [Bool.false_eq_true, if_false]
      have hg := GetCommand_fuel p.t
      cases hgc : GetCommand p.t with
      | error e =>
        simp only [ne_eq, Except.error.injEq]
        rintro rfl
        exact hg.1 hgc
      | ok r =>
        obtain ⟨cmd, t1⟩ := r
        have hlt := (hg.2 cmd t1 hgc).2 he
        have hloop : ∀ (q : Proc) (s : Int) (tq : Trace), q.t.stream.length ≤ t1.stream.length →
            (ExecuteLoop w launch n q s tq).2 ≠ Except.error Ending.outOfFuel :=
          fun q s tq hq => ih q s tq (by omega) (by omega)
        simp only
        split
        · have hpw := ExecPipeWith_fuel w launch bound hl { p with t := t1 } cmd tr
            (by simp only; omega)
          generalize ExecPipeWith w launch { p with t := t1 } cmd tr = res at hpw ⊢
          obtain ⟨tr1, r⟩ := res
          cases r with
          | error e => simpa using hpw.1
          | ok r =>
            obtain ⟨st1, p1⟩ := r
            exact executeResume_fuel _ t1.stream.length hloop p1 st1 tr1 (hpw.2 st1 p1 rfl)
        · have hgood := hl Site.execute { p with t := t1 } cmd (-1) (-1) tr
            (by simp only; omega)
          generalize launch Site.execute { p with t := t1 } cmd (-1) (-1) tr = res at hgood ⊢
          obtain ⟨tr1, r⟩ := res
          cases r with
          | error e => simpa using hgood
          | ok st1 =>
            exact executeResume_fuel _ t1.stream.length hloop { p with t := t1 } st1 tr1
              (le_refl _)

theorem ExecChild_fuel (w : World) (p : Proc) (cmd : Command) (from_ to_ : Int) (tr : Trace) :
    (ExecChild w p cmd from_ to_ tr).2 ≠ Except.error Ending.outOfFuel ∧
      ∀ c, (ExecChild w p cmd from_ to_ tr).2 = Except.ok c → c.t = p.t := by
  rw [ExecChild]
  generalize (if to_ ≠ -1 then moveFd (if from_ ≠ -1 then moveFd p.fds from_ 0 else p.fds) to_ 1
    else if from_ ≠ -1 then moveFd p.fds from_ 0 else p.fds) = fds2
  have h1 := redirect_fuel w p.depth fds2 cmd tr
  generalize redirect w p.depth fds2 cmd tr = res at h1 ⊢
  obtain ⟨tr1, r⟩ := res
  cases r with
  | error e => exact ⟨by simpa using h1, fun c h => by simp at h⟩
  | ok fds3 =>
    simp only
    cases hargs : cmd.args with
    | nil => exact ⟨by simp, fun c h => by simp at h⟩
    | cons name rest =>
      simp only
      split_ifs
      · exact ⟨by simp, fun c h => by
          simp only [Except.ok.injEq] at h
          rw [← h]⟩
      · exact ⟨by simp, fun c h => by simp at h⟩
      · exact ⟨by simp, fun c h => by simp at h⟩

theorem childGoesOn_fuel (w : World) (launch : Launcher) (bound : Nat)
    (hl : launch.fueledBelow bound) (site : Site) (c : Proc) (to_ : Int) (tr : Trace)
    (hb : c.t.stream.length ≤ bound) :
    (childGoesOn w launch site c to_ tr).2 ≠ Ending.outOfFuel := by
  have hloop : ∀ (m : Nat) (q : Proc) (s : Int) (tq : Trace), q.t.stream.length ≤ m →
      m ≤ bound → (ExecuteLoop w launch (m + 1) q s tq).2 ≠ Except.error Ending.outOfFuel :=
    fun m q s tq hq hm => ExecuteLoop_fuel w launch bound hl (m + 1) q s tq (by omega) (by omega)
  have key : ∀ run : Trace × Except Ending Int, run.2 ≠ Except.error Ending.outOfFuel →
      (match run with
        | (tr1, Except.error e) => (tr1, e)
        | (tr1, Except.ok st) => (tr1, Ending.exited st)).2 ≠ Ending.outOfFuel := by
    rintro ⟨tr1, r⟩ h
    cases r with
    | error e => simpa using h
    | ok st => simp
  unfold childGoesOn
  apply key
  cases site with
  | execute =>
    exact executeResume_fuel _ c.t.stream.length
      (fun q s tq hq => hloop _ q s tq hq hb) c 0 tr (le_refl _)
  | execPipe pfd0 =>
    simp only [pipeResume]
    have hg := GetCommand_fuel c.t
    cases hgc : GetCommand c.t with
    | error e =>
      simp only [ne_eq, Except.error.injEq]
      rintro rfl
      exact hg.1 hgc
    | ok r =>
      obtain ⟨cmd2, t2⟩ := r
      have hle := (hg.2 cmd2 t2 hgc).1
      have tail : ∀ (c1 : Proc) (cmd1 : Command) (in1 : Int) (tr1 : Trace),
          c1.t.stream.length ≤ c.t.stream.length →
          (match ExecPipeTail w c1 cmd1 in1 tr1 with
            | (tr2, Except.error e) => (tr2, Except.error e)
            | (tr2, Except.ok (st, c2)) =>
              executeResume (ExecuteLoop w launch (c2.t.stream.length + 1)) c2 st tr2).2 ≠
            Except.error Ending.outOfFuel := by
        intro c1 cmd1 in1 tr1 hc1
        have ht := ExecPipeTail_fuel w c1 cmd1 in1 tr1
        generalize ExecPipeTail w c1 cmd1 in1 tr1 = res at ht ⊢
        obtain ⟨tr2, r⟩ := res
        cases r with
        | error e => simpa using ht.1
        | ok r =>
          obtain ⟨st, c2⟩ := r
          have hc2 : c2.t = c1.t := ht.2 st c2 rfl
          exact executeResume_fuel _ c2.t.stream.length
            (fun q s tq hq => hloop _ q s tq hq (by rw [hc2]; omega)) c2 st tr2 (le_refl _)
      simp only
      cases he : t2.IsEnd with
      | true =>
        simp only [if_true]
        exact tail _ cmd2 pfd0 tr (by simpa using hle)
      | false =>
        have hpe : c.t.IsEnd = false := by
          cases hp : c.t.stream with
          | nil =>
            rw [hp] at hle
            have : t2.stream = [] := List.length_eq_zero.mp (Nat.le_zero.mp hle)
            simp [Tokenizer.IsEnd, this] at he
          | cons x xs => simp [Tokenizer.IsEnd, hp]
        have hlt := (hg.2 cmd2 t2 hgc).2 hpe
        have hpl := ExecPipeLoop_fuel w launch bound hl (c.t.stream.length + 1)
          ⟨t2, close c.fds to_, c.depth⟩ cmd2 pfd0 tr (by simp only; omega)
          (by simp only; omega)
        simp only [Bool.false_eq_true, if_false]
        generalize ExecPipeLoop w launch (c.t.stream.length + 1)
          ⟨t2, close c.fds to_, c.depth⟩ cmd2 pfd0 tr = res at hpl ⊢
        obtain ⟨tr1, r⟩ := res
        cases r with
        | error e => simpa using hpl.1
        | ok r =>
          obtain ⟨c1, cmd1, in1⟩ := r
          exact tail c1 cmd1 in1 tr1 (le_trans (hpl.2 c1 cmd1 in1 rfl) (by simpa using hle))

theorem Exec_fuel (w : World) (k : Nat) : (Exec w k).fueledBelow k := by
  induction k with
  | zero => intro site p cmd from_ to_ tr h; simp at h
  | succ k ih =>
    intro site p cmd from_ to_ tr h
    rw [Exec]
    simp only
    have hc := ExecChild_fuel w { p with depth := p.depth + 1 } cmd from_ to_
      (tr ++ [⟨p.depth, Action.fork cmd from_ to_⟩])
    generalize ExecChild w { p with depth := p.depth + 1 } cmd from_ to_
      (tr ++ [⟨p.depth, Action.fork cmd from_ to_⟩]) = res at hc ⊢
    obtain ⟨tr1, r⟩ := res
    have hend : ∀ child : Trace × Ending, child.2 ≠ Ending.outOfFuel →
        (match waitpid w child.2 with
          | Except.error e => (child.1, Except.error e)
          | Except.ok (WaitStatus.exited code) => (child.1, Except.ok code)
          | Except.ok (WaitStatus.signaled raw) =>
            (child.1, (Except.error (Ending.exited raw) : Except Ending Int))).2 ≠
          Except.error Ending.outOfFuel := by
      rintro ⟨tr2, e⟩ he
      cases e with
      | exited code => simp [waitpid]
      | replaced ws => cases ws <;> simp [waitpid]
      | badVariantAccess => simp [waitpid]
      | hang => simp [waitpid]
      | undefined => simp [waitpid]
      | outOfFuel => exact absurd rfl he
    apply hend
    cases r with
    | error e => simpa using hc.1
    | ok c =>
      have hct : c.t = p.t := hc.2 c rfl
      exact childGoesOn_fuel w (Exec w k) k ih site c to_ tr1 (by rw [hct]; omega)

/-- The fuel that `Execute` takes is enough for every line in every world. -/
theorem Execute_fuel (w : World) (line : List Char) :
    (Execute w line).2 ≠ Except.error Ending.outOfFuel := by
  rw [Execute, ExecuteWith]
  have hl : (Exec w (line.length + 1)).fueledBelow line.length :=
    fun site p cmd from_ to_ tr h =>
      Exec_fuel w (line.length + 1) site p cmd from_ to_ tr (by omega)
  exact ExecuteLoop_fuel w _ line.length hl _ _ 0 [] (by simp [Tokenizer.new])
    (by simp [Tokenizer.new])


/-! ### The record of launches and the tokens that can be reached -/

theorem Reaches_refl (t : Tokenizer) : t.Reaches t := Relation.ReflTransGen.refl

theorem Reaches_step {t u v : Tokenizer} (h : t.Next = some u) (h2 : u.Reaches v) :
    t.Reaches v := Relation.ReflTransGen.head h h2

theorem Reaches_trans {t u v : Tokenizer} (h : t.Reaches u) (h2 : u.Reaches v) :
    t.Reaches v := Relation.ReflTransGen.trans h h2

theorem GetCommandLoop_reaches (fuel : Nat) (t : Tokenizer) (cmd cmd1 : Command)
    (u : Tokenizer) (h : GetCommandLoop fuel t cmd = Except.ok (cmd1, u)) : t.Reaches u := by
  induction fuel generalizing t cmd with
  | zero => simp [GetCommandLoop] at h
  | succ n ih =>
    have step : ∀ (v : Tokenizer) (c : Command),
        getCommandStep (GetCommandLoop n) v c = Except.ok (cmd1, u) → v.Reaches u := by
      intro v c hv
      rw [getCommandStep] at hv
      split at hv
      · cases hv; exact Reaches_refl _
      · cases hn : v.Next with
        | none => simp [hn] at hv
        | some v1 =>
          simp only [hn] at hv
          exact Reaches_step hn (ih v1 c hv)
    rw [GetCommandLoop] at h
    cases htok : t.GetToken with
    | logic l => simp only [htok] at h; cases h; exact Reaches_refl _
    | pipe => simp only [htok] at h; cases h; exact Reaches_refl _
    | symbol s => simp only [htok] at h; exact step t _ h
    | flow f =>
      simp only [htok] at h
      cases hn : t.Next with
      | none => simp [hn] at h
      | some v =>
        simp only [hn] at h
        cases hv : v.GetToken with
        | symbol s => simp only [hv] at h; exact Reaches_step hn (step v _ h)
        | logic l => simp [hv] at h
        | pipe => simp [hv] at h
        | flow g => simp [hv] at h

theorem GetCommand_reaches (t : Tokenizer) (cmd1 : Command) (u : Tokenizer)
    (h : GetCommand t = Except.ok (cmd1, u)) : t.Reaches u := by
  rw [GetCommand] at h
  cases hn : t.Next with
  | none => simp [hn] at h
  | some v =>
    simp only [hn] at h
    exact Reaches_step hn (GetCommandLoop_reaches _ v {} cmd1 u h)

theorem SkipLoop_reaches (fuel : Nat) (t u : Tokenizer) (h : SkipLoop fuel t = Except.ok u) :
    t.Reaches u := by
  induction fuel generalizing t with
  | zero => simp [SkipLoop] at h
  | succ n ih =>
    rw [SkipLoop] at h
    split at h
    · cases hg : GetCommand t with
      | error e => simp [hg] at h
      | ok r =>
        obtain ⟨cmd1, t1⟩ := r
        simp only [hg] at h
        exact Reaches_trans (GetCommand_reaches t cmd1 t1 hg) (ih t1 h)
    · cases h; exact Reaches_refl _

theorem logicStep_reaches (t u : Tokenizer) (st : Int)
    (h : logicStep t st = Except.ok (some u)) : t.Reaches u := by
  rw [logicStep] at h
  cases htok : t.GetToken with
  | logic l =>
    simp only [htok] at h
    split at h
    · simp at h
    · split at h
      · cases h; exact Reaches_refl _
      · cases hs : SkipLoop (t.stream.length + 1) t with
        | error e => simp [hs] at h
        | ok t2 =>
          simp only [hs, Except.ok.injEq, Option.some.injEq] at h
          subst h
          exact SkipLoop_reaches _ t t2 hs
  | pipe => simp only [htok] at h; cases h; exact Reaches_refl _
  | symbol s => simp only [htok] at h; cases h; exact Reaches_refl _
  | flow f => simp only [htok] at h; cases h; exact Reaches_refl _

theorem PipeFree_of_reaches {t u : Tokenizer} (h : t.PipeFree) (hr : t.Reaches u) :
    u.PipeFree := fun v hv => h v (Reaches_trans hr hv)

theorem ExecuteLoopLog_erase (w : World) (launch : Launcher) (fuel : Nat) (p : Proc)
    (st : Int) (tr : Trace) (log : LaunchLog) :
    (ExecuteLoopLog w launch fuel p st tr log).1 = ExecuteLoop w launch fuel p st tr := by
  induction fuel generalizing p st tr log with
  | zero => rfl
  | succ n ih =>
    have hres : ∀ (q : Proc) (s : Int) (tq : Trace) (lg : LaunchLog),
        (executeResumeLog (ExecuteLoopLog w launch n) q s tq lg).1 =
          executeResume (ExecuteLoop w launch n) q s tq := by
      intro q s tq lg
      rw [executeResumeLog, executeResume]
      cases logicStep q.t s with
      | error e => rfl
      | ok o =>
        cases o with
        | none => rfl
        | some t1 => exact ih _ _ _ _
    rw [ExecuteLoopLog, ExecuteLoop]
    split
    · rfl
    · cases GetCommand p.t with
      | error e => rfl
      | ok r =>
        obtain ⟨cmd, t⟩ := r
        simp only
        split
        · rcases ExecPipeWith w launch { p with t := t } cmd tr with ⟨tr1, r⟩
          cases r with
          | error e => rfl
          | ok r => obtain ⟨s1, p1⟩ := r; exact hres _ _ _ _
        · rcases launch Site.execute { p with t := t } cmd (-1) (-1) tr with ⟨tr1, r⟩
          cases r with
          | error e => rfl
          | ok s1 => exact hres _ _ _ _

theorem logicStep_none (t : Tokenizer) (st : Int) (h : logicStep t st = Except.ok none) :
    st = 0 := by
  rw [logicStep] at h
  cases htok : t.GetToken with
  | logic l =>
    simp only [htok] at h
    split at h
    · rename_i hc; exact hc.2
    · split at h
      · simp at h
      · cases hs : SkipLoop (t.stream.length + 1) t <;> simp [hs] at h
  | pipe => simp [htok] at h
  | symbol s => simp [htok] at h
  | flow f => simp [htok] at h

theorem lastStatus_cons (a : Command × Int) (l : LaunchLog) (d : Int) :
    (((a :: l).getLast?).map Prod.snd).getD d = ((l.getLast?).map Prod.snd).getD a.2 := by
  cases l with
  | nil => rfl
  | cons b l =>
    rw [List.getLast?_cons_cons]
    cases h : (b :: l).getLast? with
    | none => simp at h
    | some c => rfl

theorem ExecuteLoopLog_last (w : World) (launch : Launcher) (fuel : Nat) (p : Proc)
    (st : Int) (tr : Trace) (log : LaunchLog) (tr1 : Trace) (r : Int) (log1 : LaunchLog)
    (hp : p.t.PipeFree)
    (h : ExecuteLoopLog w launch fuel p st tr log = ((tr1, Except.ok r), log1)) :
    ∃ new, log1 = log ++ new ∧ r = ((new.getLast?).map Prod.snd).getD st := by
  induction fuel generalizing p st tr log with
  | zero => simp [ExecuteLoopLog] at h
  | succ n ih =>
    rw [ExecuteLoopLog] at h
    split at h
    · simp only [Prod.mk.injEq, Except.ok.injEq] at h
      exact ⟨[], by simp [h.2], by simp [h.1.2]⟩
    · cases hg : GetCommand p.t with
      | error e => simp [hg] at h
      | ok res =>
        obtain ⟨cmd, t⟩ := res
        have hreach := GetCommand_reaches p.t cmd t hg
        have htp : t.GetToken ≠ Token.pipe := hp t hreach
        simp only [hg, htp, if_false] at h
        rcases hl : launch Site.execute { p with t := t } cmd (-1) (-1) tr with ⟨tr2, res⟩
        rw [hl] at h
        cases res with
        | error e => simp at h
        | ok s1 =>
          simp only [executeResumeLog] at h
          cases hs : logicStep t s1 with
          | error e => simp [hs] at h
          | ok o =>
            cases o with
            | none =>
              simp only [hs, Prod.mk.injEq, Except.ok.injEq] at h
              have h0 := logicStep_none t s1 hs
              exact ⟨[(cmd, s1)], h.2.symm, by simp [← h.1.2, h0]⟩
            | some t2 =>
              simp only [hs] at h
              obtain ⟨new, hnew, hr⟩ := ih { p with t := t2 } s1 tr2 (log ++ [(cmd, s1)])
                (PipeFree_of_reaches (PipeFree_of_reaches hp hreach)
                  (logicStep_reaches t t2 s1 hs)) h
              exact ⟨(cmd, s1) :: new, by simp [hnew], by rw [lastStatus_cons]; exact hr⟩

theorem reaches_cases {t u : Tokenizer} (h : t.Reaches u) :
    u = t ∨ ∃ v, t.Next = some v ∧ v.Reaches u := by
  rcases Relation.ReflTransGen.cases_head h with h1 | ⟨v, hv, hr⟩
  · exact Or.inl h1.symm
  · exact Or.inr ⟨v, hv, hr⟩

theorem reaches_eofState {u : Tokenizer} (h : eofState.Reaches u) : u = eofState := by
  have key : ∀ a b : Tokenizer, a.Reaches b → a = eofState → b = eofState := by
    intro a b hab
    induction hab with
    | refl => exact id
    | tail _ hstep ih =>
      intro ha
      rw [ih ha] at hstep
      have : eofState.Next = some eofState := rfl
      rw [this] at hstep
      exact (Option.some.inj hstep).symm
  exact key _ _ h rfl

theorem Next_of_end (t : Tokenizer) (he : t.IsEnd = true) : t.Next = some eofState := by
  have hs : t.stream = [] := by simpa [Tokenizer.IsEnd] using he
  have ht : t = ⟨[], t.token⟩ := by cases t; simp_all
  rw [ht]
  rfl

theorem reaches_chain {t u : Tokenizer} {sts : List Tokenizer} (hc : Chain t sts)
    (h : t.Reaches u) : u = t ∨ u ∈ sts ∨ u = eofState := by
  induction sts generalizing t with
  | nil =>
    simp only [Chain] at hc
    rcases reaches_cases h with h1 | ⟨v, hv, hr⟩
    · exact Or.inl h1
    · rw [Next_of_end t hc] at hv
      cases hv
      exact Or.inr (Or.inr (reaches_eofState hr))
  | cons t1 sts ih =>
    simp only [Chain] at hc
    rcases reaches_cases h with h1 | ⟨v, hv, hr⟩
    · exact Or.inl h1
    · rw [hc.2.1] at hv
      cases hv
      rcases ih hc.2.2 hr with h2 | h2 | h2
      · exact Or.inr (Or.inl (by simp [h2]))
      · exact Or.inr (Or.inl (by simp [h2]))
      · exact Or.inr (Or.inr h2)

theorem pipeFree_of_states (t : Tokenizer) (sts : List Tokenizer) (hs : t.states = some sts)
    (ht : t.token ≠ Token.pipe) (hall : ∀ s ∈ sts, s.token ≠ Token.pipe) : t.PipeFree := by
  intro u hu
  rcases reaches_chain (chain_of_statesLoop _ _ _ hs) hu with h | h | h
  · rw [h]; exact ht
  · exact hall u h
  · rw [h]; simp [eofState]


/-! ### Quoted words, escape characters and the ampersand -/

theorem readQuoted_char (q c : Char) (hq : c ≠ q) (he : c ≠ escape) (rest : List Char)
    (hr : rest ≠ []) (cur : SymbolToken) :
    readQuoted q (c :: rest) cur = readQuoted q rest (cur ++ [c]) := by
  cases rest with
  | nil => exact absurd rfl hr
  | cons d ds => simp [readQuoted, hq, he]

theorem readQuoted_run (q : Char) (hq : escape ≠ q) (n : Nat) (rest : List Char)
    (hr : rest ≠ []) (hh : rest.head? ≠ some escape) (cur : SymbolToken) :
    readQuoted q (List.replicate n escape ++ rest) cur =
      readQuoted q rest (cur ++ List.replicate (collapsed n) escape) := by
  induction n using Nat.strong_induction_on generalizing cur with
  | _ n ih =>
    match n with
    | 0 => simp [collapsed]
    | 1 =>
      cases rest with
      | nil => exact absurd rfl hr
      | cons d ds =>
        have hd : d ≠ escape := by simpa using hh
        simp [readQuoted, hq, hd, collapsed]
    | m + 2 =>
      have h2 : List.replicate (m + 2) escape ++ rest =
          escape :: escape :: (List.replicate m escape ++ rest) := by
        simp [List.replicate_succ]
      have hc : collapsed (m + 2) = collapsed m + 1 := by
        simp only [collapsed]; omega
      rw [h2, readQuoted, if_neg hq, if_pos ⟨rfl, rfl⟩, ih m (by omega), hc,
        List.replicate_succ]
      simp

theorem readQuoted_pieces (q : Char) (hq : escape ≠ q) (bs : List QuotedPiece)
    (hb : quotedOk q bs = true) (r : List Char) (cur : SymbolToken) :
    readQuoted q (quotedText bs ++ q :: r) cur = some (cur ++ quotedWord bs, r) := by
  induction bs generalizing cur with
  | nil => simpa [quotedText, quotedWord] using readQuoted_closed q [] (by simp) r cur
  | cons b bs ih =>
    cases b with
    | char c =>
      simp only [quotedOk, Bool.and_eq_true, bne_iff_ne, ne_eq] at hb
      rw [quotedText, List.cons_append, readQuoted_char q c hb.1.1 hb.1.2 _ (by simp),
        ih hb.2, quotedWord]
      simp
    | escapes n =>
      simp only [quotedOk, Bool.and_eq_true, decide_eq_true_eq] at hb
      have hhead : (quotedText bs ++ q :: r).head? ≠ some escape := by
        cases bs with
        | nil => simpa [quotedText] using fun h => hq h.symm
        | cons b2 bs2 =>
          cases b2 with
          | char c =>
            have := hb.2
            simp only [quotedOk, Bool.and_eq_true, bne_iff_ne, ne_eq] at this
            simpa [quotedText] using this.1.2
          | escapes k => simp at hb
      rw [quotedText, List.append_assoc, readQuoted_run q hq n _ (by simp) hhead, ih hb.2,
        quotedWord]
      simp

theorem Next_quote (q : Char) (hq : q = dquote ∨ q = squote) (s : List Char) (x : Token) :
    Tokenizer.Next ⟨q :: s, x⟩ =
      match readQuoted q s [] with
      | some (w, s1) => some ⟨s1, Token.symbol w⟩
      | none => none := by
  have hsp : isspace q = false := by rcases hq with rfl | rfl <;> decide
  have h1 : q ≠ '>' := by rcases hq with rfl | rfl <;> decide
  have h2 : q ≠ '<' := by rcases hq with rfl | rfl <;> decide
  have h3 : q ≠ '|' := by rcases hq with rfl | rfl <;> decide
  have h4 : q ≠ '&' := by rcases hq with rfl | rfl <;> decide
  have hsk : skipSpaces (q :: s) = (q, s) := by simp [skipSpaces, hsp]
  simp only [Tokenizer.Next, hsk, nextFrom]
  rw [if_neg h1, if_neg h2, if_neg h3, if_neg (fun h => h4 h.1), if_pos hq]

theorem escape_ne_quote (q : Char) (hq : q = dquote ∨ q = squote) : escape ≠ q := by
  rcases hq with rfl | rfl <;> decide

theorem dropEscapes_run (m : Nat) (w : List Char) (hw : w.head? ≠ some escape) :
    dropEscapes (List.replicate m escape ++ w) = w := by
  induction m with
  | zero =>
    cases w with
    | nil => rfl
    | cons c cs =>
      have hc : c ≠ escape := by simpa using hw
      simp [dropEscapes, hc]
  | succ m ih => simp [List.replicate_succ, dropEscapes, ih]

theorem Next_escape (s : List Char) (x : Token) :
    Tokenizer.Next ⟨escape :: s, x⟩ =
      some ⟨(readWord (dropEscapes s) []).2, Token.symbol (readWord (dropEscapes s) []).1⟩ := by
  have hsk : skipSpaces (escape :: s) = (escape, s) := by
    simp [skipSpaces, show isspace escape = false by decide]
  simp only [Tokenizer.Next, hsk, nextFrom]
  rw [if_neg (by decide), if_neg (by decide), if_neg (by decide),
    if_neg (fun h => absurd h.1 (by decide)), if_neg (by decide)]
  simp

theorem skipSpaces_append (ws : List Char) (hws : ∀ c ∈ ws, isspace c = true) (c : Char)
    (hc : isspace c = false) (s : List Char) : skipSpaces (ws ++ c :: s) = (c, s) := by
  induction ws with
  | nil => simp [skipSpaces, hc]
  | cons a ws ih =>
    simp only [List.cons_append, skipSpaces, hws a (by simp), if_true]
    exact ih (fun b hb => hws b (by simp [hb]))

theorem readWord_eq (s : List Char) (cur : SymbolToken) :
    readWord s cur =
      (cur ++ s.takeWhile (fun c => !isspace c), s.dropWhile (fun c => !isspace c)) := by
  induction s generalizing cur with
  | nil => simp [readWord]
  | cons c cs ih =>
    cases hc : isspace c with
    | true => simp [readWord, hc, List.takeWhile, List.dropWhile]
    | false => simp [readWord, hc, List.takeWhile, List.dropWhile, ih]


/-! ### A pipeline followed by a connective -/

/-- The rest of `ExecPipe` for a command whose program is not the sentinel: the
redirections, then `execvp`. -/
theorem ExecPipeTail_program (w : World) (p : Proc) (cmd : Command) (name : SymbolToken)
    (args : List SymbolToken) (ha : cmd.args = name :: args)
    (hs : IsCaosMainConst name = false) (in_ : Int) (tr : Trace) :
    ExecPipeTail w p cmd in_ tr =
      match redirect w p.depth (if in_ ≠ 0 then dup2 p.fds in_ 0 else p.fds) cmd tr with
      | (tr1, Except.error e) => (tr1, Except.error e)
      | (tr1, Except.ok fds2) =>
        if w.found tr1 name then
          (tr1 ++ [⟨p.depth, Action.execvp (name :: args) true (fdGet fds2 0) (fdGet fds2 1)⟩],
            Except.error (Ending.replaced (w.wait tr1 (name :: args))))
        else
          (tr1 ++ [⟨p.depth, Action.execvp (name :: args) false (fdGet fds2 0)
              (fdGet fds2 1)⟩],
            Except.error Ending.undefined) := by
  unfold ExecPipeTail
  simp only
  generalize redirect w p.depth (if in_ ≠ 0 then dup2 p.fds in_ 0 else p.fds) cmd tr = res
  obtain ⟨tr1, r⟩ := res
  cases r with
  | error e => rfl
  | ok fds2 => simp only [ha, hs, Bool.false_eq_true, if_false]

theorem lexesBefore_pipe_renderSp (ts : List Token) (l : LogicToken) (rest : List Char) :
    lexesBefore Token.pipe (renderSp (ts ++ [Token.logic l]) ++ rest) = true := by
  cases ts <;> simp [lexesBefore, renderSp]

/-- The command text ` B op` followed by anything is read as the command `B`, and `op`,
a connective, is the token then. -/
theorem GetCommand_items_logic (B : List Item) (hB : ∀ j ∈ B, plainWord j.word = true)
    (l : LogicToken) (rest : List Char) (x : Token) :
    GetCommand ⟨renderSp (itemTokens B ++ [Token.logic l]) ++ rest, x⟩ =
      Except.ok (B.foldl Item.apply {}, ⟨rest, Token.logic l⟩) := by
  have h := GetCommand_items_op (Token.logic l) rfl rest rfl B hB x
  have e : renderSp (itemTokens B ++ [Token.logic l]) ++ rest =
      ' ' :: (render (itemTokens B ++ [Token.logic l]) ++ rest) := by
    cases hb : itemTokens B ++ [Token.logic l] with
    | nil => simp at hb
    | cons t ts => rw [renderSp_eq_render]; rfl
  rw [e, GetCommand_space _ x x]
  exact h

/-- The loop of `ExecPipe` on ` B op rest`, entered after `A |`: `A` is launched into a
new pipe, `B` is built, and the loop ends with the connective as the token. -/
theorem ExecPipeLoop_two (w : World) (launch : Launcher) (n : Nat) (cmdA : Command)
    (B : List Item) (hB : ∀ j ∈ B, plainWord j.word = true) (l : LogicToken)
    (rest : List Char) (fds : FdTable) (depth : Nat) (in_ : Int) (tr : Trace)
    (hpipe : w.pipeOk tr = true) :
    ExecPipeLoop w launch (n + 2)
        ⟨⟨renderSp (itemTokens B ++ [Token.logic l]) ++ rest, Token.pipe⟩, fds, depth⟩
        cmdA in_ tr =
      match launch (Site.execPipe (pipeFds fds tr.length).2.1)
          ⟨⟨renderSp (itemTokens B ++ [Token.logic l]) ++ rest, Token.pipe⟩,
            (pipeFds fds tr.length).1, depth⟩ cmdA in_ (pipeFds fds tr.length).2.2
          (tr ++ [⟨depth, Action.pipe true⟩]) with
      | (tr1, Except.error e) => (tr1, Except.error e)
      | (tr1, Except.ok _) =>
        (tr1, Except.ok (⟨⟨rest, Token.logic l⟩,
          close (pipeFds fds tr.length).1 (pipeFds fds tr.length).2.2, depth⟩,
          B.foldl Item.apply {}, (pipeFds fds tr.length).2.1)) := by
  have hg := GetCommand_items_logic B hB l rest Token.pipe
  rw [ExecPipeLoop]
  simp only [Tokenizer.GetToken, if_true, hpipe]
  generalize launch (Site.execPipe (pipeFds fds tr.length).2.1)
    ⟨⟨renderSp (itemTokens B ++ [Token.logic l]) ++ rest, Token.pipe⟩,
      (pipeFds fds tr.length).1, depth⟩ cmdA in_ (pipeFds fds tr.length).2.2
    (tr ++ [⟨depth, Action.pipe true⟩]) = res
  obtain ⟨tr1, r⟩ := res
  cases r with
  | error e => rfl
  | ok st =>
    simp only [pipeResume, hg]
    split
    · rfl
    · rw [ExecPipeLoop]
      simp [Tokenizer.GetToken]

/-- The whole of `Execute` on `A | B op rest` when the program of `B` is not the
sentinel: the pipe, the launch of `A`, the redirections of `B`, and `execvp`. -/
theorem ExecuteWith_pipeline (w : World) (launch : Launcher) (A B : List Item)
    (name : SymbolToken) (args : List SymbolToken) (l : LogicToken) (rest : List Char)
    (hA : ∀ j ∈ A, plainWord j.word = true) (hB : ∀ j ∈ B, plainWord j.word = true)
    (hn : wordsOf B = name :: args) (hs : IsCaosMainConst name = false)
    (fds : FdTable) (depth : Nat) (tr : Trace) :
    ExecuteWith w launch
        ⟨Tokenizer.new (render (itemTokens A ++ [Token.pipe]) ++
          (renderSp (itemTokens B ++ [Token.logic l]) ++ rest)), fds, depth⟩ tr =
      if w.pipeOk tr then
        match launch (Site.execPipe (pipeFds fds tr.length).2.1)
            ⟨⟨renderSp (itemTokens B ++ [Token.logic l]) ++ rest, Token.pipe⟩,
              (pipeFds fds tr.length).1, depth⟩
            (A.foldl Item.apply {}) 0 (pipeFds fds tr.length).2.2
            (tr ++ [⟨depth, Action.pipe true⟩]) with
        | (tr1, Except.error e) => (tr1, Except.error e)
        | (tr1, Except.ok _) =>
          match redirect w depth (lastStageFds fds tr.length) (B.foldl Item.apply {}) tr1 with
          | (tr2, Except.error e) => (tr2, Except.error e)
          | (tr2, Except.ok fds2) =>
            if w.found tr2 name then
              (tr2 ++ [⟨depth, Action.execvp (name :: args) true (fdGet fds2 0)
                  (fdGet fds2 1)⟩],
                Except.error (Ending.replaced (w.wait tr2 (name :: args))))
            else
              (tr2 ++ [⟨depth, Action.execvp (name :: args) false (fdGet fds2 0)
                  (fdGet fds2 1)⟩],
                Except.error Ending.undefined)
      else
        (tr ++ [⟨depth, Action.pipe false⟩,
            ⟨depth, Action.cerr ("pipe: ".toList ++ w.strerror tr ++ "\n".toList)⟩],
          Except.error (Ending.exited 1)) := by
  have hargs : (B.foldl Item.apply {}).args = name :: args := by
    rw [foldl_apply_spec, ← hn]
    rfl
  have hg : GetCommand (Tokenizer.new (render (itemTokens A ++ [Token.pipe]) ++
      (renderSp (itemTokens B ++ [Token.logic l]) ++ rest))) =
      Except.ok (A.foldl Item.apply {},
        ⟨renderSp (itemTokens B ++ [Token.logic l]) ++ rest, Token.pipe⟩) :=
    GetCommand_items_op Token.pipe rfl _ (lexesBefore_pipe_renderSp _ l rest) A hA _
  have hpos : 0 < (renderSp (itemTokens B ++ [Token.logic l]) ++ rest).length := by
    cases hb : itemTokens B ++ [Token.logic l] with
    | nil => simp at hb
    | cons t ts => simp [renderSp]
  have hne : (Tokenizer.new (render (itemTokens A ++ [Token.pipe]) ++
      (renderSp (itemTokens B ++ [Token.logic l]) ++ rest))).IsEnd = false := by
    have : (render (itemTokens A ++ [Token.pipe]) ++
        (renderSp (itemTokens B ++ [Token.logic l]) ++ rest)) ≠ [] := by
      intro h0
      have := congrArg List.length h0
      simp only [List.length_append, List.length_nil] at this hpos
      omega
    simpa [Tokenizer.IsEnd, Tokenizer.new] using this
  have hfuel : (renderSp (itemTokens B ++ [Token.logic l]) ++ rest).length + 1 =
      ((renderSp (itemTokens B ++ [Token.logic l]) ++ rest).length - 1) + 2 := by
    omega
  rw [ExecuteWith, ExecuteLoop]
  simp only [hne, Bool.false_eq_true, if_false, hg, Tokenizer.GetToken, if_true, ExecPipeWith,
    hfuel]
  by_cases hpipe : w.pipeOk tr = true
  · rw [ExecPipeLoop_two w launch _ (A.foldl Item.apply {}) B hB l rest fds depth 0 tr hpipe]
    simp only [hpipe, if_true]
    generalize launch (Site.execPipe (pipeFds fds tr.length).2.1)
      ⟨⟨renderSp (itemTokens B ++ [Token.logic l]) ++ rest, Token.pipe⟩,
        (pipeFds fds tr.length).1, depth⟩
      (A.foldl Item.apply {}) 0 (pipeFds fds tr.length).2.2
      (tr ++ [⟨depth, Action.pipe true⟩]) = res
    obtain ⟨tr1, r⟩ := res
    cases r with
    | error e => rfl
    | ok st =>
      simp only
      rw [ExecPipeTail_program w _ (B.foldl Item.apply {}) name args hargs hs]
      simp only [lastStageFds]
      generalize redirect w depth
        (if (pipeFds fds tr.length).2.1 ≠ 0 then
          dup2 (close (pipeFds fds tr.length).1 (pipeFds fds tr.length).2.2)
            (pipeFds fds tr.length).2.1 0
        else close (pipeFds fds tr.length).1 (pipeFds fds tr.length).2.2)
        (B.foldl Item.apply {}) tr1 = res2
      obtain ⟨tr2, r2⟩ := res2
      cases r2 with
      | error e => rfl
      | ok fds2 =>
        by_cases hf : w.found tr2 name = true
        · simp only [hf, if_true]
        · simp only [hf, if_false, Bool.false_eq_true]
  · rw [ExecPipeLoop]
    simp [Tokenizer.GetToken, hpipe]

/-! ### Whitespace at the end of a line -/

theorem skipSpaces_spaces (ws : List Char) (hws : ∀ c ∈ ws, isspace c = true) :
    skipSpaces ws = (eofChar, []) := by
  induction ws with
  | nil => rfl
  | cons a ws ih =>
    simp only [skipSpaces, hws a (by simp), if_true]
    exact ih (fun b hb => hws b (by simp [hb]))

theorem Next_spaces (ws : List Char) (hws : ∀ c ∈ ws, isspace c = true) (x : Token) :
    Tokenizer.Next ⟨ws, x⟩ = some eofState := by
  simp only [Tokenizer.Next, skipSpaces_spaces ws hws]
  rfl

theorem sep_spaces (ws : List Char) (hws : ∀ c ∈ ws, isspace c = true) : sep ws = true := by
  cases ws with
  | nil => rfl
  | cons a ws => simpa [sep] using hws a (by simp)

theorem statesLoop_renderSp_spaces (ts : List Token) (h : ∀ t ∈ ts, t.plain = true)
    (ws : List Char) (hws : ∀ c ∈ ws, isspace c = true) (hne : ws ≠ []) (fuel : Nat)
    (hf : (renderSp ts ++ ws).length < fuel) (x : Token) :
    ∃ sts, statesLoop fuel ⟨renderSp ts ++ ws, x⟩ = some sts ∧
      sts.map Tokenizer.token = ts ++ [Token.symbol [eofChar]] := by
  induction ts generalizing fuel x with
  | nil =>
    have hpos : 0 < ws.length := List.length_pos.mpr hne
    obtain ⟨n, rfl⟩ : ∃ n, fuel = n + 2 := by
      simp only [renderSp, List.nil_append] at hf
      exact ⟨fuel - 2, by omega⟩
    refine ⟨[eofState], ?_, rfl⟩
    have he : (⟨renderSp [] ++ ws, x⟩ : Tokenizer).IsEnd = false := by
      cases ws with
      | nil => exact absurd rfl hne
      | cons a ws => simp [Tokenizer.IsEnd, renderSp]
    rw [statesLoop]
    simp only [he, Bool.false_eq_true, if_false, renderSp, List.nil_append,
      Next_spaces ws hws x]
    simp [statesLoop, eofState, Tokenizer.IsEnd, hne]
  | cons t ts ih =>
    cases fuel with
    | zero => simp at hf
    | succ n =>
      have hn : (renderSp ts ++ ws).length < n := by
        simp only [renderSp, List.length_cons, List.length_append] at hf ⊢
        omega
      have hnext : Tokenizer.Next ⟨renderSp (t :: ts) ++ ws, x⟩ =
          some ⟨renderSp ts ++ ws, t⟩ := by
        rw [renderSp, List.cons_append, Next_space _ x x, List.append_assoc]
        exact Next_text t _ (lexesBefore_of_plain t _ (h t (by simp))
          (sep_renderSp ts ws (sep_spaces ws hws))) x
      obtain ⟨sts, hst, hmap⟩ := ih (fun u hu => h u (by simp [hu])) n hn t
      refine ⟨⟨renderSp ts ++ ws, t⟩ :: sts, ?_, by simp [hmap]⟩
      rw [statesLoop, hnext]
      simp [hst, Tokenizer.IsEnd, renderSp]

/-- The tokens of a line of plain tokens to which whitespace is appended. -/
theorem tokens_render_spaces (ts : List Token) (h : ∀ t ∈ ts, t.plain = true)
    (ws : List Char) (hws : ∀ c ∈ ws, isspace c = true) (hne : ws ≠ []) :
    tokens (render ts ++ ws) = some (ts ++ [Token.symbol [eofChar]]) := by
  cases ts with
  | nil =>
    obtain ⟨sts, hst, hmap⟩ := statesLoop_renderSp_spaces [] (by simp) ws hws hne
      (ws.length + 1) (by simp [renderSp]) (Token.symbol [])
    simp only [renderSp, List.nil_append] at hst
    have hr : render ([] : List Token) = [] := rfl
    rw [tokens, Tokenizer.states, hr, List.nil_append, Tokenizer.new]
    simp only [hst, Option.map_some', hmap]
  | cons t ts =>
    have ht := h t (by simp)
    have hne1 := text_ne_nil t ht
    have hnext : Tokenizer.Next ⟨t.text ++ (renderSp ts ++ ws), Token.symbol []⟩ =
        some ⟨renderSp ts ++ ws, t⟩ :=
      Next_text t _ (lexesBefore_of_plain t _ ht (sep_renderSp ts ws (sep_spaces ws hws))) _
    have hlen : (renderSp ts ++ ws).length < (t.text ++ (renderSp ts ++ ws)).length := by
      have : 0 < t.text.length := List.length_pos.mpr hne1
      simp only [List.length_append]
      omega
    obtain ⟨sts, hst, hmap⟩ := statesLoop_renderSp_spaces ts (fun u hu => h u (by simp [hu]))
      ws hws hne _ hlen t
    rw [tokens, Tokenizer.states, render_cons, Tokenizer.new, List.append_assoc, statesLoop,
      hnext]
    simp only [hst]
    simp [Tokenizer.IsEnd, hne1, hmap]


/-! ### The standard input of a child launched with `from` 0 -/

theorem fdGet_zero (fds : FdTable) : fdGet fds 0 = fds.getD 0 none := by
  simp [fdGet]

theorem fdGet_fdPut_none (fds : FdTable) (k : Nat) (h : fdGet fds 0 = none) :
    fdGet (fdPut fds k none) 0 = none := by
  rw [fdGet_zero] at h ⊢
  cases fds with
  | nil =>
    cases k with
    | zero => simp [fdPut]
    | succ k => simp [fdPut, List.replicate_succ]
  | cons a fds =>
    have ha : a = none := by simpa using h
    subst ha
    cases k with
    | zero => simp [fdPut]
    | succ k =>
      by_cases hk : k < fds.length
      · simp [fdPut, hk]
      · simp [fdPut, hk]

theorem fdGet_fdPut_zero (fds : FdTable) : fdGet (fdPut fds 0 none) 0 = none := by
  rw [fdGet_zero]
  cases fds with
  | nil => simp [fdPut]
  | cons a fds => simp [fdPut]

theorem fdGet_fdPut_succ (fds : FdTable) (k : Nat) (d : Option Desc) :
    fdGet (fdPut fds (k + 1) d) 0 = fdGet fds 0 := by
  rw [fdGet_zero, fdGet_zero]
  cases fds with
  | nil => simp [fdPut, List.replicate_succ]
  | cons a fds =>
    by_cases hk : k < fds.length
    · simp [fdPut, hk]
    · simp [fdPut, hk]

/-- After `close(0)` descriptor 0 is closed. -/
theorem close_zero (fds : FdTable) : fdGet (close fds 0) 0 = none := by
  unfold close
  cases h : fdGet fds 0 with
  | none => simpa using h
  | some d => simpa using fdGet_fdPut_zero fds

/-- A closed descriptor 0 stays closed under `close`. -/
theorem close_keeps_closed (fds : FdTable) (x : Int) (h : fdGet fds 0 = none) :
    fdGet (close fds x) 0 = none := by
  unfold close
  cases hx : fdGet fds x with
  | none => simpa using h
  | some d => simpa using fdGet_fdPut_none fds x.toNat h

/-- A closed descriptor 0 stays closed under `dup2(x, 1)`. -/
theorem dup2_one_keeps_closed (fds : FdTable) (x : Int) (h : fdGet fds 0 = none) :
    fdGet (dup2 fds x 1) 0 = none := by
  unfold dup2
  cases hx : fdGet fds x with
  | none => simpa using h
  | some d =>
    simp only
    split
    · exact h
    · rw [fdGet_fdPut_succ fds 0]
      exact h

theorem lowestFree_closed (fds : FdTable) (h : fdGet fds 0 = none) : lowestFree fds = 0 := by
  rw [fdGet_zero] at h
  cases fds with
  | nil => rfl
  | cons a fds =>
    have ha : a = none := by simpa using h
    subst ha
    simp [lowestFree, List.findIdx_cons]

/-- With descriptor 0 closed, the redirections leave it closed: `open` returns 0, and
`close(fd)` after `dup2(fd, ...)` closes it again. -/
theorem redirect_keeps_closed (w : World) (depth : Nat) (fds : FdTable) (cmd : Command)
    (tr tr1 : Trace) (fds3 : FdTable) (h0 : fdGet fds 0 = none)
    (h : redirect w depth fds cmd tr = (tr1, Except.ok fds3)) : fdGet fds3 0 = none := by
  have key : ∀ (g : FdTable) (d : Option Desc) (target : Nat), fdGet g 0 = none →
      fdGet (moveFd (fdPut g (lowestFree g) d) (lowestFree g) target) 0 = none := by
    intro g d target hg
    rw [lowestFree_closed g hg]
    exact close_zero _
  unfold redirect at h
  by_cases hin : cmd.in_ = []
  · simp only [hin, if_true] at h
    by_cases hout : cmd.out = []
    · simp only [hout, if_true, Prod.mk.injEq, Except.ok.injEq] at h
      rw [← h.2]
      exact h0
    · simp only [hout, if_false] at h
      by_cases hw : w.canWrite tr cmd.out = true
      · simp only [hw, if_true, Prod.mk.injEq, Except.ok.injEq] at h
        rw [← h.2]
        exact key fds _ 1 h0
      · simp [hw] at h
  · simp only [hin, if_false] at h
    by_cases hr : w.canRead tr cmd.in_ = true
    · simp only [hr, if_true] at h
      have h1 := key fds (some (Desc.fileIn cmd.in_)) 0 h0
      by_cases hout : cmd.out = []
      · simp only [hout, if_true, Prod.mk.injEq, Except.ok.injEq] at h
        rw [← h.2]
        exact h1
      · simp only [hout, if_false] at h
        by_cases hw : w.canWrite (tr ++ [⟨depth, Action.openIn cmd.in_ true⟩]) cmd.out = true
        · simp only [hw, if_true, Prod.mk.injEq, Except.ok.injEq] at h
          rw [← h.2]
          exact key _ _ 1 h1
        · simp [hw] at h
    · simp [hr] at h

/-- A redirection that fails ends the process with `EXIT_FAILURE`. -/
theorem redirect_error (w : World) (depth : Nat) (fds : FdTable) (cmd : Command)
    (tr tr1 : Trace) (e : Ending) (h : redirect w depth fds cmd tr = (tr1, Except.error e)) :
    e = Ending.exited 1 := by
  unfold redirect at h
  by_cases hin : cmd.in_ = []
  · simp only [hin, if_true] at h
    by_cases hout : cmd.out = []
    · simp [hout] at h
    · simp only [hout, if_false] at h
      by_cases hw : w.canWrite tr cmd.out = true
      · simp [hw] at h
      · simp only [hw, Bool.false_eq_true, if_false, Prod.mk.injEq, Except.error.injEq] at h
        exact h.2.symm
  · simp only [hin, if_false] at h
    by_cases hr : w.canRead tr cmd.in_ = true
    · simp only [hr, if_true] at h
      by_cases hout : cmd.out = []
      · simp [hout] at h
      · simp only [hout, if_false] at h
        by_cases hw : w.canWrite (tr ++ [⟨depth, Action.openIn cmd.in_ true⟩]) cmd.out = true
        · simp [hw] at h
        · simp only [hw, Bool.false_eq_true, if_false, Prod.mk.injEq,
            Except.error.injEq] at h
          exact h.2.symm
    · simp only [hr, Bool.false_eq_true, if_false, Prod.mk.injEq, Except.error.injEq] at h
      exact h.2.symm

/-- The table of a child of `Exec` launched with `from` 0 has descriptor 0 closed once
the two `dup2`/`close` pairs are done. -/
theorem moveFd_from_zero (fds : FdTable) (to_ : Int) :
    fdGet (if to_ ≠ -1 then moveFd (moveFd fds 0 0) to_ 1 else moveFd fds 0 0) 0 = none := by
  have h0 : fdGet (moveFd fds 0 0) 0 = none := close_zero _
  split
  · exact close_keeps_closed _ _ (dup2_one_keeps_closed _ _ h0)
  · exact h0

/-- A child of `Exec` launched with `from` 0 that becomes a program does so with
descriptor 0 closed. -/
theorem ExecChild_from_zero (w : World) (p : Proc) (cmd : Command) (to_ : Int)
    (tr tr1 : Trace) (ws : WaitStatus)
    (h : ExecChild w p cmd 0 to_ tr = (tr1, Except.error (Ending.replaced ws))) :
    ∃ tr0 o, tr1 = tr0 ++ [⟨p.depth, Action.execvp cmd.args true none o⟩] := by
  unfold ExecChild at h
  simp only [ne_eq, show ¬ ((0 : Int) = -1) by decide, not_false_eq_true, if_true] at h
  have hc := moveFd_from_zero p.fds to_
  simp only [ne_eq] at hc
  generalize hfd : (if ¬ to_ = -1 then moveFd (moveFd p.fds 0 0) to_ 1
    else moveFd p.fds 0 0) = fds2 at h hc
  have hk := redirect_keeps_closed w p.depth fds2 cmd tr
  have hre := redirect_error w p.depth fds2 cmd tr
  generalize redirect w p.depth fds2 cmd tr = res at h hk hre
  obtain ⟨tr2, r⟩ := res
  cases r with
  | error e =>
    simp only [Prod.mk.injEq, Except.error.injEq] at h
    obtain ⟨-, he⟩ := h
    subst he
    have := hre tr2 _ rfl
    simp at this
  | ok fds3 =>
    have h3 := hk tr2 fds3 hc rfl
    simp only at h
    cases hargs : cmd.args with
    | nil => simp [hargs] at h
    | cons name rest =>
      simp only [hargs] at h
      by_cases hs : IsCaosMainConst name = true
      · simp [hs] at h
      · simp only [hs, Bool.false_eq_true, if_false] at h
        by_cases hf : w.found tr2 name = true
        · simp only [hf, if_true, Prod.mk.injEq] at h
          exact ⟨tr2, fdGet fds3 1, by rw [← h.1, h3]⟩
        · simp [hf] at h


/-! ### Termination of the tokenizer and of the loops over it -/

theorem readQuoted_of_mem (q : Char) (hq : q ≠ escape) (s : List Char) (cur : SymbolToken)
    (h : q ∈ s) : ∃ w r, readQuoted q s cur = some (w, r) := by
  induction s, cur using readQuoted.induct q with
  | case1 cur => simp at h
  | case2 cur => exact ⟨cur, [], by simp [readQuoted]⟩
  | case3 c cur hc =>
    simp only [List.mem_singleton] at h
    exact absurd h.symm hc
  | case4 d ds cur => exact ⟨cur, d :: ds, by simp [readQuoted]⟩
  | case5 c d ds cur hc he ih =>
    rw [readQuoted, if_neg hc, if_pos he]
    apply ih
    simp only [List.mem_cons] at h
    rcases h with h | h | h
    · exact absurd h.symm hc
    · exact absurd (h.trans he.1) hq
    · exact h
  | case6 c d ds cur hc he ih =>
    rw [readQuoted, if_neg hc, if_neg he]
    apply ih
    simp only [List.mem_cons] at h ⊢
    rcases h with h | h
    · exact absurd h.symm hc
    · exact h

/-- A call of `Next` returns when the quote that opens its token, if one does, is
closed. -/
theorem Next_of_openingClosed (t : Tokenizer) (h : openingClosed t = true) :
    ∃ v, t.Next = some v := by
  unfold Tokenizer.Next nextFrom
  unfold openingClosed at h
  generalize (skipSpaces t.stream).1 = c at h ⊢
  generalize (skipSpaces t.stream).2 = s at h ⊢
  by_cases h5 : c = dquote ∨ c = squote
  · have hmem : c ∈ s := by
      rcases h5 with h5 | h5 <;> simpa [h5] using h
    have hq : c ≠ escape := by
      rcases h5 with h5 | h5 <;> rw [h5] <;> decide
    have h1 : c ≠ '>' := by
      rcases h5 with h5 | h5 <;> rw [h5] <;> decide
    have h2 : c ≠ '<' := by
      rcases h5 with h5 | h5 <;> rw [h5] <;> decide
    have h3 : c ≠ '|' := by
      rcases h5 with h5 | h5 <;> rw [h5] <;> decide
    have h4 : c ≠ '&' := by
      rcases h5 with h5 | h5 <;> rw [h5] <;> decide
    obtain ⟨w, r, hw⟩ := readQuoted_of_mem c hq s [] hmem
    rw [if_neg h1, if_neg h2, if_neg h3, if_neg (fun hc => h4 hc.1), if_pos h5, hw]
    exact ⟨_, rfl⟩
  · rw [if_neg h5]
    by_cases h1 : c = '>'
    · rw [if_pos h1]; exact ⟨_, rfl⟩
    rw [if_neg h1]
    by_cases h2 : c = '<'
    · rw [if_pos h2]; exact ⟨_, rfl⟩
    rw [if_neg h2]
    by_cases h3 : c = '|'
    · rw [if_pos h3]
      cases s with
      | nil => exact ⟨_, rfl⟩
      | cons d s1 =>
        by_cases hd : d = '|'
        · exact ⟨⟨s1, Token.logic LogicToken.OR⟩, by simp only [hd, if_true]⟩
        · exact ⟨⟨d :: s1, Token.pipe⟩, by simp only [hd, if_false]⟩
    rw [if_neg h3]
    by_cases h4 : c = '&' ∧ s.head? = some '&'
    · rw [if_pos h4]; exact ⟨_, rfl⟩
    rw [if_neg h4]
    exact ⟨_, rfl⟩

theorem QuotesClosed_of_reaches {t u : Tokenizer} (h : t.QuotesClosed) (hr : t.Reaches u) :
    u.QuotesClosed := fun v hv => h v (Reaches_trans hr hv)

theorem QuotesClosed_next {t : Tokenizer} (h : t.QuotesClosed) :
    ∃ v, t.Next = some v ∧ v.QuotesClosed := by
  obtain ⟨v, hv⟩ := Next_of_openingClosed t (h t (Reaches_refl t))
  exact ⟨v, hv, QuotesClosed_of_reaches h (Reaches_step hv (Reaches_refl v))⟩

/-- With every opening quote closed, calling `Next` until `IsEnd` ends, after no more
calls than characters are left. -/
theorem statesLoop_closed (fuel : Nat) (t : Tokenizer) (hf : t.stream.length < fuel)
    (h : t.QuotesClosed) :
    ∃ sts, statesLoop fuel t = some sts ∧ sts.length ≤ t.stream.length := by
  induction fuel generalizing t with
  | zero => simp at hf
  | succ n ih =>
    rw [statesLoop]
    cases he : t.IsEnd with
    | true => exact ⟨[], by simp, by simp⟩
    | false =>
      obtain ⟨v, hv, hvc⟩ := QuotesClosed_next h
      have hlt := Next_length_lt t v he hv
      obtain ⟨sts, hs, hl⟩ := ih v (by omega) hvc
      refine ⟨v :: sts, by simp [hv, hs], ?_⟩
      simp only [List.length_cons]
      omega

theorem getCommandStep_closed (n : Nat) (t : Tokenizer) (cmd : Command)
    (h : t.QuotesClosed) (hf : t.stream.length ≤ n)
    (ih : ∀ (u : Tokenizer) (c : Command), u.stream.length < n → u.QuotesClosed →
      (∃ r, GetCommandLoop n u c = Except.ok r) ∨
        GetCommandLoop n u c = Except.error Ending.badVariantAccess) :
    (∃ r, getCommandStep (GetCommandLoop n) t cmd = Except.ok r) ∨
      getCommandStep (GetCommandLoop n) t cmd = Except.error Ending.badVariantAccess := by
  rw [getCommandStep]
  cases he : t.IsEnd with
  | true => exact Or.inl ⟨(cmd, t), by simp⟩
  | false =>
    obtain ⟨v, hv, hvc⟩ := QuotesClosed_next h
    have hlt := Next_length_lt t v he hv
    simp only [hv, Bool.false_eq_true, if_false]
    exact ih v cmd (by omega) hvc

/-- With every opening quote closed, the loop of `GetCommand` returns or throws. -/
theorem GetCommandLoop_closed (fuel : Nat) (t : Tokenizer) (cmd : Command)
    (hf : t.stream.length < fuel) (h : t.QuotesClosed) :
    (∃ r, GetCommandLoop fuel t cmd = Except.ok r) ∨
      GetCommandLoop fuel t cmd = Except.error Ending.badVariantAccess := by
  induction fuel generalizing t cmd with
  | zero => simp at hf
  | succ n ih =>
    rw [GetCommandLoop]
    cases htok : t.GetToken with
    | logic l => exact Or.inl ⟨_, rfl⟩
    | pipe => exact Or.inl ⟨_, rfl⟩
    | symbol s =>
      exact getCommandStep_closed n t _ h (by omega) (fun u c hu hc => ih u c hu hc)
    | flow f =>
      obtain ⟨v, hv, hvc⟩ := QuotesClosed_next h
      have hle := Next_length_le t v hv
      simp only [hv]
      cases hvt : v.GetToken with
      | symbol s =>
        exact getCommandStep_closed n v _ hvc (by omega) (fun u c hu hc => ih u c hu hc)
      | logic l => exact Or.inr rfl
      | pipe => exact Or.inr rfl
      | flow g => exact Or.inr rfl

theorem GetCommand_closed (t : Tokenizer) (h : t.QuotesClosed) :
    (∃ r, GetCommand t = Except.ok r) ∨
      GetCommand t = Except.error Ending.badVariantAccess := by
  obtain ⟨v, hv, hvc⟩ := QuotesClosed_next h
  rw [GetCommand]
  simp only [hv]
  exact GetCommandLoop_closed _ v {} (Nat.lt_succ_self _) hvc

/-- With every opening quote closed, the skipping loop of `Execute` returns or throws. -/
theorem SkipLoop_closed (fuel : Nat) (t : Tokenizer) (hf : t.stream.length < fuel)
    (h : t.QuotesClosed) :
    (∃ u, SkipLoop fuel t = Except.ok u) ∨
      SkipLoop fuel t = Except.error Ending.badVariantAccess := by
  induction fuel generalizing t with
  | zero => simp at hf
  | succ n ih =>
    rw [SkipLoop]
    split
    · rename_i hc
      have he : t.IsEnd = false := by
        simp only [Bool.and_eq_true, Bool.not_eq_true'] at hc
        exact hc.1
      rcases GetCommand_closed t h with ⟨⟨cmd1, t1⟩, hg⟩ | hg
      · have hlt := ((GetCommand_fuel t).2 cmd1 t1 hg).2 he
        simp only [hg]
        exact ih t1 (by omega) (QuotesClosed_of_reaches h (GetCommand_reaches t cmd1 t1 hg))
      · rw [hg]
        exact Or.inr rfl
    · exact Or.inl ⟨_, rfl⟩

/-- Every opening quote is closed when it is so at the states of the line. -/
theorem quotesClosed_of_states (t : Tokenizer) (sts : List Tokenizer)
    (hs : t.states = some sts) (ht : openingClosed t = true)
    (hall : ∀ s ∈ sts, openingClosed s = true) : t.QuotesClosed := by
  intro u hu
  rcases reaches_chain (chain_of_statesLoop _ _ _ hs) hu with h | h | h
  · rw [h]; exact ht
  · exact hall u h
  · rw [h]; rfl


/-! ### When `GetCommand` throws -/

theorem redirectOk_of_not_flow {t : Tokenizer} (h : ∀ f, t.token ≠ Token.flow f) :
    t.redirectOk = true := by
  unfold Tokenizer.redirectOk
  cases ht : t.token with
  | flow f => exact absurd ht (h f)
  | symbol s => rfl
  | logic l => rfl
  | pipe => rfl

/-- The loop of `GetCommand` over a chain throws when a redirection before the end of the
command is not followed by a word. -/
theorem GetCommandLoop_bad (fuel : Nat) (t : Tokenizer) (sts : List Tokenizer)
    (cmd : Command) (hc : Chain t sts) (hf : t.stream.length < fuel)
    (hb : ∃ s ∈ (t :: sts).takeWhile (fun s => !s.token.ends), s.redirectOk = false) :
    GetCommandLoop fuel t cmd = Except.error Ending.badVariantAccess := by
  induction fuel generalizing t sts cmd with
  | zero => simp at hf
  | succ n ih =>
    obtain ⟨b, hbm, hbb⟩ := hb
    rw [GetCommandLoop]
    cases htok : t.token with
    | logic l =>
      rw [List.takeWhile_cons_of_neg (by simp [htok, Token.ends])] at hbm
      simp at hbm
    | pipe =>
      rw [List.takeWhile_cons_of_neg (by simp [htok, Token.ends])] at hbm
      simp at hbm
    | symbol w =>
      have hte : t.token.ends = false := by simp [htok, Token.ends]
      have hok : t.redirectOk = true := redirectOk_of_not_flow (by simp [htok])
      rw [List.takeWhile_cons_of_pos (by simp [hte])] at hbm
      rcases List.mem_cons.mp hbm with h | h
      · rw [h, hok] at hbb
        simp at hbb
      · simp only [Tokenizer.GetToken, htok, getCommandStep]
        cases sts with
        | nil => simp at h
        | cons t1 sts1 =>
          simp only [Chain] at hc
          obtain ⟨he, hn, hc1⟩ := hc
          have hlt := Next_length_lt t t1 he hn
          simp only [he, hn, Bool.false_eq_true, if_false]
          exact ih t1 sts1 _ hc1 (by omega) ⟨b, h, hbb⟩
    | flow f =>
      have hte : t.token.ends = false := by simp [htok, Token.ends]
      rw [List.takeWhile_cons_of_pos (by simp [hte])] at hbm
      cases sts with
      | nil =>
        simp only [Chain] at hc
        have hn := Next_of_end t hc
        have hok : t.redirectOk = true := by
          simp [Tokenizer.redirectOk, htok, hn, eofState]
        simp only [List.takeWhile_nil, List.mem_singleton] at hbm
        rw [hbm, hok] at hbb
        simp at hbb
      | cons t1 sts1 =>
        simp only [Chain] at hc
        obtain ⟨he, hn, hc1⟩ := hc
        have hlt := Next_length_lt t t1 he hn
        simp only [Tokenizer.GetToken, htok, hn]
        cases htok1 : t1.token with
        | logic l => rfl
        | pipe => rfl
        | flow g => rfl
        | symbol p =>
          have hok : t.redirectOk = true := by
            simp [Tokenizer.redirectOk, htok, hn, htok1]
          have hte1 : t1.token.ends = false := by simp [htok1, Token.ends]
          have hok1 : t1.redirectOk = true := redirectOk_of_not_flow (by simp [htok1])
          rcases List.mem_cons.mp hbm with h | h
          · rw [h, hok] at hbb
            simp at hbb
          · rw [List.takeWhile_cons_of_pos (by simp [hte1])] at h
            rcases List.mem_cons.mp h with h | h
            · rw [h, hok1] at hbb
              simp at hbb
            · simp only [getCommandStep]
              cases sts1 with
              | nil => simp at h
              | cons t2 sts2 =>
                simp only [Chain] at hc1
                obtain ⟨he1, hn1, hc2⟩ := hc1
                have hlt1 := Next_length_lt t1 t2 he1 hn1
                simp only [he1, hn1, Bool.false_eq_true, if_false]
                exact ih t2 sts2 _ hc2 (by omega) ⟨b, h, hbb⟩

/-- Over the states of its input, `GetCommand` throws when a redirection before the end
of the command is not followed by a word, and returns a command otherwise. -/
theorem GetCommand_states (t : Tokenizer) (sts : List Tokenizer) (hs : t.states = some sts) :
    ((∃ s ∈ sts.takeWhile (fun s => !s.token.ends), s.redirectOk = false) →
        GetCommand t = Except.error Ending.badVariantAccess) ∧
      ((∀ s ∈ sts.takeWhile (fun s => !s.token.ends), s.redirectOk = true) →
        ∃ r, GetCommand t = Except.ok r) := by
  have hc := chain_of_statesLoop _ _ _ hs
  cases sts with
  | nil =>
    simp only [Chain] at hc
    refine ⟨fun hb => by simp at hb, fun _ => ?_⟩
    rw [GetCommand, Next_of_end t hc]
    exact ⟨_, rfl⟩
  | cons t1 sts1 =>
    constructor
    · intro hb
      simp only [Chain] at hc
      obtain ⟨_, hn, hc1⟩ := hc
      simp only [GetCommand, hn]
      exact GetCommandLoop_bad _ t1 sts1 {} hc1 (Nat.lt_succ_self _) hb
    · intro hr
      obtain ⟨cmd1, u, h, _⟩ := GetCommand_chain t t1 sts1 hc hr
      exact ⟨_, h⟩


/-! ## The claims -/

/-- C1.  On the line `C && D`, with `C` and `D` commands made of plain words and
any launcher in the place of `Exec`, `Execute` launches `C`; when the launcher returns
status 0 for it, `Execute` then launches `D`, once, and ends as that launch ends; when it
returns a status other than 0, nothing more is launched and `Execute` returns that status.
(When the launch of `C` ends the interpreter, so does `Execute`.) -/
theorem and_launches_second_iff_first_succeeds (w : World) (launch : Launcher)
    (C D : List SymbolToken) (hD : D ≠ [])
    (hCp : ∀ s ∈ C, plainWord s = true) (hDp : ∀ s ∈ D, plainWord s = true)
    (fds : FdTable) (depth : Nat) (tr : Trace) :
    ExecuteWith w launch
        ⟨Tokenizer.new (render (C.map Token.symbol ++
          Token.logic LogicToken.AND :: D.map Token.symbol)), fds, depth⟩ tr =
      match launch Site.execute
          ⟨⟨renderSp (D.map Token.symbol), Token.logic LogicToken.AND⟩, fds, depth⟩
          ⟨C, [], []⟩ (-1) (-1) tr with
      | (tr1, Except.error e) => (tr1, Except.error e)
      | (tr1, Except.ok st) =>
        if st = 0 then
          launch Site.execute ⟨⟨[], Token.symbol (D.getLastD [])⟩, fds, depth⟩
            ⟨D, [], []⟩ (-1) (-1) tr1
        else (tr1, Except.ok st) := by
  obtain ⟨m, hm⟩ := ExecuteWith_first w launch C D LogicToken.AND hD hCp fds depth tr
  rw [hm]
  rcases launch Site.execute
    ⟨⟨renderSp (D.map Token.symbol), Token.logic LogicToken.AND⟩, fds, depth⟩
    ⟨C, [], []⟩ (-1) (-1) tr with ⟨tr1, r⟩
  cases r with
  | error e => rfl
  | ok st =>
    by_cases hst : st = 0
    · subst hst
      simp only [executeResume, logicStep, Tokenizer.GetToken, if_true]
      simpa using ExecuteLoop_last_words w launch m D hD hDp _ fds depth 0 tr1
    · have hlen : ∃ k, (renderSp (D.map Token.symbol)).length + 1 = k + 2 := by
        cases D with
        | nil => exact absurd rfl hD
        | cons d D => exact ⟨(renderSp (D.map Token.symbol)).length + d.length, by
            simp [renderSp, Token.text]; omega⟩
      obtain ⟨k, hk⟩ := hlen
      have hskip := SkipLoop_last_words k D hD hDp (Token.logic LogicToken.AND) (by simp)
      simp only [executeResume, logicStep, Tokenizer.GetToken, hst, and_false, if_false, hk,
        hskip]
      exact ExecuteLoop_end w launch (m + 1)
        ⟨⟨[], Token.symbol (D.getLastD [])⟩, fds, depth⟩ st tr1 rfl

/-- C1, at the instance `true && echo hi` in the sample world: `true` is launched and
succeeds, then `echo hi` is launched, once. -/
theorem and_launches_second_iff_first_succeeds_witness :
    Execute sampleWorld "true && echo hi".toList =
      ([⟨0, Action.fork ⟨["true".toList], [], []⟩ (-1) (-1)⟩,
        ⟨1, Action.execvp ["true".toList] true (some (Desc.inherited 0))
          (some (Desc.inherited 1))⟩,
        ⟨0, Action.fork ⟨["echo".toList, "hi".toList], [], []⟩ (-1) (-1)⟩,
        ⟨1, Action.execvp ["echo".toList, "hi".toList] true (some (Desc.inherited 0))
          (some (Desc.inherited 1))⟩], Except.ok 0) :=
  Eq.trans
    (and_launches_second_iff_first_succeeds sampleWorld
      (Exec sampleWorld ("true && echo hi".toList.length + 1))
      ["true".toList] ["echo".toList, "hi".toList] (by decide) (by decide) (by decide)
      stdFds 0 [])
    rfl

/-- C2.  On the line `C || D`, with `C` and `D` commands made of plain words and
any launcher in the place of `Exec`, `Execute` launches `C`; when the launcher returns
status 0 for it, nothing more is launched and `Execute` returns 0; when it returns a status
other than 0, `Execute` then launches `D` and ends as that launch ends, returning the
status of `D`. -/
theorem or_launches_second_iff_first_fails (w : World) (launch : Launcher)
    (C D : List SymbolToken) (hD : D ≠ [])
    (hCp : ∀ s ∈ C, plainWord s = true) (hDp : ∀ s ∈ D, plainWord s = true)
    (fds : FdTable) (depth : Nat) (tr : Trace) :
    ExecuteWith w launch
        ⟨Tokenizer.new (render (C.map Token.symbol ++
          Token.logic LogicToken.OR :: D.map Token.symbol)), fds, depth⟩ tr =
      match launch Site.execute
          ⟨⟨renderSp (D.map Token.symbol), Token.logic LogicToken.OR⟩, fds, depth⟩
          ⟨C, [], []⟩ (-1) (-1) tr with
      | (tr1, Except.error e) => (tr1, Except.error e)
      | (tr1, Except.ok st) =>
        if st = 0 then (tr1, Except.ok 0)
        else
          launch Site.execute ⟨⟨[], Token.symbol (D.getLastD [])⟩, fds, depth⟩
            ⟨D, [], []⟩ (-1) (-1) tr1 := by
  obtain ⟨m, hm⟩ := ExecuteWith_first w launch C D LogicToken.OR hD hCp fds depth tr
  rw [hm]
  rcases launch Site.execute
    ⟨⟨renderSp (D.map Token.symbol), Token.logic LogicToken.OR⟩, fds, depth⟩
    ⟨C, [], []⟩ (-1) (-1) tr with ⟨tr1, r⟩
  cases r with
  | error e => rfl
  | ok st =>
    by_cases hst : st = 0
    · subst hst
      simp [executeResume, logicStep, Tokenizer.GetToken]
    · have hskip : SkipLoop ((renderSp (D.map Token.symbol)).length + 1)
          ⟨renderSp (D.map Token.symbol), Token.logic LogicToken.OR⟩ =
          Except.ok ⟨renderSp (D.map Token.symbol), Token.logic LogicToken.OR⟩ := by
        rw [SkipLoop]
        simp [Tokenizer.GetToken]
      simp only [executeResume, logicStep, Tokenizer.GetToken, hst, and_false, if_false, hskip]
      exact ExecuteLoop_last_words w launch m D hD hDp _ fds depth st tr1

/-- C2, at the instance `false || echo hi` in the sample world: `false` is launched and
fails, then `echo hi` is launched and its status 0 is the result. -/
theorem or_launches_second_iff_first_fails_witness :
    Execute sampleWorld "false || echo hi".toList =
      ([⟨0, Action.fork ⟨["false".toList], [], []⟩ (-1) (-1)⟩,
        ⟨1, Action.execvp ["false".toList] true (some (Desc.inherited 0))
          (some (Desc.inherited 1))⟩,
        ⟨0, Action.fork ⟨["echo".toList, "hi".toList], [], []⟩ (-1) (-1)⟩,
        ⟨1, Action.execvp ["echo".toList, "hi".toList] true (some (Desc.inherited 0))
          (some (Desc.inherited 1))⟩], Except.ok 0) :=
  Eq.trans
    (or_launches_second_iff_first_fails sampleWorld
      (Exec sampleWorld ("false || echo hi".toList.length + 1))
      ["false".toList] ["echo".toList, "hi".toList] (by decide) (by decide) (by decide)
      stdFds 0 [])
    rfl

/-- C3.  In any round of the loop of `Execute`, from any state: when the command built is
followed by the token `||` and the launcher returns status 0 for it, `Execute` returns 0
and the trace is as that launch left it: nothing of the rest of the line is launched,
whatever it is. -/
theorem or_after_success_returns_zero (w : World) (launch : Launcher) (n : Nat) (p : Proc)
    (st : Int) (tr tr1 : Trace) (cmd : Command) (t1 : Tokenizer)
    (hne : p.t.IsEnd = false) (hg : GetCommand p.t = Except.ok (cmd, t1))
    (hor : t1.GetToken = Token.logic LogicToken.OR)
    (hl : launch Site.execute { p with t := t1 } cmd (-1) (-1) tr = (tr1, Except.ok 0)) :
    ExecuteLoop w launch (n + 1) p st tr = (tr1, Except.ok 0) := by
  rw [ExecuteLoop_launch w launch n p st tr cmd t1 hne hg (by simp [hor]), hl]
  simp [executeResume, logicStep, hor]

/-- C3, at the instance `true || false && echo hi` in the sample world: only `true` is
launched, and the result is 0. -/
theorem or_after_success_returns_zero_witness :
    Execute sampleWorld "true || false && echo hi".toList =
      ([⟨0, Action.fork ⟨["true".toList], [], []⟩ (-1) (-1)⟩,
        ⟨1, Action.execvp ["true".toList] true (some (Desc.inherited 0))
          (some (Desc.inherited 1))⟩], Except.ok 0) :=
  or_after_success_returns_zero sampleWorld
    (Exec sampleWorld ("true || false && echo hi".toList.length + 1))
    "true || false && echo hi".toList.length
    ⟨Tokenizer.new "true || false && echo hi".toList, stdFds, 0⟩ 0 [] _
    ⟨["true".toList], [], []⟩ ⟨" false && echo hi".toList, Token.logic LogicToken.OR⟩
    (by decide) rfl (by decide) rfl

/-- C5.  Lexing undoes rendering: for every list of tokens in which each word is plain (not
empty, of ASCII characters that are no whitespace, not beginning with one of `>`, `<`,
`|`, a quote or the escape character, nor with `&&`), calling `Next` until `IsEnd` on the
texts of the tokens joined by single spaces yields that list; and the line
`ls -la | grep foo > out.txt && echo done` yields its ten tokens. -/
theorem lexing_undoes_rendering (ts : List Token) (h : ∀ t ∈ ts, t.plain = true) :
    tokens (render ts) = some ts ∧
      tokens "ls -la | grep foo > out.txt && echo done".toList =
        some [Token.symbol "ls".toList, Token.symbol "-la".toList, Token.pipe,
          Token.symbol "grep".toList, Token.symbol "foo".toList, Token.flow FlowToken.OUT,
          Token.symbol "out.txt".toList, Token.logic LogicToken.AND,
          Token.symbol "echo".toList, Token.symbol "done".toList] :=
  ⟨tokens_render ts h, by decide⟩

/-- C5, at an instance: the tokens of `cat < in.txt || a>b &x`. -/
theorem lexing_undoes_rendering_witness :
    tokens "cat < in.txt || a>b &x".toList =
      some [Token.symbol "cat".toList, Token.flow FlowToken.IN, Token.symbol "in.txt".toList,
        Token.logic LogicToken.OR, Token.symbol "a>b".toList, Token.symbol "&x".toList] :=
  (lexing_undoes_rendering
    [Token.symbol "cat".toList, Token.flow FlowToken.IN, Token.symbol "in.txt".toList,
      Token.logic LogicToken.OR, Token.symbol "a>b".toList, Token.symbol "&x".toList]
    (by decide)).1

/-- C6.  For a quote character `q` and a string `s` without `q` and without the escape
character, one call of `Next` on `q s q` yields the word `s`, whitespace included and also
when `s` is empty, and leaves nothing unread. -/
theorem quoted_word_is_one_token (q : Char) (hq : q = dquote ∨ q = squote) (s : List Char)
    (hs : ∀ c ∈ s, c ≠ q ∧ c ≠ escape) (x : Token) :
    Tokenizer.Next ⟨q :: (s ++ [q]), x⟩ = some ⟨[], Token.symbol s⟩ ∧
      ∀ t1, Tokenizer.Next ⟨q :: (s ++ [q]), x⟩ = some t1 → t1.IsEnd = true := by
  have h := Next_quoted q hq s hs [] x
  refine ⟨h, ?_⟩
  intro t1 ht
  rw [h] at ht
  cases ht
  rfl

/-- C6, at an instance: the double-quoted `a b`. -/
theorem quoted_word_is_one_token_witness :
    Tokenizer.Next ⟨dquote :: ("a b".toList ++ [dquote]), Token.symbol []⟩ =
      some ⟨[], Token.symbol "a b".toList⟩ :=
  (quoted_word_is_one_token dquote (Or.inl rfl) "a b".toList (by decide) (Token.symbol [])).1

/-- C7.  For a command text made of pieces, each a plain word or a redirection operator
with a plain word as its target, in any order, with at most one `<` and at most one `>`:
`GetCommand` returns the command whose `args` are the words in order, whose `in` is the
target of `<` and whose `out` is the target of `>`, each empty when absent.  When the text
is followed by the end of the line (and has at least one piece), the tokenizer is at the
end afterwards; when it is followed by a pipe or a connective `op` and then by `rest`,
the current token afterwards is `op` and `rest` is unread. -/
theorem GetCommand_builds_command (its : List Item)
    (hp : ∀ i ∈ its, plainWord i.word = true)
    (hin : (targetsOf FlowToken.IN its).length ≤ 1)
    (hout : (targetsOf FlowToken.OUT its).length ≤ 1) (x : Token) :
    (its ≠ [] → ∃ t1, GetCommand ⟨render (itemTokens its), x⟩ =
        Except.ok (⟨wordsOf its, (targetsOf FlowToken.IN its).head?.getD [],
          (targetsOf FlowToken.OUT its).head?.getD []⟩, t1) ∧ t1.IsEnd = true) ∧
      ∀ (op : Token) (rest : List Char), op.ends = true →
        (op = Token.pipe → rest.head? ≠ some '|') →
        GetCommand ⟨render (itemTokens its ++ [op]) ++ rest, x⟩ =
          Except.ok (⟨wordsOf its, (targetsOf FlowToken.IN its).head?.getD [],
            (targetsOf FlowToken.OUT its).head?.getD []⟩, ⟨rest, op⟩) := by
  have hcmd : its.foldl Item.apply {} = ⟨wordsOf its, (targetsOf FlowToken.IN its).head?.getD [],
      (targetsOf FlowToken.OUT its).head?.getD []⟩ := by
    rw [foldl_apply_spec, getLast?_eq_head? _ hin, getLast?_eq_head? _ hout]
    simp
  constructor
  · intro hne
    cases its with
    | nil => exact absurd rfl hne
    | cons i its =>
      exact ⟨⟨[], Token.symbol (lastWord i.word its)⟩,
        by rw [← hcmd]; exact GetCommand_items_end i its hp x, rfl⟩
  · intro op rest hop hpipe
    rw [← hcmd]
    refine GetCommand_items_op op hop rest ?_ its hp x
    cases op with
    | symbol s => simp [Token.ends] at hop
    | flow f => rfl
    | logic l => rfl
    | pipe => simpa [lexesBefore] using hpipe rfl

/-- C7, at an instance: `cat < in.txt -n > out.txt | wc`. -/
theorem GetCommand_builds_command_witness :
    GetCommand (Tokenizer.new "cat < in.txt -n > out.txt | wc".toList) =
      Except.ok (⟨["cat".toList, "-n".toList], "in.txt".toList, "out.txt".toList⟩,
        ⟨" wc".toList, Token.pipe⟩) :=
  (GetCommand_builds_command
    [Item.arg "cat".toList, Item.redirect FlowToken.IN "in.txt".toList, Item.arg "-n".toList,
      Item.redirect FlowToken.OUT "out.txt".toList]
    (by decide) (by decide) (by decide) (Token.symbol [])).2 Token.pipe " wc".toList rfl
    (by decide)

/-- C8, as the claim states it, fails: for the line `doesnotexist123` in the sample world,
where no such program exists, the text on the error stream is
`./lavash: line 1: doesnotexist123: command not found` with a newline, not
`doesnotexist123: command not found`. -/
theorem unresolved_program_message_counterexample :
    errOutput (Execute sampleWorld "doesnotexist123".toList).1 =
        "./lavash: line 1: doesnotexist123: command not found\n".toList ∧
      errOutput (Execute sampleWorld "doesnotexist123".toList).1 ≠
        "doesnotexist123: command not found".toList := by
  decide

/-- C8, amended.  For every command launched by `Exec`, alone (from `Execute`) or as a stage
of a pipeline (from the loop of `ExecPipe`), whose first argument `name` is not the
sentinel, whose redirections, if any, open, and whose program `execvp` never finds: `Exec`
returns status 127, the text written to the error stream during the call is exactly
`./lavash: line 1: ` then `name` then `: command not found` and a newline, and no program
is started. -/
theorem unresolved_program_message_and_status (w : World) (k : Nat) (site : Site) (p : Proc)
    (cmd : Command) (from_ to_ : Int) (tr : Trace) (name : SymbolToken)
    (rest : List SymbolToken) (hargs : cmd.args = name :: rest)
    (hsent : IsCaosMainConst name = false)
    (hin : cmd.in_ = [] ∨ ∀ h, w.canRead h cmd.in_ = true)
    (hout : cmd.out = [] ∨ ∀ h, w.canWrite h cmd.out = true)
    (hnf : ∀ h, w.found h name = false) :
    ∃ tr1, Exec w (k + 1) site p cmd from_ to_ tr = (tr1, Except.ok 127) ∧
      errOutput tr1 = errOutput tr ++
        ("./lavash: line 1: ".toList ++ name ++ ": command not found\n".toList) ∧
      programsRun tr1 = programsRun tr := by
  obtain ⟨tr1, fds1, hred, herr, hrun⟩ := redirect_ok w (p.depth + 1)
    (if to_ ≠ -1 then moveFd (if from_ ≠ -1 then moveFd p.fds from_ 0 else p.fds) to_ 1
      else (if from_ ≠ -1 then moveFd p.fds from_ 0 else p.fds)) cmd
    (tr ++ [⟨p.depth, Action.fork cmd from_ to_⟩]) hin hout
  refine ⟨tr1 ++ [⟨p.depth + 1, Action.execvp cmd.args false (fdGet fds1 0) (fdGet fds1 1)⟩,
    ⟨p.depth + 1, Action.cerr (lavashMessage name ": command not found\n")⟩], ?_, ?_, ?_⟩
  · simp only [Exec, ExecChild, hred, hargs, hsent, hnf, Bool.false_eq_true, if_false, waitpid]
    rfl
  · rw [errOutput_append, herr, errOutput_append]
    simp [errOutput, lavashMessage]
  · rw [programsRun_append, hrun, programsRun_append]
    simp [programsRun]

/-- C8 amended, at an instance: `doesnotexist123 -x` as a stage of a pipeline. -/
theorem unresolved_program_message_and_status_witness :
    ∃ tr1, Exec sampleWorld 1 (Site.execPipe 3) ⟨⟨" cat".toList, Token.pipe⟩,
        [some (Desc.inherited 0), some (Desc.inherited 1), some (Desc.inherited 2),
          some (Desc.pipeRead 0), some (Desc.pipeWrite 0)], 0⟩
        ⟨["doesnotexist123".toList, "-x".toList], [], []⟩ 0 4 [⟨0, Action.pipe true⟩] =
          (tr1, Except.ok 127) ∧
      errOutput tr1 = errOutput [⟨0, Action.pipe true⟩] ++
        ("./lavash: line 1: ".toList ++ "doesnotexist123".toList ++
          ": command not found\n".toList) ∧
      programsRun tr1 = programsRun [⟨0, Action.pipe true⟩] :=
  unresolved_program_message_and_status sampleWorld 0 (Site.execPipe 3) _ _ 0 4 _
    "doesnotexist123".toList ["-x".toList] rfl (by decide) (Or.inl rfl) (Or.inl rfl)
    (fun _ => rfl)

/-- C9, as the claim states it, fails: for the line `cat < missing.txt` in the sample
world, where that file cannot be read, the text on the error stream is
`./lavash: line 1: missing.txt: No such file or directory` with a newline, not
`missing.txt: No such file or directory`. -/
theorem unreadable_input_message_counterexample :
    errOutput (Execute sampleWorld "cat < missing.txt".toList).1 =
        "./lavash: line 1: missing.txt: No such file or directory\n".toList ∧
      errOutput (Execute sampleWorld "cat < missing.txt".toList).1 ≠
        "missing.txt: No such file or directory".toList := by
  decide

/-- C9, amended.  For every command whose input path `cmd.in` is not empty and can never
be opened for reading: a launch by `Exec` forks a child that tries the file, writes exactly
`./lavash: line 1: ` then the path then `: No such file or directory` and a newline to the
error stream, and ends, and `Exec` returns status 1; as the last stage of a pipeline, in
`ExecPipe`, the interpreter itself tries the file, writes the same text and ends with exit
code 1.  In both cases no `execvp` takes place: no program is run. -/
theorem unreadable_input_message_and_status (w : World) (k : Nat) (site : Site) (p : Proc)
    (cmd : Command) (from_ to_ inFd : Int) (tr : Trace) (hne : cmd.in_ ≠ [])
    (hno : ∀ h, w.canRead h cmd.in_ = false) :
    Exec w (k + 1) site p cmd from_ to_ tr =
        (tr ++ [⟨p.depth, Action.fork cmd from_ to_⟩,
          ⟨p.depth + 1, Action.openIn cmd.in_ false⟩,
          ⟨p.depth + 1, Action.cerr ("./lavash: line 1: ".toList ++ cmd.in_ ++
            ": No such file or directory\n".toList)⟩], Except.ok 1) ∧
      ExecPipeTail w p cmd inFd tr =
        (tr ++ [⟨p.depth, Action.openIn cmd.in_ false⟩,
          ⟨p.depth, Action.cerr ("./lavash: line 1: ".toList ++ cmd.in_ ++
            ": No such file or directory\n".toList)⟩], Except.error (Ending.exited 1)) := by
  constructor
  · simp only [Exec, ExecChild, redirect, hne, hno, Bool.false_eq_true, if_false, waitpid,
      lavashMessage]
    simp
  · simp only [ExecPipeTail, redirect, hne, hno, Bool.false_eq_true, if_false, lavashMessage]

/-- C9 amended, at an instance: `cat < missing.txt` in the sample world. -/
theorem unreadable_input_message_and_status_witness :
    Exec sampleWorld 1 Site.execute ⟨⟨[], Token.symbol "missing.txt".toList⟩, stdFds, 0⟩
        ⟨["cat".toList], "missing.txt".toList, []⟩ (-1) (-1) [] =
      ([⟨0, Action.fork ⟨["cat".toList], "missing.txt".toList, []⟩ (-1) (-1)⟩,
        ⟨1, Action.openIn "missing.txt".toList false⟩,
        ⟨1, Action.cerr ("./lavash: line 1: ".toList ++ "missing.txt".toList ++
          ": No such file or directory\n".toList)⟩], Except.ok 1) :=
  (unreadable_input_message_and_status sampleWorld 0 Site.execute
    ⟨⟨[], Token.symbol "missing.txt".toList⟩, stdFds, 0⟩
    ⟨["cat".toList], "missing.txt".toList, []⟩ (-1) (-1) 0 [] (by decide)
    (fun _ => rfl)).1

/-- C10: what the code does with the sentinel.  On the line `1984 && echo hi` in the
sample world the child forked for `1984` (depth 1) comes back from `Exec` and itself
launches `echo hi` (run at depth 2), after which the interpreter launches `echo hi` again:
the rest of the line is evaluated twice.  And for `1984` followed by `&& false` the call
of `Exec` returns 1, the exit code with which the child ended its own evaluation, not 0. -/
theorem sentinel_child_evaluates_rest_of_line :
    Execute sampleWorld "1984 && echo hi".toList =
        ([⟨0, Action.fork ⟨["1984".toList], [], []⟩ (-1) (-1)⟩,
          ⟨1, Action.fork ⟨["echo".toList, "hi".toList], [], []⟩ (-1) (-1)⟩,
          ⟨2, Action.execvp ["echo".toList, "hi".toList] true (some (Desc.inherited 0))
            (some (Desc.inherited 1))⟩,
          ⟨0, Action.fork ⟨["echo".toList, "hi".toList], [], []⟩ (-1) (-1)⟩,
          ⟨1, Action.execvp ["echo".toList, "hi".toList] true (some (Desc.inherited 0))
            (some (Desc.inherited 1))⟩], Except.ok 0) ∧
      Exec sampleWorld 2 Site.execute ⟨⟨" false".toList, Token.logic LogicToken.AND⟩, stdFds, 0⟩
          ⟨["1984".toList], [], []⟩ (-1) (-1) [] =
        ([⟨0, Action.fork ⟨["1984".toList], [], []⟩ (-1) (-1)⟩,
          ⟨1, Action.fork ⟨["false".toList], [], []⟩ (-1) (-1)⟩,
          ⟨2, Action.execvp ["false".toList] true (some (Desc.inherited 0))
            (some (Desc.inherited 1))⟩], Except.ok 1) :=
  ⟨rfl, rfl⟩

/-- C11, as the claim states it, fails: with one argument after the program name
(argument count 2), here the line `true`, `main` writes the usage error and returns 1;
the evaluator on that line returns 0. -/
theorem main_one_argument_counterexample :
    main sampleWorld ["./lavash".toList, "true".toList] =
        ([⟨0, Action.cerr "Invalid number of args\n".toList⟩], Except.ok 1) ∧
      (Execute sampleWorld "true".toList).2 = Except.ok 0 :=
  ⟨rfl, rfl⟩

/-- C11, amended.  `main` evaluates the line when it receives exactly two command-line
arguments after the program name (argument count 3), the line being the second of them,
`argv[2]`, and returns the status of `Execute`; for every other argument count it writes
`Invalid number of args` and a newline to the error stream and returns the failure code 1,
and nothing else happens: nothing is evaluated. -/
theorem main_evaluates_third_argument (w : World) (argv : List (List Char)) :
    (argv.length = 3 → main w argv = Execute w (argv.getD 2 [])) ∧
      (argv.length ≠ 3 →
        main w argv = ([⟨0, Action.cerr "Invalid number of args\n".toList⟩], Except.ok 1)) := by
  constructor
  · intro h
    simp [main, h]
  · intro h
    simp [main, h]

/-- C11 amended, at an instance: `./lavash -c true` in the sample world runs `true` and
returns its status 0. -/
theorem main_evaluates_third_argument_witness :
    main sampleWorld ["./lavash".toList, "-c".toList, "true".toList] =
      ([⟨0, Action.fork ⟨["true".toList], [], []⟩ (-1) (-1)⟩,
        ⟨1, Action.execvp ["true".toList] true (some (Desc.inherited 0))
          (some (Desc.inherited 1))⟩], Except.ok 0) :=
  Eq.trans
    ((main_evaluates_third_argument sampleWorld
      ["./lavash".toList, "-c".toList, "true".toList]).1 rfl)
    rfl

/-- C12.  For every launcher in the place of `Exec` and every state of the tokenizer
from which no pipe token is to come: when `Execute` returns, the status it returns is the
status of the last command it launched, and 0 when it launched none; on an empty line it
launches none.  The launches are those of the recorded loop, which without the record is
`Execute`. -/
theorem Execute_returns_last_status (w : World) (launch : Launcher) (p : Proc) (tr tr1 : Trace)
    (r : Int) (log : LaunchLog) (hp : p.t.PipeFree)
    (h : ExecuteWithLog w launch p tr = ((tr1, Except.ok r), log)) :
    ExecuteWith w launch p tr = (tr1, Except.ok r) ∧
      r = ((log.getLast?).map Prod.snd).getD 0 ∧
      (p.t.IsEnd = true → log = []) := by
  refine ⟨?_, ?_, ?_⟩
  · have := ExecuteLoopLog_erase w launch (p.t.stream.length + 1) p 0 tr []
    rw [ExecuteWithLog] at h
    rw [h] at this
    exact this.symm
  · obtain ⟨new, hnew, hr⟩ := ExecuteLoopLog_last w launch _ p 0 tr [] tr1 r log hp h
    simp only [List.nil_append] at hnew
    rw [hnew]
    exact hr
  · intro he
    rw [ExecuteWithLog, ExecuteLoopLog] at h
    simp only [he, if_true, Prod.mk.injEq] at h
    exact h.2.symm

/-- C12, at the instance `true && false` in the sample world: `true` returns 0, `false`
returns 1, and 1 is the status of the line. -/
theorem Execute_returns_last_status_witness :
    Execute sampleWorld "true && false".toList =
        ([⟨0, Action.fork ⟨["true".toList], [], []⟩ (-1) (-1)⟩,
          ⟨1, Action.execvp ["true".toList] true (some (Desc.inherited 0))
            (some (Desc.inherited 1))⟩,
          ⟨0, Action.fork ⟨["false".toList], [], []⟩ (-1) (-1)⟩,
          ⟨1, Action.execvp ["false".toList] true (some (Desc.inherited 0))
            (some (Desc.inherited 1))⟩], Except.ok 1) ∧
      (1 : Int) = (((([(⟨["true".toList], [], []⟩, 0), (⟨["false".toList], [], []⟩, 1)] :
        LaunchLog).getLast?).map Prod.snd).getD 0) :=
  (fun h => ⟨h.1, h.2.1⟩)
    (Execute_returns_last_status sampleWorld
      (Exec sampleWorld ("true && false".toList.length + 1))
      ⟨Tokenizer.new "true && false".toList, stdFds, 0⟩ [] _ 1
      [(⟨["true".toList], [], []⟩, 0), (⟨["false".toList], [], []⟩, 1)]
      (pipeFree_of_states _
        [⟨" && false".toList, Token.symbol "true".toList⟩,
          ⟨" false".toList, Token.logic LogicToken.AND⟩,
          ⟨[], Token.symbol "false".toList⟩] rfl (by decide) (by decide))
      rfl)

/-- C13.  Between two quotes `q`, with the text cut at its maximal runs of escape
characters, one call of `Next` yields the word in which every character other than the
escape character is as it was and a run of `n` escape characters has become
`collapsed n` of them: `k` for a run of `2 * k`, and `k + 1` for a run of `2 * k + 1`.
The closing quote is read and `r`, what follows it, is left. -/
theorem doubled_escape_collapses (q : Char) (hq : q = dquote ∨ q = squote)
    (bs : List QuotedPiece) (hb : quotedOk q bs = true) (r : List Char) (x : Token) :
    Tokenizer.Next ⟨q :: (quotedText bs ++ q :: r), x⟩ =
        some ⟨r, Token.symbol (quotedWord bs)⟩ ∧
      ∀ k, collapsed (2 * k) = k ∧ collapsed (2 * k + 1) = k + 1 := by
  constructor
  · rw [Next_quote q hq, readQuoted_pieces q (escape_ne_quote q hq) bs hb r []]
    simp
  · intro k
    simp only [collapsed]
    omega

/-- C13, at an instance: between double quotes, `a`, four escape characters, `b`, three
escape characters give `a`, two escape characters, `b`, two escape characters. -/
theorem doubled_escape_collapses_witness :
    Tokenizer.Next ⟨dquote :: (['a', escape, escape, escape, escape, 'b', escape, escape,
        escape] ++ dquote :: " x".toList), Token.symbol []⟩ =
      some ⟨" x".toList, Token.symbol ['a', escape, escape, 'b', escape, escape]⟩ :=
  (doubled_escape_collapses dquote (Or.inl rfl)
    [QuotedPiece.char 'a', QuotedPiece.escapes 4, QuotedPiece.char 'b', QuotedPiece.escapes 3]
    (by decide) " x".toList (Token.symbol [])).1

/-- C14.  For every `n` of at least 1 and every string `w` without whitespace that does
not begin with the escape character, one call of `Next` on `n` escape characters followed
by `w` yields the word `w`, whatever `n` is and with the escape characters inside `w`
kept, and leaves nothing unread. -/
theorem leading_escapes_are_dropped (n : Nat) (hn : 1 ≤ n) (w : List Char)
    (hw : ∀ c ∈ w, isspace c = false) (hh : w.head? ≠ some escape) (x : Token) :
    Tokenizer.Next ⟨List.replicate n escape ++ w, x⟩ = some ⟨[], Token.symbol w⟩ := by
  obtain ⟨m, rfl⟩ : ∃ m, n = m + 1 := ⟨n - 1, by omega⟩
  rw [List.replicate_succ, List.cons_append, Next_escape, dropEscapes_run m w hh]
  have := readWord_append w hw [] rfl []
  simp only [List.append_nil, List.nil_append] at this
  rw [this]

/-- C14, at an instance: three escape characters before `a`, an escape character, `b`. -/
theorem leading_escapes_are_dropped_witness :
    Tokenizer.Next ⟨List.replicate 3 escape ++ ['a', escape, 'b'], Token.symbol []⟩ =
      some ⟨[], Token.symbol ['a', escape, 'b']⟩ :=
  leading_escapes_are_dropped 3 (by decide) ['a', escape, 'b'] (by decide) (by decide)
    (Token.symbol [])

/-- C15.  When the first character after the whitespace `ws` is `&`: followed by a second
`&`, `Next` yields the token `&&` and has read both; otherwise `Next` yields the word made
of the `&` and the characters after it up to the next whitespace or the end, and leaves
the rest. -/
theorem ampersand_and_or_word (ws : List Char) (hws : ∀ c ∈ ws, isspace c = true)
    (rest : List Char) (x : Token) :
    Tokenizer.Next ⟨ws ++ '&' :: '&' :: rest, x⟩ = some ⟨rest, Token.logic LogicToken.AND⟩ ∧
      (rest.head? ≠ some '&' →
        Tokenizer.Next ⟨ws ++ '&' :: rest, x⟩ =
          some ⟨rest.dropWhile (fun c => !isspace c),
            Token.symbol ('&' :: rest.takeWhile (fun c => !isspace c))⟩) := by
  have hamp : isspace '&' = false := by decide
  constructor
  · simp only [Tokenizer.Next, skipSpaces_append ws hws '&' hamp, nextFrom]
    rw [if_neg (by decide), if_neg (by decide), if_neg (by decide), if_pos (by simp)]
    rfl
  · intro hr
    simp only [Tokenizer.Next, skipSpaces_append ws hws '&' hamp, nextFrom]
    rw [if_neg (by decide), if_neg (by decide), if_neg (by decide),
      if_neg (fun h => hr h.2), if_neg (by decide), if_neg (by decide), if_neg (by decide),
      readWord_eq]
    rfl

/-- C15, at an instance: a lone `&` before `x y` after two spaces. -/
theorem ampersand_and_or_word_witness :
    Tokenizer.Next ⟨"  &x y".toList, Token.symbol []⟩ =
      some ⟨" y".toList, Token.symbol "&x".toList⟩ :=
  (ampersand_and_or_word "  ".toList (by decide) "x y".toList (Token.symbol [])).2 (by decide)

/-- C16, where the program departs from it.  For every line of plain tokens and every
non-empty string of whitespace: the tokens of the line are the tokens it was written
from, and the tokens of the line with the whitespace appended are these followed by one
more token, a word of the single character that `get()` yields at the end of the source.
The whitespace at the end of the line does produce a token. -/
theorem trailing_whitespace_yields_extra_word (ts : List Token)
    (h : ∀ t ∈ ts, t.plain = true) (ws : List Char) (hws : ∀ c ∈ ws, isspace c = true)
    (hne : ws ≠ []) :
    tokens (render ts) = some ts ∧
      tokens (render ts ++ ws) = some (ts ++ [Token.symbol [eofChar]]) ∧
      tokens (render ts ++ ws) ≠ tokens (render ts) := by
  have h1 := tokens_render ts h
  have h2 := tokens_render_spaces ts h ws hws hne
  refine ⟨h1, h2, ?_⟩
  rw [h1, h2]
  simp

/-- C16, at the instance `ls` followed by one blank: the tokens are the word `ls` and a
word of the end-of-source character, where `ls` alone gives the word `ls`. -/
theorem trailing_whitespace_yields_extra_word_witness :
    tokens "ls".toList = some [Token.symbol "ls".toList] ∧
      tokens "ls ".toList = some [Token.symbol "ls".toList, Token.symbol [eofChar]] :=
  (fun h => ⟨h.1, h.2.1⟩)
    (trailing_whitespace_yields_extra_word [Token.symbol "ls".toList] (by decide) [' ']
      (by decide) (by decide))

/-- C17, where the program departs from it.  `ExecPipe` launches the first stage with
`from` 0, and a child that `Exec` launches with `from` 0 and that becomes a program does
so with descriptor 0 closed, whatever its command is, with a `<` file or without: its
standard input is neither that of the interpreter nor its file.  On `cat | cat` and on
`cat < f | cat` in the sample world the first `cat` is forked with `from` 0 and started
with no standard input. -/
theorem first_stage_starts_with_stdin_closed (w : World) (p : Proc) (cmd : Command)
    (to_ : Int) (tr tr1 : Trace) (ws : WaitStatus)
    (h : ExecChild w p cmd 0 to_ tr = (tr1, Except.error (Ending.replaced ws))) :
    (∃ tr0 o, tr1 = tr0 ++ [⟨p.depth, Action.execvp cmd.args true none o⟩]) ∧
      Execute sampleWorld "cat | cat".toList =
        ([⟨0, Action.pipe true⟩,
          ⟨0, Action.fork ⟨["cat".toList], [], []⟩ 0 4⟩,
          ⟨1, Action.execvp ["cat".toList] true none (some (Desc.pipeWrite 0))⟩,
          ⟨0, Action.execvp ["cat".toList] true (some (Desc.pipeRead 0))
            (some (Desc.inherited 1))⟩],
          Except.error (Ending.replaced (WaitStatus.exited 0))) ∧
      Execute sampleWorld "cat < f | cat".toList =
        ([⟨0, Action.pipe true⟩,
          ⟨0, Action.fork ⟨["cat".toList], "f".toList, []⟩ 0 4⟩,
          ⟨1, Action.openIn "f".toList true⟩,
          ⟨1, Action.execvp ["cat".toList] true none (some (Desc.pipeWrite 0))⟩,
          ⟨0, Action.execvp ["cat".toList] true (some (Desc.pipeRead 0))
            (some (Desc.inherited 1))⟩],
          Except.error (Ending.replaced (WaitStatus.exited 0))) :=
  ⟨ExecChild_from_zero w p cmd to_ tr tr1 ws h, rfl, rfl⟩

/-- C17, at the instance of the child that `cat < f | cat` forks: launched with `from` 0
and `to` 4 on the table of the interpreter after `pipe`, it opens `f` and starts `cat`
with descriptor 0 closed. -/
theorem first_stage_starts_with_stdin_closed_witness :
    ∃ tr0 o, ([⟨1, Action.openIn "f".toList true⟩,
        ⟨1, Action.execvp ["cat".toList] true none (some (Desc.pipeWrite 0))⟩] : Trace) =
      tr0 ++ [⟨1, Action.execvp ["cat".toList] true none o⟩] :=
  (first_stage_starts_with_stdin_closed sampleWorld
    ⟨⟨" cat".toList, Token.pipe⟩, (pipeFds stdFds 0).1, 1⟩ ⟨["cat".toList], "f".toList, []⟩
    4 [] _ (WaitStatus.exited 0) rfl).1

/-- C18.  For every launcher in the place of `Exec` and every line `A | B op rest`, with
`A` and `B` commands of plain words and redirections, the program of `B` not the sentinel,
`op` one of `&&` and `||` and `rest` any text: `Execute` never returns a status; and when
the pipe can be made, the launch of `A` returns, the redirections of `B` succeed and the
program of `B` resolves, the run is the launch of `A`, the redirections of `B` and one
more event, the replacement of the interpreter itself by `B`, after which nothing happens
in it: nothing of `rest` is read, launched or skipped. -/
theorem pipeline_last_stage_replaces_interpreter (w : World) (launch : Launcher)
    (A B : List Item) (name : SymbolToken) (args : List SymbolToken) (l : LogicToken)
    (rest : List Char) (hA : ∀ j ∈ A, plainWord j.word = true)
    (hB : ∀ j ∈ B, plainWord j.word = true) (hn : wordsOf B = name :: args)
    (hs : IsCaosMainConst name = false) (fds : FdTable) (depth : Nat) (tr : Trace) :
    (∀ st, (ExecuteWith w launch
        ⟨Tokenizer.new (render (itemTokens A ++ [Token.pipe]) ++
          (renderSp (itemTokens B ++ [Token.logic l]) ++ rest)), fds, depth⟩ tr).2 ≠
        Except.ok st) ∧
      ∀ tr1 stA tr2 fds2, w.pipeOk tr = true →
        launch (Site.execPipe (pipeFds fds tr.length).2.1)
            ⟨⟨renderSp (itemTokens B ++ [Token.logic l]) ++ rest, Token.pipe⟩,
              (pipeFds fds tr.length).1, depth⟩
            (A.foldl Item.apply {}) 0 (pipeFds fds tr.length).2.2
            (tr ++ [⟨depth, Action.pipe true⟩]) = (tr1, Except.ok stA) →
        redirect w depth (lastStageFds fds tr.length) (B.foldl Item.apply {}) tr1 =
          (tr2, Except.ok fds2) →
        w.found tr2 name = true →
        ExecuteWith w launch
            ⟨Tokenizer.new (render (itemTokens A ++ [Token.pipe]) ++
              (renderSp (itemTokens B ++ [Token.logic l]) ++ rest)), fds, depth⟩ tr =
          (tr2 ++ [⟨depth, Action.execvp (name :: args) true (fdGet fds2 0) (fdGet fds2 1)⟩],
            Except.error (Ending.replaced (w.wait tr2 (name :: args)))) := by
  rw [ExecuteWith_pipeline w launch A B name args l rest hA hB hn hs fds depth tr]
  constructor
  · intro st
    split
    · generalize launch (Site.execPipe (pipeFds fds tr.length).2.1)
        ⟨⟨renderSp (itemTokens B ++ [Token.logic l]) ++ rest, Token.pipe⟩,
          (pipeFds fds tr.length).1, depth⟩
        (A.foldl Item.apply {}) 0 (pipeFds fds tr.length).2.2
        (tr ++ [⟨depth, Action.pipe true⟩]) = res
      obtain ⟨tr1, r⟩ := res
      cases r with
      | error e => simp
      | ok stA =>
        simp only
        generalize redirect w depth (lastStageFds fds tr.length) (B.foldl Item.apply {})
          tr1 = res2
        obtain ⟨tr2, r2⟩ := res2
        cases r2 with
        | error e => simp
        | ok fds2 =>
          simp only
          split <;> simp
    · simp
  · intro tr1 stA tr2 fds2 hpipe hl hr hf
    rw [hl]
    simp only [hpipe, if_true]
    rw [hr]
    simp only [hf, if_true]

/-- C18, at the instance `echo hi | cat > f && echo x` in the sample world: `echo hi` is
launched into the pipe, the interpreter opens `f` and becomes `cat`, and `echo x` never
runs. -/
theorem pipeline_last_stage_replaces_interpreter_witness :
    Execute sampleWorld "echo hi | cat > f && echo x".toList =
      ([⟨0, Action.pipe true⟩,
        ⟨0, Action.fork ⟨["echo".toList, "hi".toList], [], []⟩ 0 4⟩,
        ⟨1, Action.execvp ["echo".toList, "hi".toList] true none
          (some (Desc.pipeWrite 0))⟩,
        ⟨0, Action.openOut "f".toList true⟩,
        ⟨0, Action.execvp ["cat".toList] true (some (Desc.pipeRead 0))
          (some (Desc.fileOut "f".toList))⟩],
        Except.error (Ending.replaced (WaitStatus.exited 0))) :=
  Eq.trans
    ((pipeline_last_stage_replaces_interpreter sampleWorld
      (Exec sampleWorld ("echo hi | cat > f && echo x".toList.length + 1))
      [Item.arg "echo".toList, Item.arg "hi".toList]
      [Item.arg "cat".toList, Item.redirect FlowToken.OUT "f".toList] "cat".toList []
      LogicToken.AND " echo x".toList (by decide) (by decide) rfl (by decide) stdFds 0 []).2
      _ 0 _ _ rfl rfl rfl rfl)
    rfl

/-- C19.  For every state of the tokenizer from which every opening quote is closed:
each call of `Next` made at a state reached from it while `IsEnd` is false returns and
leaves fewer characters than it found; calling `Next` until `IsEnd` ends after no more
calls than characters are left; `GetCommand` returns a command or throws; and so does the
skipping loop of `Execute`.  None of them hangs, and the bounds on the rounds of the loops
are enough. -/
theorem tokenizing_terminates (t : Tokenizer) (h : t.QuotesClosed) :
    (∀ u, t.Reaches u → u.IsEnd = false →
        ∃ v, u.Next = some v ∧ v.stream.length < u.stream.length) ∧
      (∃ sts, t.states = some sts ∧ sts.length ≤ t.stream.length) ∧
      ((∃ r, GetCommand t = Except.ok r) ∨
        GetCommand t = Except.error Ending.badVariantAccess) ∧
      ((∃ u, SkipLoop (t.stream.length + 1) t = Except.ok u) ∨
        SkipLoop (t.stream.length + 1) t = Except.error Ending.badVariantAccess) := by
  refine ⟨?_, ?_, GetCommand_closed t h, SkipLoop_closed _ t (Nat.lt_succ_self _) h⟩
  · intro u hu he
    obtain ⟨v, hv⟩ := Next_of_openingClosed u (h u hu)
    exact ⟨v, hv, Next_length_lt u v he hv⟩
  · exact statesLoop_closed _ t (Nat.lt_succ_self _) h

/-- C19, at the instance `echo "a b" 'c'`, whose two opening quotes are closed: calling
`Next` until `IsEnd` ends after at most 14 calls, one for each character. -/
theorem tokenizing_terminates_witness :
    ∃ sts, (Tokenizer.new ("echo ".toList ++ dquote :: "a b".toList ++
        dquote :: ' ' :: squote :: 'c' :: [squote])).states = some sts ∧ sts.length ≤ 14 :=
  (tokenizing_terminates
    (Tokenizer.new ("echo ".toList ++ dquote :: "a b".toList ++
      dquote :: ' ' :: squote :: 'c' :: [squote]))
    (quotesClosed_of_states _
      [⟨' ' :: dquote :: "a b".toList ++ dquote :: ' ' :: squote :: 'c' :: [squote],
          Token.symbol "echo".toList⟩,
        ⟨' ' :: squote :: 'c' :: [squote], Token.symbol "a b".toList⟩,
        ⟨[], Token.symbol "c".toList⟩] rfl (by decide) (by decide))).2.1

/-- C20 as it stands fails: on a line that is a double quote followed by `abc`, with no
redirection operator anywhere, `GetCommand` does not return a command; the quoted word is
never closed and the call of `Next` does not return. -/
theorem GetCommand_unclosed_quote_counterexample :
    GetCommand (Tokenizer.new (dquote :: "abc".toList)) = Except.error Ending.hang ∧
      (Tokenizer.new (dquote :: "abc".toList)).states = none :=
  ⟨rfl, rfl⟩

/-- C20 amended.  For every input on which calling `Next` until `IsEnd` ends, `sts` being
the states after each call: `GetCommand` throws if and only if, before the first pipe or
connective, some state holds a redirection operator that is not followed by a word; and
it returns a command if and only if there is no such state. -/
theorem GetCommand_throws_iff_redirection_lacks_word (t : Tokenizer) (sts : List Tokenizer)
    (hs : t.states = some sts) :
    (GetCommand t = Except.error Ending.badVariantAccess ↔
        ∃ s ∈ sts.takeWhile (fun s => !s.token.ends), s.redirectOk = false) ∧
      ((∃ r, GetCommand t = Except.ok r) ↔
        ∀ s ∈ sts.takeWhile (fun s => !s.token.ends), s.redirectOk = true) := by
  obtain ⟨hbad, hgood⟩ := GetCommand_states t sts hs
  by_cases hb : ∃ s ∈ sts.takeWhile (fun s => !s.token.ends), s.redirectOk = false
  · have he := hbad hb
    refine ⟨⟨fun _ => hb, fun _ => he⟩, ⟨fun ⟨r, hr⟩ => ?_, fun hall => ?_⟩⟩
    · rw [he] at hr
      cases hr
    · obtain ⟨s, hm, hf⟩ := hb
      rw [hall s hm] at hf
      cases hf
  · have hall : ∀ s ∈ sts.takeWhile (fun s => !s.token.ends), s.redirectOk = true := by
      intro s hm
      cases hr : s.redirectOk with
      | true => rfl
      | false => exact absurd ⟨s, hm, hr⟩ hb
    obtain ⟨r, hr⟩ := hgood hall
    refine ⟨⟨fun he => ?_, fun h => absurd h hb⟩, ⟨fun _ => hall, fun _ => ⟨r, hr⟩⟩⟩
    rw [hr] at he
    cases he

/-- C20 amended, at two instances: on `a < | b` the redirection is followed by a pipe and
`GetCommand` throws; on `a < f | b` it is followed by the word `f` and `GetCommand`
returns. -/
theorem GetCommand_throws_iff_redirection_lacks_word_witness :
    GetCommand (Tokenizer.new "a < | b".toList) = Except.error Ending.badVariantAccess ∧
      ∃ r, GetCommand (Tokenizer.new "a < f | b".toList) = Except.ok r :=
  ⟨(GetCommand_throws_iff_redirection_lacks_word (Tokenizer.new "a < | b".toList)
      [⟨" < | b".toList, Token.symbol "a".toList⟩, ⟨" | b".toList, Token.flow FlowToken.IN⟩,
        ⟨" b".toList, Token.pipe⟩, ⟨[], Token.symbol "b".toList⟩] rfl).1.mpr
      ⟨⟨" | b".toList, Token.flow FlowToken.IN⟩, by decide, rfl⟩,
    (GetCommand_throws_iff_redirection_lacks_word (Tokenizer.new "a < f | b".toList)
      [⟨" < f | b".toList, Token.symbol "a".toList⟩,
        ⟨" f | b".toList, Token.flow FlowToken.IN⟩,
        ⟨" | b".toList, Token.symbol "f".toList⟩,
        ⟨" b".toList, Token.pipe⟩, ⟨[], Token.symbol "b".toList⟩] rfl).2.mpr (by decide)⟩

end MyBash
